import Mathlib

/-!
A shallow embedding of `titlecase.go`, the title-case filter of runeimp/titlecase.

The Go program is embedded as pure functions over lists of code points.

* A Go `string` is modelled as `List Nat`, the sequence of code points obtained by
  decoding it as UTF-8; a code point (Go's `rune`) is a `Nat`.  The input is taken to be
  valid UTF-8.  A byte that is not part of a valid UTF-8 sequence is written
  `invalidByte b` (a value above the Unicode range), so that the one place where the
  program slices a string inside a multi-byte character can be expressed.
* The regular expressions of the pattern table are embedded as matchers written from the
  pattern text, with Go's leftmost-first semantics: alternatives are tried in the order
  they are written, a greedy operator tries the longest repetition first, `\b` is the
  ASCII word boundary and `^`, `$` are the beginning and the end of the text.
* The case mappings of the Go standard library (`unicode.ToUpper`, `unicode.ToLower` and
  `unicode.ToTitle`, on which `strings.ToUpper`, `strings.ToLower` and `strings.Title`
  rest) are embedded with their tables: on ASCII as the library computes them, beyond
  ASCII by the ranges of the simple case mappings of the Unicode Character Database
  (version 14.0.0), the data from which the tables of package `unicode` are generated.
* `Convert` calls itself; the embedding bounds the depth of the calls by a natural
  number.  `Fault.stackExhausted` is the outcome of a call that needs more depth than it
  was given, `Fault.sliceOutOfRange` the run-time panic of a slice expression.
* The possessive rule slices the bytes of the word.  `aposRecase` gives its result on
  code points; `aposRecaseBytes` is the same rule on the UTF-8 bytes of the word, with
  the slice expressions of the source, and is proved to return the bytes of `aposRecase`.
* `bufio.Scanner` is embedded as the splitting of the input into lines, with its limit
  on the length of one line: the scan ends at a line of 64 KiB or more.  The text printed
  for an argument of an unhandled type is outside the embedding.
-/

namespace Titlecase

/-! ## Strings and code points -/

/-- The code points of a string literal. -/
def str (s : String) : List Nat := s.toList.map Char.toNat

/-- A byte of a string that is not part of a valid UTF-8 sequence. -/
def invalidByte (b : Nat) : Nat := 0x110000 + b

/-- The upper-case ASCII letters, `[A-Z]`. -/
def isUpperAZ (c : Nat) : Bool := decide (65 ≤ c) && decide (c ≤ 90)

/-- The lower-case ASCII letters, `[a-z]`. -/
def isLowerAZ (c : Nat) : Bool := decide (97 ≤ c) && decide (c ≤ 122)

/-- The ASCII letters, `[A-Za-z]`. -/
def isLetterAZ (c : Nat) : Bool := isUpperAZ c || isLowerAZ c

/-- The ASCII digits. -/
def isDigit09 (c : Nat) : Bool := decide (48 ≤ c) && decide (c ≤ 57)

/-- The class `\w` of Go's regexp: `[0-9A-Za-z_]`. -/
def isWordChar (c : Nat) : Bool := isLetterAZ c || isDigit09 c || c == 95

/-- Go's `unicode.IsSpace`: the code points with the property White_Space. -/
def isSpace (c : Nat) : Bool :=
  (decide (9 ≤ c) && decide (c ≤ 13)) || c == 32 || c == 0x85 || c == 0xA0 || c == 0x1680 ||
  (decide (0x2000 ≤ c) && decide (c ≤ 0x200A)) || c == 0x2028 || c == 0x2029 || c == 0x202F ||
  c == 0x205F || c == 0x3000

/-! ## The case mappings of package `unicode` -/

/-- The simple upper-case mappings beyond ASCII, the column `UpperCase` of
`unicode.CaseRanges`, as ranges `(lo, hi, stride, image)`: the code points `lo`,
`lo + stride`, ... up to `hi` are mapped to `image`, `image + stride`, ...  The ranges are
in increasing order and do not overlap. -/
def upperRanges : List (Nat × Nat × Nat × Nat) :=
  [(0xB5, 0xB5, 1, 0x39C), (0xE0, 0xF6, 1, 0xC0), (0xF8, 0xFE, 1, 0xD8), (0xFF, 0xFF, 1, 0x178),
   (0x101, 0x12F, 2, 0x100), (0x131, 0x131, 1, 0x49), (0x133, 0x137, 2, 0x132),
   (0x13A, 0x148, 2, 0x139), (0x14B, 0x177, 2, 0x14A), (0x17A, 0x17E, 2, 0x179),
   (0x17F, 0x17F, 1, 0x53), (0x180, 0x180, 1, 0x243), (0x183, 0x185, 2, 0x182),
   (0x188, 0x188, 1, 0x187), (0x18C, 0x18C, 1, 0x18B), (0x192, 0x192, 1, 0x191),
   (0x195, 0x195, 1, 0x1F6), (0x199, 0x199, 1, 0x198), (0x19A, 0x19A, 1, 0x23D),
   (0x19E, 0x19E, 1, 0x220), (0x1A1, 0x1A5, 2, 0x1A0), (0x1A8, 0x1A8, 1, 0x1A7),
   (0x1AD, 0x1AD, 1, 0x1AC), (0x1B0, 0x1B0, 1, 0x1AF), (0x1B4, 0x1B6, 2, 0x1B3),
   (0x1B9, 0x1B9, 1, 0x1B8), (0x1BD, 0x1BD, 1, 0x1BC), (0x1BF, 0x1BF, 1, 0x1F7),
   (0x1C5, 0x1C5, 1, 0x1C4), (0x1C6, 0x1C6, 1, 0x1C4), (0x1C8, 0x1C8, 1, 0x1C7),
   (0x1C9, 0x1C9, 1, 0x1C7), (0x1CB, 0x1CB, 1, 0x1CA), (0x1CC, 0x1CC, 1, 0x1CA),
   (0x1CE, 0x1DC, 2, 0x1CD), (0x1DD, 0x1DD, 1, 0x18E), (0x1DF, 0x1EF, 2, 0x1DE),
   (0x1F2, 0x1F2, 1, 0x1F1), (0x1F3, 0x1F3, 1, 0x1F1), (0x1F5, 0x1F5, 1, 0x1F4),
   (0x1F9, 0x21F, 2, 0x1F8), (0x223, 0x233, 2, 0x222), (0x23C, 0x23C, 1, 0x23B),
   (0x23F, 0x240, 1, 0x2C7E), (0x242, 0x242, 1, 0x241), (0x247, 0x24F, 2, 0x246),
   (0x250, 0x250, 1, 0x2C6F), (0x251, 0x251, 1, 0x2C6D), (0x252, 0x252, 1, 0x2C70),
   (0x253, 0x253, 1, 0x181), (0x254, 0x254, 1, 0x186), (0x256, 0x257, 1, 0x189),
   (0x259, 0x259, 1, 0x18F), (0x25B, 0x25B, 1, 0x190), (0x25C, 0x25C, 1, 0xA7AB),
   (0x260, 0x260, 1, 0x193), (0x261, 0x261, 1, 0xA7AC), (0x263, 0x263, 1, 0x194),
   (0x265, 0x265, 1, 0xA78D), (0x266, 0x266, 1, 0xA7AA), (0x268, 0x268, 1, 0x197),
   (0x269, 0x269, 1, 0x196), (0x26A, 0x26A, 1, 0xA7AE), (0x26B, 0x26B, 1, 0x2C62),
   (0x26C, 0x26C, 1, 0xA7AD), (0x26F, 0x26F, 1, 0x19C), (0x271, 0x271, 1, 0x2C6E),
   (0x272, 0x272, 1, 0x19D), (0x275, 0x275, 1, 0x19F), (0x27D, 0x27D, 1, 0x2C64),
   (0x280, 0x280, 1, 0x1A6), (0x282, 0x282, 1, 0xA7C5), (0x283, 0x283, 1, 0x1A9),
   (0x287, 0x287, 1, 0xA7B1), (0x288, 0x288, 1, 0x1AE), (0x289, 0x289, 1, 0x244),
   (0x28A, 0x28B, 1, 0x1B1), (0x28C, 0x28C, 1, 0x245), (0x292, 0x292, 1, 0x1B7),
   (0x29D, 0x29D, 1, 0xA7B2), (0x29E, 0x29E, 1, 0xA7B0), (0x345, 0x345, 1, 0x399),
   (0x371, 0x373, 2, 0x370), (0x377, 0x377, 1, 0x376), (0x37B, 0x37D, 1, 0x3FD),
   (0x3AC, 0x3AC, 1, 0x386), (0x3AD, 0x3AF, 1, 0x388), (0x3B1, 0x3C1, 1, 0x391),
   (0x3C2, 0x3C2, 1, 0x3A3), (0x3C3, 0x3CB, 1, 0x3A3), (0x3CC, 0x3CC, 1, 0x38C),
   (0x3CD, 0x3CE, 1, 0x38E), (0x3D0, 0x3D0, 1, 0x392), (0x3D1, 0x3D1, 1, 0x398),
   (0x3D5, 0x3D5, 1, 0x3A6), (0x3D6, 0x3D6, 1, 0x3A0), (0x3D7, 0x3D7, 1, 0x3CF),
   (0x3D9, 0x3EF, 2, 0x3D8), (0x3F0, 0x3F0, 1, 0x39A), (0x3F1, 0x3F1, 1, 0x3A1),
   (0x3F2, 0x3F2, 1, 0x3F9), (0x3F3, 0x3F3, 1, 0x37F), (0x3F5, 0x3F5, 1, 0x395),
   (0x3F8, 0x3F8, 1, 0x3F7), (0x3FB, 0x3FB, 1, 0x3FA), (0x430, 0x44F, 1, 0x410),
   (0x450, 0x45F, 1, 0x400), (0x461, 0x481, 2, 0x460), (0x48B, 0x4BF, 2, 0x48A),
   (0x4C2, 0x4CE, 2, 0x4C1), (0x4CF, 0x4CF, 1, 0x4C0), (0x4D1, 0x52F, 2, 0x4D0),
   (0x561, 0x586, 1, 0x531), (0x10D0, 0x10FA, 1, 0x1C90), (0x10FD, 0x10FF, 1, 0x1CBD),
   (0x13F8, 0x13FD, 1, 0x13F0), (0x1C80, 0x1C80, 1, 0x412), (0x1C81, 0x1C81, 1, 0x414),
   (0x1C82, 0x1C82, 1, 0x41E), (0x1C83, 0x1C84, 1, 0x421), (0x1C85, 0x1C85, 1, 0x422),
   (0x1C86, 0x1C86, 1, 0x42A), (0x1C87, 0x1C87, 1, 0x462), (0x1C88, 0x1C88, 1, 0xA64A),
   (0x1D79, 0x1D79, 1, 0xA77D), (0x1D7D, 0x1D7D, 1, 0x2C63), (0x1D8E, 0x1D8E, 1, 0xA7C6),
   (0x1E01, 0x1E95, 2, 0x1E00), (0x1E9B, 0x1E9B, 1, 0x1E60), (0x1EA1, 0x1EFF, 2, 0x1EA0),
   (0x1F00, 0x1F07, 1, 0x1F08), (0x1F10, 0x1F15, 1, 0x1F18), (0x1F20, 0x1F27, 1, 0x1F28),
   (0x1F30, 0x1F37, 1, 0x1F38), (0x1F40, 0x1F45, 1, 0x1F48), (0x1F51, 0x1F57, 2, 0x1F59),
   (0x1F60, 0x1F67, 1, 0x1F68), (0x1F70, 0x1F71, 1, 0x1FBA), (0x1F72, 0x1F75, 1, 0x1FC8),
   (0x1F76, 0x1F77, 1, 0x1FDA), (0x1F78, 0x1F79, 1, 0x1FF8), (0x1F7A, 0x1F7B, 1, 0x1FEA),
   (0x1F7C, 0x1F7D, 1, 0x1FFA), (0x1F80, 0x1F87, 1, 0x1F88), (0x1F90, 0x1F97, 1, 0x1F98),
   (0x1FA0, 0x1FA7, 1, 0x1FA8), (0x1FB0, 0x1FB1, 1, 0x1FB8), (0x1FB3, 0x1FB3, 1, 0x1FBC),
   (0x1FBE, 0x1FBE, 1, 0x399), (0x1FC3, 0x1FC3, 1, 0x1FCC), (0x1FD0, 0x1FD1, 1, 0x1FD8),
   (0x1FE0, 0x1FE1, 1, 0x1FE8), (0x1FE5, 0x1FE5, 1, 0x1FEC), (0x1FF3, 0x1FF3, 1, 0x1FFC),
   (0x214E, 0x214E, 1, 0x2132), (0x2170, 0x217F, 1, 0x2160), (0x2184, 0x2184, 1, 0x2183),
   (0x24D0, 0x24E9, 1, 0x24B6), (0x2C30, 0x2C5F, 1, 0x2C00), (0x2C61, 0x2C61, 1, 0x2C60),
   (0x2C65, 0x2C65, 1, 0x23A), (0x2C66, 0x2C66, 1, 0x23E), (0x2C68, 0x2C6C, 2, 0x2C67),
   (0x2C73, 0x2C73, 1, 0x2C72), (0x2C76, 0x2C76, 1, 0x2C75), (0x2C81, 0x2CE3, 2, 0x2C80),
   (0x2CEC, 0x2CEE, 2, 0x2CEB), (0x2CF3, 0x2CF3, 1, 0x2CF2), (0x2D00, 0x2D25, 1, 0x10A0),
   (0x2D27, 0x2D27, 1, 0x10C7), (0x2D2D, 0x2D2D, 1, 0x10CD), (0xA641, 0xA66D, 2, 0xA640),
   (0xA681, 0xA69B, 2, 0xA680), (0xA723, 0xA72F, 2, 0xA722), (0xA733, 0xA76F, 2, 0xA732),
   (0xA77A, 0xA77C, 2, 0xA779), (0xA77F, 0xA787, 2, 0xA77E), (0xA78C, 0xA78C, 1, 0xA78B),
   (0xA791, 0xA793, 2, 0xA790), (0xA794, 0xA794, 1, 0xA7C4), (0xA797, 0xA7A9, 2, 0xA796),
   (0xA7B5, 0xA7C3, 2, 0xA7B4), (0xA7C8, 0xA7CA, 2, 0xA7C7), (0xA7D1, 0xA7D1, 1, 0xA7D0),
   (0xA7D7, 0xA7D9, 2, 0xA7D6), (0xA7F6, 0xA7F6, 1, 0xA7F5), (0xAB53, 0xAB53, 1, 0xA7B3),
   (0xAB70, 0xABBF, 1, 0x13A0), (0xFF41, 0xFF5A, 1, 0xFF21), (0x10428, 0x1044F, 1, 0x10400),
   (0x104D8, 0x104FB, 1, 0x104B0), (0x10597, 0x105A1, 1, 0x10570),
   (0x105A3, 0x105B1, 1, 0x1057C), (0x105B3, 0x105B9, 1, 0x1058C),
   (0x105BB, 0x105BC, 1, 0x10594), (0x10CC0, 0x10CF2, 1, 0x10C80),
   (0x118C0, 0x118DF, 1, 0x118A0), (0x16E60, 0x16E7F, 1, 0x16E40), (0x1E922, 0x1E943, 1, 0x1E900)]

/-- The simple lower-case mappings beyond ASCII, the column `LowerCase` of
`unicode.CaseRanges`, in the form of `upperRanges`. -/
def lowerRanges : List (Nat × Nat × Nat × Nat) :=
  [(0xC0, 0xD6, 1, 0xE0), (0xD8, 0xDE, 1, 0xF8), (0x100, 0x12E, 2, 0x101),
   (0x130, 0x130, 1, 0x69), (0x132, 0x136, 2, 0x133), (0x139, 0x147, 2, 0x13A),
   (0x14A, 0x176, 2, 0x14B), (0x178, 0x178, 1, 0xFF), (0x179, 0x17D, 2, 0x17A),
   (0x181, 0x181, 1, 0x253), (0x182, 0x184, 2, 0x183), (0x186, 0x186, 1, 0x254),
   (0x187, 0x187, 1, 0x188), (0x189, 0x18A, 1, 0x256), (0x18B, 0x18B, 1, 0x18C),
   (0x18E, 0x18E, 1, 0x1DD), (0x18F, 0x18F, 1, 0x259), (0x190, 0x190, 1, 0x25B),
   (0x191, 0x191, 1, 0x192), (0x193, 0x193, 1, 0x260), (0x194, 0x194, 1, 0x263),
   (0x196, 0x196, 1, 0x269), (0x197, 0x197, 1, 0x268), (0x198, 0x198, 1, 0x199),
   (0x19C, 0x19C, 1, 0x26F), (0x19D, 0x19D, 1, 0x272), (0x19F, 0x19F, 1, 0x275),
   (0x1A0, 0x1A4, 2, 0x1A1), (0x1A6, 0x1A6, 1, 0x280), (0x1A7, 0x1A7, 1, 0x1A8),
   (0x1A9, 0x1A9, 1, 0x283), (0x1AC, 0x1AC, 1, 0x1AD), (0x1AE, 0x1AE, 1, 0x288),
   (0x1AF, 0x1AF, 1, 0x1B0), (0x1B1, 0x1B2, 1, 0x28A), (0x1B3, 0x1B5, 2, 0x1B4),
   (0x1B7, 0x1B7, 1, 0x292), (0x1B8, 0x1B8, 1, 0x1B9), (0x1BC, 0x1BC, 1, 0x1BD),
   (0x1C4, 0x1C4, 1, 0x1C6), (0x1C5, 0x1C5, 1, 0x1C6), (0x1C7, 0x1C7, 1, 0x1C9),
   (0x1C8, 0x1C8, 1, 0x1C9), (0x1CA, 0x1CA, 1, 0x1CC), (0x1CB, 0x1DB, 2, 0x1CC),
   (0x1DE, 0x1EE, 2, 0x1DF), (0x1F1, 0x1F1, 1, 0x1F3), (0x1F2, 0x1F4, 2, 0x1F3),
   (0x1F6, 0x1F6, 1, 0x195), (0x1F7, 0x1F7, 1, 0x1BF), (0x1F8, 0x21E, 2, 0x1F9),
   (0x220, 0x220, 1, 0x19E), (0x222, 0x232, 2, 0x223), (0x23A, 0x23A, 1, 0x2C65),
   (0x23B, 0x23B, 1, 0x23C), (0x23D, 0x23D, 1, 0x19A), (0x23E, 0x23E, 1, 0x2C66),
   (0x241, 0x241, 1, 0x242), (0x243, 0x243, 1, 0x180), (0x244, 0x244, 1, 0x289),
   (0x245, 0x245, 1, 0x28C), (0x246, 0x24E, 2, 0x247), (0x370, 0x372, 2, 0x371),
   (0x376, 0x376, 1, 0x377), (0x37F, 0x37F, 1, 0x3F3), (0x386, 0x386, 1, 0x3AC),
   (0x388, 0x38A, 1, 0x3AD), (0x38C, 0x38C, 1, 0x3CC), (0x38E, 0x38F, 1, 0x3CD),
   (0x391, 0x3A1, 1, 0x3B1), (0x3A3, 0x3AB, 1, 0x3C3), (0x3CF, 0x3CF, 1, 0x3D7),
   (0x3D8, 0x3EE, 2, 0x3D9), (0x3F4, 0x3F4, 1, 0x3B8), (0x3F7, 0x3F7, 1, 0x3F8),
   (0x3F9, 0x3F9, 1, 0x3F2), (0x3FA, 0x3FA, 1, 0x3FB), (0x3FD, 0x3FF, 1, 0x37B),
   (0x400, 0x40F, 1, 0x450), (0x410, 0x42F, 1, 0x430), (0x460, 0x480, 2, 0x461),
   (0x48A, 0x4BE, 2, 0x48B), (0x4C0, 0x4C0, 1, 0x4CF), (0x4C1, 0x4CD, 2, 0x4C2),
   (0x4D0, 0x52E, 2, 0x4D1), (0x531, 0x556, 1, 0x561), (0x10A0, 0x10C5, 1, 0x2D00),
   (0x10C7, 0x10C7, 1, 0x2D27), (0x10CD, 0x10CD, 1, 0x2D2D), (0x13A0, 0x13EF, 1, 0xAB70),
   (0x13F0, 0x13F5, 1, 0x13F8), (0x1C90, 0x1CBA, 1, 0x10D0), (0x1CBD, 0x1CBF, 1, 0x10FD),
   (0x1E00, 0x1E94, 2, 0x1E01), (0x1E9E, 0x1E9E, 1, 0xDF), (0x1EA0, 0x1EFE, 2, 0x1EA1),
   (0x1F08, 0x1F0F, 1, 0x1F00), (0x1F18, 0x1F1D, 1, 0x1F10), (0x1F28, 0x1F2F, 1, 0x1F20),
   (0x1F38, 0x1F3F, 1, 0x1F30), (0x1F48, 0x1F4D, 1, 0x1F40), (0x1F59, 0x1F5F, 2, 0x1F51),
   (0x1F68, 0x1F6F, 1, 0x1F60), (0x1F88, 0x1F8F, 1, 0x1F80), (0x1F98, 0x1F9F, 1, 0x1F90),
   (0x1FA8, 0x1FAF, 1, 0x1FA0), (0x1FB8, 0x1FB9, 1, 0x1FB0), (0x1FBA, 0x1FBB, 1, 0x1F70),
   (0x1FBC, 0x1FBC, 1, 0x1FB3), (0x1FC8, 0x1FCB, 1, 0x1F72), (0x1FCC, 0x1FCC, 1, 0x1FC3),
   (0x1FD8, 0x1FD9, 1, 0x1FD0), (0x1FDA, 0x1FDB, 1, 0x1F76), (0x1FE8, 0x1FE9, 1, 0x1FE0),
   (0x1FEA, 0x1FEB, 1, 0x1F7A), (0x1FEC, 0x1FEC, 1, 0x1FE5), (0x1FF8, 0x1FF9, 1, 0x1F78),
   (0x1FFA, 0x1FFB, 1, 0x1F7C), (0x1FFC, 0x1FFC, 1, 0x1FF3), (0x2126, 0x2126, 1, 0x3C9),
   (0x212A, 0x212A, 1, 0x6B), (0x212B, 0x212B, 1, 0xE5), (0x2132, 0x2132, 1, 0x214E),
   (0x2160, 0x216F, 1, 0x2170), (0x2183, 0x2183, 1, 0x2184), (0x24B6, 0x24CF, 1, 0x24D0),
   (0x2C00, 0x2C2F, 1, 0x2C30), (0x2C60, 0x2C60, 1, 0x2C61), (0x2C62, 0x2C62, 1, 0x26B),
   (0x2C63, 0x2C63, 1, 0x1D7D), (0x2C64, 0x2C64, 1, 0x27D), (0x2C67, 0x2C6B, 2, 0x2C68),
   (0x2C6D, 0x2C6D, 1, 0x251), (0x2C6E, 0x2C6E, 1, 0x271), (0x2C6F, 0x2C6F, 1, 0x250),
   (0x2C70, 0x2C70, 1, 0x252), (0x2C72, 0x2C72, 1, 0x2C73), (0x2C75, 0x2C75, 1, 0x2C76),
   (0x2C7E, 0x2C7F, 1, 0x23F), (0x2C80, 0x2CE2, 2, 0x2C81), (0x2CEB, 0x2CED, 2, 0x2CEC),
   (0x2CF2, 0x2CF2, 1, 0x2CF3), (0xA640, 0xA66C, 2, 0xA641), (0xA680, 0xA69A, 2, 0xA681),
   (0xA722, 0xA72E, 2, 0xA723), (0xA732, 0xA76E, 2, 0xA733), (0xA779, 0xA77B, 2, 0xA77A),
   (0xA77D, 0xA77D, 1, 0x1D79), (0xA77E, 0xA786, 2, 0xA77F), (0xA78B, 0xA78B, 1, 0xA78C),
   (0xA78D, 0xA78D, 1, 0x265), (0xA790, 0xA792, 2, 0xA791), (0xA796, 0xA7A8, 2, 0xA797),
   (0xA7AA, 0xA7AA, 1, 0x266), (0xA7AB, 0xA7AB, 1, 0x25C), (0xA7AC, 0xA7AC, 1, 0x261),
   (0xA7AD, 0xA7AD, 1, 0x26C), (0xA7AE, 0xA7AE, 1, 0x26A), (0xA7B0, 0xA7B0, 1, 0x29E),
   (0xA7B1, 0xA7B1, 1, 0x287), (0xA7B2, 0xA7B2, 1, 0x29D), (0xA7B3, 0xA7B3, 1, 0xAB53),
   (0xA7B4, 0xA7C2, 2, 0xA7B5), (0xA7C4, 0xA7C4, 1, 0xA794), (0xA7C5, 0xA7C5, 1, 0x282),
   (0xA7C6, 0xA7C6, 1, 0x1D8E), (0xA7C7, 0xA7C9, 2, 0xA7C8), (0xA7D0, 0xA7D0, 1, 0xA7D1),
   (0xA7D6, 0xA7D8, 2, 0xA7D7), (0xA7F5, 0xA7F5, 1, 0xA7F6), (0xFF21, 0xFF3A, 1, 0xFF41),
   (0x10400, 0x10427, 1, 0x10428), (0x104B0, 0x104D3, 1, 0x104D8),
   (0x10570, 0x1057A, 1, 0x10597), (0x1057C, 0x1058A, 1, 0x105A3),
   (0x1058C, 0x10592, 1, 0x105B3), (0x10594, 0x10595, 1, 0x105BB),
   (0x10C80, 0x10CB2, 1, 0x10CC0), (0x118A0, 0x118BF, 1, 0x118C0),
   (0x16E40, 0x16E5F, 1, 0x16E60), (0x1E900, 0x1E921, 1, 0x1E922)]

/-- The simple title-case mappings beyond ASCII, the column `TitleCase` of
`unicode.CaseRanges`, in the form of `upperRanges`. -/
def titleRanges : List (Nat × Nat × Nat × Nat) :=
  [(0xB5, 0xB5, 1, 0x39C), (0xE0, 0xF6, 1, 0xC0), (0xF8, 0xFE, 1, 0xD8), (0xFF, 0xFF, 1, 0x178),
   (0x101, 0x12F, 2, 0x100), (0x131, 0x131, 1, 0x49), (0x133, 0x137, 2, 0x132),
   (0x13A, 0x148, 2, 0x139), (0x14B, 0x177, 2, 0x14A), (0x17A, 0x17E, 2, 0x179),
   (0x17F, 0x17F, 1, 0x53), (0x180, 0x180, 1, 0x243), (0x183, 0x185, 2, 0x182),
   (0x188, 0x188, 1, 0x187), (0x18C, 0x18C, 1, 0x18B), (0x192, 0x192, 1, 0x191),
   (0x195, 0x195, 1, 0x1F6), (0x199, 0x199, 1, 0x198), (0x19A, 0x19A, 1, 0x23D),
   (0x19E, 0x19E, 1, 0x220), (0x1A1, 0x1A5, 2, 0x1A0), (0x1A8, 0x1A8, 1, 0x1A7),
   (0x1AD, 0x1AD, 1, 0x1AC), (0x1B0, 0x1B0, 1, 0x1AF), (0x1B4, 0x1B6, 2, 0x1B3),
   (0x1B9, 0x1B9, 1, 0x1B8), (0x1BD, 0x1BD, 1, 0x1BC), (0x1BF, 0x1BF, 1, 0x1F7),
   (0x1C4, 0x1C4, 1, 0x1C5), (0x1C6, 0x1C6, 1, 0x1C5), (0x1C7, 0x1C7, 1, 0x1C8),
   (0x1C9, 0x1C9, 1, 0x1C8), (0x1CA, 0x1CA, 1, 0x1CB), (0x1CC, 0x1DC, 2, 0x1CB),
   (0x1DD, 0x1DD, 1, 0x18E), (0x1DF, 0x1EF, 2, 0x1DE), (0x1F1, 0x1F1, 1, 0x1F2),
   (0x1F3, 0x1F5, 2, 0x1F2), (0x1F9, 0x21F, 2, 0x1F8), (0x223, 0x233, 2, 0x222),
   (0x23C, 0x23C, 1, 0x23B), (0x23F, 0x240, 1, 0x2C7E), (0x242, 0x242, 1, 0x241),
   (0x247, 0x24F, 2, 0x246), (0x250, 0x250, 1, 0x2C6F), (0x251, 0x251, 1, 0x2C6D),
   (0x252, 0x252, 1, 0x2C70), (0x253, 0x253, 1, 0x181), (0x254, 0x254, 1, 0x186),
   (0x256, 0x257, 1, 0x189), (0x259, 0x259, 1, 0x18F), (0x25B, 0x25B, 1, 0x190),
   (0x25C, 0x25C, 1, 0xA7AB), (0x260, 0x260, 1, 0x193), (0x261, 0x261, 1, 0xA7AC),
   (0x263, 0x263, 1, 0x194), (0x265, 0x265, 1, 0xA78D), (0x266, 0x266, 1, 0xA7AA),
   (0x268, 0x268, 1, 0x197), (0x269, 0x269, 1, 0x196), (0x26A, 0x26A, 1, 0xA7AE),
   (0x26B, 0x26B, 1, 0x2C62), (0x26C, 0x26C, 1, 0xA7AD), (0x26F, 0x26F, 1, 0x19C),
   (0x271, 0x271, 1, 0x2C6E), (0x272, 0x272, 1, 0x19D), (0x275, 0x275, 1, 0x19F),
   (0x27D, 0x27D, 1, 0x2C64), (0x280, 0x280, 1, 0x1A6), (0x282, 0x282, 1, 0xA7C5),
   (0x283, 0x283, 1, 0x1A9), (0x287, 0x287, 1, 0xA7B1), (0x288, 0x288, 1, 0x1AE),
   (0x289, 0x289, 1, 0x244), (0x28A, 0x28B, 1, 0x1B1), (0x28C, 0x28C, 1, 0x245),
   (0x292, 0x292, 1, 0x1B7), (0x29D, 0x29D, 1, 0xA7B2), (0x29E, 0x29E, 1, 0xA7B0),
   (0x345, 0x345, 1, 0x399), (0x371, 0x373, 2, 0x370), (0x377, 0x377, 1, 0x376),
   (0x37B, 0x37D, 1, 0x3FD), (0x3AC, 0x3AC, 1, 0x386), (0x3AD, 0x3AF, 1, 0x388),
   (0x3B1, 0x3C1, 1, 0x391), (0x3C2, 0x3C2, 1, 0x3A3), (0x3C3, 0x3CB, 1, 0x3A3),
   (0x3CC, 0x3CC, 1, 0x38C), (0x3CD, 0x3CE, 1, 0x38E), (0x3D0, 0x3D0, 1, 0x392),
   (0x3D1, 0x3D1, 1, 0x398), (0x3D5, 0x3D5, 1, 0x3A6), (0x3D6, 0x3D6, 1, 0x3A0),
   (0x3D7, 0x3D7, 1, 0x3CF), (0x3D9, 0x3EF, 2, 0x3D8), (0x3F0, 0x3F0, 1, 0x39A),
   (0x3F1, 0x3F1, 1, 0x3A1), (0x3F2, 0x3F2, 1, 0x3F9), (0x3F3, 0x3F3, 1, 0x37F),
   (0x3F5, 0x3F5, 1, 0x395), (0x3F8, 0x3F8, 1, 0x3F7), (0x3FB, 0x3FB, 1, 0x3FA),
   (0x430, 0x44F, 1, 0x410), (0x450, 0x45F, 1, 0x400), (0x461, 0x481, 2, 0x460),
   (0x48B, 0x4BF, 2, 0x48A), (0x4C2, 0x4CE, 2, 0x4C1), (0x4CF, 0x4CF, 1, 0x4C0),
   (0x4D1, 0x52F, 2, 0x4D0), (0x561, 0x586, 1, 0x531), (0x13F8, 0x13FD, 1, 0x13F0),
   (0x1C80, 0x1C80, 1, 0x412), (0x1C81, 0x1C81, 1, 0x414), (0x1C82, 0x1C82, 1, 0x41E),
   (0x1C83, 0x1C84, 1, 0x421), (0x1C85, 0x1C85, 1, 0x422), (0x1C86, 0x1C86, 1, 0x42A),
   (0x1C87, 0x1C87, 1, 0x462), (0x1C88, 0x1C88, 1, 0xA64A), (0x1D79, 0x1D79, 1, 0xA77D),
   (0x1D7D, 0x1D7D, 1, 0x2C63), (0x1D8E, 0x1D8E, 1, 0xA7C6), (0x1E01, 0x1E95, 2, 0x1E00),
   (0x1E9B, 0x1E9B, 1, 0x1E60), (0x1EA1, 0x1EFF, 2, 0x1EA0), (0x1F00, 0x1F07, 1, 0x1F08),
   (0x1F10, 0x1F15, 1, 0x1F18), (0x1F20, 0x1F27, 1, 0x1F28), (0x1F30, 0x1F37, 1, 0x1F38),
   (0x1F40, 0x1F45, 1, 0x1F48), (0x1F51, 0x1F57, 2, 0x1F59), (0x1F60, 0x1F67, 1, 0x1F68),
   (0x1F70, 0x1F71, 1, 0x1FBA), (0x1F72, 0x1F75, 1, 0x1FC8), (0x1F76, 0x1F77, 1, 0x1FDA),
   (0x1F78, 0x1F79, 1, 0x1FF8), (0x1F7A, 0x1F7B, 1, 0x1FEA), (0x1F7C, 0x1F7D, 1, 0x1FFA),
   (0x1F80, 0x1F87, 1, 0x1F88), (0x1F90, 0x1F97, 1, 0x1F98), (0x1FA0, 0x1FA7, 1, 0x1FA8),
   (0x1FB0, 0x1FB1, 1, 0x1FB8), (0x1FB3, 0x1FB3, 1, 0x1FBC), (0x1FBE, 0x1FBE, 1, 0x399),
   (0x1FC3, 0x1FC3, 1, 0x1FCC), (0x1FD0, 0x1FD1, 1, 0x1FD8), (0x1FE0, 0x1FE1, 1, 0x1FE8),
   (0x1FE5, 0x1FE5, 1, 0x1FEC), (0x1FF3, 0x1FF3, 1, 0x1FFC), (0x214E, 0x214E, 1, 0x2132),
   (0x2170, 0x217F, 1, 0x2160), (0x2184, 0x2184, 1, 0x2183), (0x24D0, 0x24E9, 1, 0x24B6),
   (0x2C30, 0x2C5F, 1, 0x2C00), (0x2C61, 0x2C61, 1, 0x2C60), (0x2C65, 0x2C65, 1, 0x23A),
   (0x2C66, 0x2C66, 1, 0x23E), (0x2C68, 0x2C6C, 2, 0x2C67), (0x2C73, 0x2C73, 1, 0x2C72),
   (0x2C76, 0x2C76, 1, 0x2C75), (0x2C81, 0x2CE3, 2, 0x2C80), (0x2CEC, 0x2CEE, 2, 0x2CEB),
   (0x2CF3, 0x2CF3, 1, 0x2CF2), (0x2D00, 0x2D25, 1, 0x10A0), (0x2D27, 0x2D27, 1, 0x10C7),
   (0x2D2D, 0x2D2D, 1, 0x10CD), (0xA641, 0xA66D, 2, 0xA640), (0xA681, 0xA69B, 2, 0xA680),
   (0xA723, 0xA72F, 2, 0xA722), (0xA733, 0xA76F, 2, 0xA732), (0xA77A, 0xA77C, 2, 0xA779),
   (0xA77F, 0xA787, 2, 0xA77E), (0xA78C, 0xA78C, 1, 0xA78B), (0xA791, 0xA793, 2, 0xA790),
   (0xA794, 0xA794, 1, 0xA7C4), (0xA797, 0xA7A9, 2, 0xA796), (0xA7B5, 0xA7C3, 2, 0xA7B4),
   (0xA7C8, 0xA7CA, 2, 0xA7C7), (0xA7D1, 0xA7D1, 1, 0xA7D0), (0xA7D7, 0xA7D9, 2, 0xA7D6),
   (0xA7F6, 0xA7F6, 1, 0xA7F5), (0xAB53, 0xAB53, 1, 0xA7B3), (0xAB70, 0xABBF, 1, 0x13A0),
   (0xFF41, 0xFF5A, 1, 0xFF21), (0x10428, 0x1044F, 1, 0x10400), (0x104D8, 0x104FB, 1, 0x104B0),
   (0x10597, 0x105A1, 1, 0x10570), (0x105A3, 0x105B1, 1, 0x1057C),
   (0x105B3, 0x105B9, 1, 0x1058C), (0x105BB, 0x105BC, 1, 0x10594),
   (0x10CC0, 0x10CF2, 1, 0x10C80), (0x118C0, 0x118DF, 1, 0x118A0),
   (0x16E60, 0x16E7F, 1, 0x16E40), (0x1E922, 0x1E943, 1, 0x1E900)]

/-- A code point is one of the code points of a range. -/
def inRange (c : Nat) : Nat × Nat × Nat × Nat → Bool
  | (lo, hi, stride, _) => decide (lo ≤ c) && decide (c ≤ hi) && (c - lo) % stride == 0

/-- The function `to` of package `unicode`: the image of a code point under the first
range that holds it, and the code point itself when no range holds it. -/
def unicodeTo (ranges : List (Nat × Nat × Nat × Nat)) (c : Nat) : Nat :=
  match ranges.find? (inRange c) with
  | some (lo, _, _, image) => image + (c - lo)
  | none => c

/-- Go's `unicode.ToUpper` on one code point. -/
def toUpperRune (c : Nat) : Nat :=
  if c < 128 then (if isLowerAZ c then c - 32 else c) else unicodeTo upperRanges c

/-- Go's `unicode.ToLower` on one code point. -/
def toLowerRune (c : Nat) : Nat :=
  if c < 128 then (if isUpperAZ c then c + 32 else c) else unicodeTo lowerRanges c

/-- Go's `unicode.ToTitle` on one code point. -/
def toTitleRune (c : Nat) : Nat :=
  if c < 128 then (if isLowerAZ c then c - 32 else c) else unicodeTo titleRanges c

/-- Go's `strings.ToUpper`. -/
def stringsToUpper (s : List Nat) : List Nat := s.map toUpperRune

/-- Go's `strings.ToLower`. -/
def stringsToLower (s : List Nat) : List Nat := s.map toLowerRune

/-- The `isSeparator` of Go's `strings.Title`: ASCII letters, digits and underscore are
not separators, every other ASCII character is; beyond ASCII the letters and digits are
not, and of the rest exactly the spaces are. -/
def isSeparator (c : Nat) : Bool :=
  if c ≤ 0x7F then !isWordChar c else isSpace c

/-- The loop of Go's `strings.Title`: `prev` is the previous code point. -/
def titleFrom : Nat → List Nat → List Nat
  | _, [] => []
  | prev, c :: t => (if isSeparator prev then toTitleRune c else c) :: titleFrom c t

/-- Go's `strings.Title`: the letter that starts a word is mapped to title case. -/
def stringsTitle (s : List Nat) : List Nat := titleFrom 32 s

/-- Go's `strings.Fields`, with the word being read in `cur`. -/
def fieldsFrom : List Nat → List Nat → List (List Nat)
  | cur, [] => if cur = [] then [] else [cur]
  | cur, c :: t =>
    if isSpace c then (if cur = [] then fieldsFrom [] t else cur :: fieldsFrom [] t)
    else fieldsFrom (cur ++ [c]) t

/-- Go's `strings.Fields`: the maximal runs of code points that are not white space. -/
def stringsFields (s : List Nat) : List (List Nat) := fieldsFrom [] s

/-- Go's `strings.Split(s, "-")`, with the segment being read in `cur`. -/
def splitFrom (d : Nat) : List Nat → List Nat → List (List Nat)
  | cur, [] => [cur]
  | cur, c :: t => if c = d then cur :: splitFrom d [] t else splitFrom d (cur ++ [c]) t

/-- Go's `strings.Split` for a separator of one code point. -/
def stringsSplit (s : List Nat) (d : Nat) : List (List Nat) := splitFrom d [] s

/-- Go's `strings.Contains(s, substr)`. -/
def stringsContains : List Nat → List Nat → Bool
  | [], substr => substr.isPrefixOf []
  | c :: t, substr => substr.isPrefixOf (c :: t) || stringsContains t substr

/-- Go's `strings.Join`. -/
def stringsJoin (parts : List (List Nat)) (sep : List Nat) : List Nat :=
  sep.intercalate parts

/-- The UTF-8 encoding of a code point; a byte that is not part of a valid sequence is
that byte. -/
def utf8Bytes (c : Nat) : List Nat :=
  if c < 0x80 then [c]
  else if c < 0x800 then [0xC0 + c / 64, 0x80 + c % 64]
  else if c < 0x10000 then [0xE0 + c / 4096, 0x80 + c / 64 % 64, 0x80 + c % 64]
  else if c < 0x110000 then
    [0xF0 + c / 262144, 0x80 + c / 4096 % 64, 0x80 + c / 64 % 64, 0x80 + c % 64]
  else [c - 0x110000]

/-- The bytes of a string. -/
def stringBytes (s : List Nat) : List Nat := (s.map utf8Bytes).flatten

/-- Go's `len(s)`: the number of bytes of a string. -/
def byteLen (s : List Nat) : Nat := (stringBytes s).length

/-- The constant `bufio.MaxScanTokenSize`, the size to which the buffer of a
`bufio.Scanner` grows. -/
def maxScanTokenSize : Nat := 64 * 1024

/-- The `dropCR` of `bufio.ScanLines`: one trailing carriage return is dropped. -/
def dropCR (line : List Nat) : List Nat :=
  if line.getLast? = some 13 then line.dropLast else line

/-- The tokens of `bufio.ScanLines` that `scanner.Scan()` yields, with the line being
read in `cur`: a line ends at a newline, and a last line without a newline is a token when
it is not empty.  A line has to fit into the buffer of the scanner together with one more
byte (its newline, or the byte of room that the scanner needs to see the end of the
input): at a line of `maxScanTokenSize` bytes or more `Scan` returns false (the error
`ErrTooLong`, which the program does not look at) and the loop over the lines ends. -/
def scanFrom : List Nat → List Nat → List (List Nat)
  | cur, [] =>
    if cur = [] then [] else if maxScanTokenSize ≤ byteLen cur then [] else [dropCR cur]
  | cur, c :: t =>
    if c = 10 then
      (if maxScanTokenSize ≤ byteLen cur then [] else dropCR cur :: scanFrom [] t)
    else scanFrom (cur ++ [c]) t

/-- The lines that `scanner.Scan()` yields for an input. -/
def scanLines (input : List Nat) : List (List Nat) := scanFrom [] input

/-! ## The pattern table -/

/-- The constant `punctuation`, the body of a character class. -/
def punctuation : List Nat := str "!\"“#$%&'‘()*+,-–‒—―./:;?@[\\]_`\x7b|\x7d~"

/-- One code point of the class `[punctuation]`. -/
def isPunct (c : Nat) : Bool := punctuation.contains c

/-- The constant `smallWords` as the list of its alternatives in the order in which a
leftmost-first match tries them; `v\.?` and `vs\.?` are greedy, so the form with the
period comes first. -/
def smallWords : List (List Nat) :=
  [str "a", str "an", str "and", str "as", str "at", str "but", str "by", str "en",
   str "for", str "if", str "in", str "of", str "on", str "or", str "the", str "to",
   str "v.", str "v", str "via", str "vs.", str "vs", str "with"]

/-- The assertion `\b` between the code point before the position (if any) and the code
point after it (if any). -/
def wordBoundary (prev next : Option Nat) : Bool :=
  (match prev with | some c => isWordChar c | none => false) !=
  (match next with | some c => isWordChar c | none => false)

/-- The group `(smallWords)` at the head of `s`, followed by the rest `k` of a pattern:
the first alternative, in order, that is a prefix of `s` and after which `k` matches.
`k` receives the last code point of the alternative and the text after it. -/
def matchSmall (k : Option Nat → List Nat → Bool) (s : List Nat) : Option (List Nat) :=
  smallWords.find? (fun a => a.isPrefixOf s && k a.getLast? (s.drop a.length))

/-- The groups of `UCInitials` up to the end of the text:
`(?:[A-Z]{1}\.{1}|[A-Z]{1}\.{1}[A-Z]{1})+$`. -/
def ucInitialsGroups : List Nat → Bool
  | [x, d] => isUpperAZ x && d == 46
  | x :: d :: y :: t =>
    isUpperAZ x && d == 46 && (ucInitialsGroups (y :: t) || (isUpperAZ y && (t == [] || ucInitialsGroups t)))
  | _ => false

/-- The pattern `UCInitials.MatchString`:
`^(?:[A-Z]{1}\.{1}|[A-Z]{1}\.{1}[A-Z]{1})+$`. -/
def UCInitials (word : List Nat) : Bool := ucInitialsGroups word

/-- The end of `AposSecond` after its first lower-case letter:
`[a-z]*(?:['s]{2})?$`. -/
def aposSecondRest : List Nat → Bool
  | [] => true
  | c :: t =>
    (isLowerAZ c && aposSecondRest t) ||
    ((c == 39 || c == 115) && (match t with | [d] => d == 39 || d == 115 | _ => false))

/-- The pattern `AposSecond.MatchString`:
`^[dol]{1}['‘]{1}[a-z]+(?:['s]{2})?$`. -/
def AposSecond : List Nat → Bool
  | c0 :: c1 :: c2 :: t =>
    (c0 == 100 || c0 == 111 || c0 == 108) && (c1 == 39 || c1 == 0x2018) &&
    isLowerAZ c2 && aposSecondRest t
  | _ => false

/-- The pattern `MacMc.FindStringSubmatch`, `^([Mm]c|MC)(\w.+)`: the two groups of
the match, if there is one.  The `.` does not match a newline. -/
def MacMc : List Nat → Option (List Nat × List Nat)
  | a :: b :: c :: d :: t =>
    if (((a == 77 || a == 109) && b == 99) || (a == 77 && b == 67)) && isWordChar c && d != 10
    then some ([a, b], c :: d :: t.takeWhile (fun x => x != 10))
    else none
  | _ => none

/-- The pattern `InlinePeriod.MatchString`: `[a-z][.][a-z]` somewhere in the word. -/
def InlinePeriod : List Nat → Bool
  | a :: b :: c :: t => (isLowerAZ a && b == 46 && isLowerAZ c) || InlinePeriod (b :: c :: t)
  | _ => false

/-- The part `[a-zA-Z]+[A-Z]+?` of `UCElsewhere` at the head of the text. -/
def lettersThenUpper : List Nat → Bool
  | a :: b :: t => isLetterAZ a && (isUpperAZ b || lettersThenUpper (b :: t))
  | _ => false

/-- The pattern `UCElsewhere` at the head of the text:
`[punctuation]*?[a-zA-Z]+[A-Z]+?`. -/
def ucElsewhereHere : List Nat → Bool
  | [] => false
  | c :: t => lettersThenUpper (c :: t) || (isPunct c && ucElsewhereHere t)

/-- The pattern `UCElsewhere.MatchString`: a match at some position of the word. -/
def UCElsewhere : List Nat → Bool
  | [] => false
  | c :: t => ucElsewhereHere (c :: t) || UCElsewhere t

/-- The pattern `SmallWords.MatchString`: `^(smallWords)$`. -/
def SmallWords (word : List Nat) : Bool :=
  (matchSmall (fun _ rest => rest == []) word).isSome

/-- The length of the match of `CapFirst`, `^[punctuation]*?([A-Za-z])`, at the
beginning of the text. -/
def capFirstLength : List Nat → Option Nat
  | [] => none
  | c :: t =>
    if isLetterAZ c then some 1
    else if isPunct c then (capFirstLength t).map (fun n => n + 1)
    else none

/-- The call `CapFirst.ReplaceAllStringFunc(word, f)`: the pattern is anchored at the
beginning, so at most one match is replaced. -/
def CapFirst_ReplaceAllStringFunc (word : List Nat) (f : List Nat → List Nat) : List Nat :=
  match capFirstLength word with
  | some n => f (word.take n) ++ word.drop n
  | none => word

/-- The rest `\b` of `SmallFirst` after the small word: `last` is the last code point
of the small word, `rest` the text after it. -/
def boundaryAfter (last : Option Nat) (rest : List Nat) : Bool :=
  wordBoundary last rest.head?

/-- The match of `SmallFirst`, `^([punctuation]*)(smallWords)\b`, at the beginning of
the text: the class is greedy and gives back one code point at a time. -/
def smallFirstMatch : List Nat → Option (List Nat)
  | [] => matchSmall boundaryAfter []
  | c :: t =>
    if isPunct c then
      match smallFirstMatch t with
      | some m => some (c :: m)
      | none => matchSmall boundaryAfter (c :: t)
    else matchSmall boundaryAfter (c :: t)

/-- The call `SmallFirst.ReplaceAllStringFunc(s, f)`: the pattern is anchored at the
beginning, so at most one match is replaced. -/
def SmallFirst_ReplaceAllStringFunc (s : List Nat) (f : List Nat → List Nat) : List Nat :=
  match smallFirstMatch s with
  | some m => f m ++ s.drop m.length
  | none => s

/-- The rest `[punctuation]?$` of `SmallLast` after the small word. -/
def punctThenEnd (_last : Option Nat) (rest : List Nat) : Bool :=
  match rest with
  | [] => true
  | [p] => isPunct p
  | _ => false

/-- The call `SmallLast.ReplaceAllStringFunc(s, f)` from a position of the text, where
`prev` is the code point before the position.  The pattern is
`\b(smallWords)[punctuation]?$`; a match runs to the end of the text, so the leftmost
match is the only one. -/
def smallLastFrom (f : List Nat → List Nat) : Option Nat → List Nat → List Nat
  | _, [] => []
  | prev, c :: t =>
    if wordBoundary prev (some c) && (matchSmall punctThenEnd (c :: t)).isSome then f (c :: t)
    else c :: smallLastFrom f (some c) t

/-- The call `SmallLast.ReplaceAllStringFunc(s, f)`. -/
def SmallLast_ReplaceAllStringFunc (s : List Nat) (f : List Nat → List Nat) : List Nat :=
  smallLastFrom f none s

/-- The class `[:.;?!\-–‒—―]` of `SubPhrase`. -/
def isPhraseBreak (c : Nat) : Bool := (str ":.;?!-–‒—―").contains c

/-- The pattern `SubPhrase.FindStringSubmatch`, `([:.;?!\-–‒—―][ ])(smallWords)`, at
the head of the text: the two groups of the match, if the pattern matches there. -/
def subPhraseMatch : List Nat → Option (List Nat × List Nat)
  | p :: sp :: t =>
    if isPhraseBreak p && sp == 32 then
      (matchSmall (fun _ _ => true) t).map (fun m => ([p, sp], m))
    else none
  | _ => none

/-- The call `SubPhrase.ReplaceAllStringFunc(result, f)`, read one code point at a time.
The matches do not overlap: after a match the next `skip` code points belong to it and
the search goes on behind them. -/
def subPhraseFrom (f : List Nat → List Nat) : Nat → List Nat → List Nat
  | _, [] => []
  | skip + 1, _ :: t => subPhraseFrom f skip t
  | 0, c :: t =>
    match subPhraseMatch (c :: t) with
    | some (g1, g2) =>
      f ((c :: t).take (g1.length + g2.length)) ++ subPhraseFrom f (g1.length + g2.length - 1) t
    | none => c :: subPhraseFrom f 0 t

/-- The call `SubPhrase.ReplaceAllStringFunc(result, f)`. -/
def SubPhrase_ReplaceAllStringFunc (result : List Nat) (f : List Nat → List Nat) : List Nat :=
  subPhraseFrom f 0 result

/-! ## The program -/

/-- The type `tcCallback`: the override, called with the word and `lineAllCaps`. -/
abbrev tcCallback := List Nat → Bool → List Nat

/-- The interface `Mutagenic` with its two implementations. -/
inductive Mutagenic where
  | Immutable (Value : List Nat)
  | Mutable (Value : List Nat)
  deriving DecidableEq, Repr

/-- The method `String`. -/
def Mutagenic.String : Mutagenic → List Nat
  | .Immutable v => v
  | .Mutable v => v

/-- The function `NewImmutable`. -/
def NewImmutable (v : List Nat) : Mutagenic := .Immutable v

/-- The function `NewMutable`. -/
def NewMutable (v : List Nat) : Mutagenic := .Mutable v

/-- The function `appendage`. -/
def appendage (tcLine : List Mutagenic) (word : List Nat) : List Mutagenic :=
  tcLine ++ [NewMutable word]

/-- The function `capitalize`. -/
def capitalize (s : List Nat) : List Nat :=
  stringsTitle (stringsToLower s)

/-- The ways in which a call does not return a string. -/
inductive Fault where
  | sliceOutOfRange
  | stackExhausted
  deriving DecidableEq, Repr

/-- The loop of `titleDelimited` over the segments, with `conv` for its calls of
`Convert`. -/
def titleDelimitedWith (conv : List Nat → Except Fault (List Nat)) :
    List (List Nat) → Except Fault (List (List Nat))
  | [] => .ok []
  | t :: ts =>
    match conv t with
    | .error e => .error e
    | .ok r =>
      match titleDelimitedWith conv ts with
      | .error e => .error e
      | .ok rs => .ok (r :: rs)

/-- The function `titleDelimited` for a delimiter of one code point, with `conv` for its
calls of `Convert`. -/
def titleDelimited (conv : List Nat → Except Fault (List Nat)) (s : List Nat) (d : Nat) :
    Except Fault (List Nat) :=
  match titleDelimitedWith conv (stringsSplit s d) with
  | .error e => .error e
  | .ok delimited => .ok (stringsJoin delimited [d])

/-- The recasing of a word that matches `AposSecond`, from the byte slices `word[0:1]`,
`word[1:2]`, `word[2:3]` and `word[3:]`.  The word is an ASCII letter, an apostrophe and
ASCII text.  When the apostrophe is `'` every slice holds one character.  When it is `‘`,
the three bytes E2 80 98, the slices `word[1:2]` and `word[2:3]` hold one byte of it each,
`strings.ToUpper` replaces the invalid byte of `word[2:3]` by U+FFFD and `word[3:]` starts
with the third byte. -/
def aposRecase (word : List Nat) : List Nat :=
  match word with
  | c0 :: c1 :: c2 :: t =>
    let first := if !stringsContains (str "aeiouAEIOU") [c0] then toLowerRune c0 else toUpperRune c0
    if c1 == 0x2018 then
      first :: invalidByte 0xE2 :: 0xFFFD :: invalidByte 0x98 :: c2 :: t
    else first :: c1 :: toUpperRune c2 :: t
  | _ => word

/-- The body of the loop over the words of a line: the value appended to `tcLine` for
one word.  `conv` stands for the calls `Convert(_, callback, smallFirstLast)`. -/
def convertWord (conv : List Nat → Except Fault (List Nat)) (callback : Option tcCallback)
    (lineAllCaps : Bool) (word : List Nat) : Except Fault Mutagenic :=
  if (match callback with | some cb => cb word lineAllCaps != [] | none => false) then
    .ok (NewImmutable (match callback with | some cb => cb word lineAllCaps | none => []))
  else if lineAllCaps && UCInitials word then .ok (NewMutable word)
  else if AposSecond word then .ok (NewMutable (aposRecase word))
  else
    match MacMc word with
    | some (m1, m2) =>
      match conv m2 with
      | .error e => .error e
      | .ok r => .ok (NewMutable (capitalize m1 ++ r))
    | none =>
      if InlinePeriod word || (!lineAllCaps && UCElsewhere word) then .ok (NewMutable word)
      else if SmallWords word then .ok (NewMutable (stringsToLower word))
      else if stringsContains word [47] && !stringsContains word [47, 47] then
        match titleDelimited conv word 45 with
        | .error e => .error e
        | .ok slashed => .ok (NewMutable slashed)
      else if stringsContains [45] word then
        match titleDelimited conv word 45 with
        | .error e => .error e
        | .ok hyphenated => .ok (NewMutable hyphenated)
      else
        .ok (NewMutable (CapFirst_ReplaceAllStringFunc
          (if lineAllCaps then stringsToLower word else word) stringsToUpper))

/-- The loop over the words of a line: the final `tcLine`. -/
def convertWords (conv : List Nat → Except Fault (List Nat)) (callback : Option tcCallback)
    (lineAllCaps : Bool) : List (List Nat) → Except Fault (List Mutagenic)
  | [] => .ok []
  | word :: words =>
    match convertWord conv callback lineAllCaps word with
    | .error e => .error e
    | .ok m =>
      match convertWords conv callback lineAllCaps words with
      | .error e => .error e
      | .ok ms => .ok (m :: ms)

/-- The first `switch` of the boundary pass: `tcLine[0]`. -/
def forceFirst : List Mutagenic → List Mutagenic
  | [] => []
  | .Immutable v :: ms => .Immutable v :: ms
  | .Mutable v :: ms => NewMutable (SmallFirst_ReplaceAllStringFunc v capitalize) :: ms

/-- The second `switch` of the boundary pass: `tcLine[last]`. -/
def forceLast : List Mutagenic → List Mutagenic
  | [] => []
  | [.Immutable v] => [.Immutable v]
  | [.Mutable v] => [NewMutable (SmallLast_ReplaceAllStringFunc v capitalize)]
  | m :: m2 :: ms => m :: forceLast (m2 :: ms)

/-- The loop `result = result + " " + word.String()`. -/
def joinWords : List Nat → List Mutagenic → List Nat
  | result, [] => result
  | result, word :: words => joinWords (result ++ [32] ++ word.String) words

/-- The function passed with `SubPhrase`: the first group and the capitalized second. -/
def repairPhrase (phrase : List Nat) : List Nat :=
  match subPhraseMatch phrase with
  | some (g1, g2) => g1 ++ capitalize g2
  | none => phrase

/-- The body of the loop over the lines: the string appended to `processed`. -/
def convertLine (conv : List Nat → Except Fault (List Nat)) (callback : Option tcCallback)
    (smallFirstLast : Bool) (line : List Nat) : Except Fault (List Nat) :=
  let lineAllCaps := stringsToUpper line == line
  match convertWords conv callback lineAllCaps (stringsFields line) with
  | .error e => .error e
  | .ok tcLine =>
    let tcLine := if smallFirstLast then forceLast (forceFirst tcLine) else tcLine
    match joinWords [] tcLine with
    | [] => .error .sliceOutOfRange
    | _ :: result => .ok (SubPhrase_ReplaceAllStringFunc result repairPhrase)

/-- The loop over the lines: the final `processed`. -/
def convertLines (conv : List Nat → Except Fault (List Nat)) (callback : Option tcCallback)
    (smallFirstLast : Bool) : List (List Nat) → Except Fault (List (List Nat))
  | [] => .ok []
  | line :: lines =>
    match convertLine conv callback smallFirstLast line with
    | .error e => .error e
    | .ok r =>
      match convertLines conv callback smallFirstLast lines with
      | .error e => .error e
      | .ok rs => .ok (r :: rs)

/-- The function `Convert` for the options `callback` and `smallFirstLast`, with the
depth of calls that it may use. -/
def Convert : Nat → Option tcCallback → Bool → List Nat → Except Fault (List Nat)
  | 0, _, _, _ => .error .stackExhausted
  | depth + 1, callback, smallFirstLast, input =>
    match convertLines (Convert depth callback smallFirstLast) callback smallFirstLast
        (scanLines input) with
    | .error e => .error e
    | .ok processed => .ok (stringsJoin processed [10])

/-! ## Vocabulary of the specification -/

/-- The small words that the specification lists, without the forms that end in a
period. -/
def smallWordList : List (List Nat) :=
  [str "a", str "an", str "and", str "as", str "at", str "but", str "by", str "en",
   str "for", str "if", str "in", str "of", str "on", str "or", str "the", str "to",
   str "v", str "via", str "vs", str "with"]

/-- A word with its first code point in upper case. -/
def firstUpper : List Nat → List Nat
  | [] => []
  | c :: t => toUpperRune c :: t

/-- The word that the specification expects for a lower-case word: a small word that is
neither the first nor the last word of its line is kept, every other word has its first
letter in upper case. -/
def expectedWord (first last : Bool) (w : List Nat) : List Nat :=
  if smallWordList.contains w && !first && !last then w else firstUpper w

/-- The words that the specification expects for the lower-case words of a line, where
`first` tells whether the head of the list is the first word of the line. -/
def expectedFrom : Bool → List (List Nat) → List (List Nat)
  | _, [] => []
  | first, [w] => [expectedWord first true w]
  | first, w :: w2 :: ws => expectedWord first false w :: expectedFrom false (w2 :: ws)

/-- The words that the specification expects for the lower-case words of a line. -/
def expectedWords (ws : List (List Nat)) : List (List Nat) := expectedFrom true ws

/-- A word of the lines of lower-case words: one or more lower-case ASCII letters, not
"mc" followed by two or more letters. -/
def lowerWord (w : List Nat) : Prop :=
  w ≠ [] ∧ (∀ c ∈ w, isLowerAZ c = true) ∧ ¬ ((str "mc").isPrefixOf w = true ∧ 4 ≤ w.length)

instance (w : List Nat) : Decidable (lowerWord w) := by
  unfold lowerWord; infer_instance

/-- The value that the loop over the words appends for a lower-case word. -/
def lowerValue (w : List Nat) : List Nat :=
  if w ∈ smallWordList then w else firstUpper w

/-! ## Relations between a text and its recasing -/

/-- The code points that the patterns and the splitting into words tell apart from the
letters: the punctuation and the white space. -/
def markedPoints : List Nat :=
  punctuation ++ [9, 10, 11, 12, 13, 32, 0x85, 0xA0, 0x1680, 0x2000, 0x2001, 0x2002, 0x2003,
    0x2004, 0x2005, 0x2006, 0x2007, 0x2008, 0x2009, 0x200A, 0x2028, 0x2029, 0x202F, 0x205F,
    0x3000]

/-- The lower case of an upper-case ASCII letter; every other code point is itself. -/
def toLowerAZ (c : Nat) : Nat := if isUpperAZ c then c + 32 else c

/-- Two texts that differ at most in the case of their ASCII letters. -/
def sameLetters (s t : List Nat) : Prop := s.map toLowerAZ = t.map toLowerAZ

/-- A code point and the same code point, or a lower-case letter and its upper case. -/
def raisedRune (a b : Nat) : Prop := b = a ∨ (isLowerAZ a = true ∧ b = toUpperRune a)

/-- A text and the same text with some lower-case letters in upper case. -/
def raised (s t : List Nat) : Prop := List.Forall₂ raisedRune s t

/-- A text without white space. -/
def noSpace (s : List Nat) : Prop := ∀ c ∈ s, isSpace c = false

/-- The last code point of a text, in lower case. -/
def lastLower (s : List Nat) : Option Nat := s.getLast?.map toLowerRune

/-- What a call of `Convert` without override keeps of a word: the result has no white
space and ends as the word ends, up to case. -/
def wordKept (x r : List Nat) : Prop := noSpace r ∧ lastLower r = lastLower x

/-- An ordinary ASCII word: one or more ASCII letters, in any case. -/
def letterWord (w : List Nat) : Prop := w ≠ [] ∧ ∀ c ∈ w, isLetterAZ c = true

instance (w : List Nat) : Decidable (letterWord w) := by
  unfold letterWord; infer_instance

/-- What the boundary pass makes of a value of letters: a small word gets its first
letter in upper case. -/
def capSmall (v : List Nat) : List Nat :=
  if v ∈ smallWordList then firstUpper v else v

/-- The boundary pass on the first of the values of a line of ordinary words. -/
def capSmallFirst : List (List Nat) → List (List Nat)
  | [] => []
  | v :: vs => capSmall v :: vs

/-- The boundary pass on the last of the values of a line of ordinary words. -/
def capSmallLast : List (List Nat) → List (List Nat)
  | [] => []
  | [v] => [capSmall v]
  | v :: v2 :: vs => v :: capSmallLast (v2 :: vs)

/-! ## Inputs of the examples -/

/-- The text of `n` times the code point `c`. -/
def repeated (n c : Nat) : List Nat := List.replicate n c


/-- An override that maps "nasa" to "NASA", whatever the case of the line, and has no
replacement for any other word. -/
def overrideNasa : tcCallback :=
  fun word _ => if word = str "nasa" then str "NASA" else []

/-- An override that maps "indesign" to "inDesign" and has no replacement for any other
word. -/
def overrideInDesign : tcCallback :=
  fun word _ => if word = str "indesign" then str "inDesign" else []

/-! ## The possessive rule on the bytes of the word -/

/-- The slice expression `s[lo:hi]` on the bytes of a string: it panics when the bounds
are not in range. -/
def byteSlice (s : List Nat) (lo hi : Nat) : Except Fault (List Nat) :=
  if lo ≤ hi ∧ hi ≤ s.length then .ok ((s.take hi).drop lo) else .error .sliceOutOfRange

/-- Go's `strings.ToUpper` on a slice of one byte: an ASCII character is mapped, a byte
that is not ASCII is not valid UTF-8 on its own and is replaced by U+FFFD. -/
def bytesToUpper (s : List Nat) : List Nat :=
  (s.map (fun b => if b < 0x80 then [toUpperRune b] else [0xEF, 0xBF, 0xBD])).flatten

/-- Go's `strings.ToLower` on a slice of one byte. -/
def bytesToLower (s : List Nat) : List Nat :=
  (s.map (fun b => if b < 0x80 then [toLowerRune b] else [0xEF, 0xBF, 0xBD])).flatten

/-- The recasing of a word that matches `AposSecond`, on the bytes of the word, with the
slice expressions `word[0:1]`, `word[1:2]`, `word[2:3]` and `word[3:]` of the source. -/
def aposRecaseBytes (word : List Nat) : Except Fault (List Nat) :=
  match byteSlice word 0 1 with
  | .error e => .error e
  | .ok w01 =>
    match byteSlice word 1 2 with
    | .error e => .error e
    | .ok w12 =>
      match byteSlice word 2 3 with
      | .error e => .error e
      | .ok w23 =>
        match byteSlice word 3 word.length with
        | .error e => .error e
        | .ok w3 =>
          if decide (word.length > 0) && !stringsContains (str "aeiouAEIOU") w01 then
            .ok (bytesToLower w01 ++ w12 ++ bytesToUpper w23 ++ w3)
          else .ok (bytesToUpper w01 ++ w12 ++ bytesToUpper w23 ++ w3)

/-- A word of an ASCII line without a slash: no white space, ASCII only, no "/". -/
def plainWord (x : List Nat) : Prop :=
  noSpace x ∧ (∀ c ∈ x, c < 128) ∧ ∀ c ∈ x, c ≠ 47

/-! ## Code points -/

theorem smallWords_eq : smallWords =
    [[97], [97, 110], [97, 110, 100], [97, 115], [97, 116], [98, 117, 116], [98, 121],
     [101, 110], [102, 111, 114], [105, 102], [105, 110], [111, 102], [111, 110], [111, 114],
     [116, 104, 101], [116, 111], [118, 46], [118], [118, 105, 97], [118, 115, 46],
     [118, 115], [119, 105, 116, 104]] := by decide

theorem punctuation_eq : punctuation =
    [33, 34, 8220, 35, 36, 37, 38, 39, 8216, 40, 41, 42, 43, 44, 45, 8211, 8210, 8212, 8213,
     46, 47, 58, 59, 63, 64, 91, 92, 93, 95, 96, 123, 124, 125, 126] := by decide

theorem isPhraseBreak_eq (c : Nat) : isPhraseBreak c =
    ([58, 46, 59, 63, 33, 45, 8211, 8210, 8212, 8213] : List Nat).contains c := by
  have h : str ":.;?!-–‒—―" = [58, 46, 59, 63, 33, 45, 8211, 8210, 8212, 8213] := by decide
  rw [isPhraseBreak, h]

theorem isLowerAZ_iff {c : Nat} : isLowerAZ c = true ↔ 97 ≤ c ∧ c ≤ 122 := by
  simp [isLowerAZ]

theorem isUpperAZ_iff {c : Nat} : isUpperAZ c = true ↔ 65 ≤ c ∧ c ≤ 90 := by
  simp [isUpperAZ]

theorem isLetterAZ_iff {c : Nat} :
    isLetterAZ c = true ↔ (65 ≤ c ∧ c ≤ 90) ∨ (97 ≤ c ∧ c ≤ 122) := by
  simp [isLetterAZ, isUpperAZ, isLowerAZ]

theorem isPunct_iff {c : Nat} : isPunct c = true ↔ c ∈ punctuation := by
  simp [isPunct]

theorem isPunct_of_letter {c : Nat} (h : isLetterAZ c = true) : isPunct c = false := by
  rw [isLetterAZ_iff] at h
  rw [Bool.eq_false_iff, Ne, isPunct_iff, punctuation_eq]
  simp only [List.mem_cons, List.mem_singleton, List.not_mem_nil, or_false]
  omega

theorem isPhraseBreak_of_letter {c : Nat} (h : isLetterAZ c = true) : isPhraseBreak c = false := by
  rw [isLetterAZ_iff] at h
  rw [isPhraseBreak_eq]
  simp
  omega

theorem isWordChar_of_letter {c : Nat} (h : isLetterAZ c = true) : isWordChar c = true := by
  simp [isWordChar, h]

theorem isLetterAZ_of_lower {c : Nat} (h : isLowerAZ c = true) : isLetterAZ c = true := by
  simp [isLetterAZ, h]

theorem isLetterAZ_of_upper {c : Nat} (h : isUpperAZ c = true) : isLetterAZ c = true := by
  simp [isLetterAZ, h]

theorem isUpperAZ_of_lower {c : Nat} (h : isLowerAZ c = true) : isUpperAZ c = false := by
  rw [isLowerAZ_iff] at h
  rw [Bool.eq_false_iff, Ne, isUpperAZ_iff]; omega

/-! ## The case mappings -/

theorem toUpperRune_ascii {c : Nat} (h : c < 128) :
    toUpperRune c = if isLowerAZ c then c - 32 else c := by
  rw [toUpperRune, if_pos h]

theorem toLowerRune_ascii {c : Nat} (h : c < 128) :
    toLowerRune c = if isUpperAZ c then c + 32 else c := by
  rw [toLowerRune, if_pos h]

theorem toTitleRune_ascii {c : Nat} (h : c < 128) : toTitleRune c = toUpperRune c := by
  rw [toTitleRune, toUpperRune, if_pos h, if_pos h]

/-- The image of a code point under a table: the code point itself, or its image under a
range of the table that holds it. -/
theorem unicodeTo_cases (ranges : List (Nat × Nat × Nat × Nat)) (c : Nat) :
    unicodeTo ranges c = c ∨ ∃ lo hi stride image, (lo, hi, stride, image) ∈ ranges ∧
      lo ≤ c ∧ c ≤ hi ∧ (c - lo) % stride = 0 ∧ unicodeTo ranges c = image + (c - lo) := by
  unfold unicodeTo
  cases h : ranges.find? (inRange c) with
  | none => exact Or.inl rfl
  | some r =>
    obtain ⟨lo, hi, stride, image⟩ := r
    right
    have h1 := List.mem_of_find?_eq_some h
    have h2 := List.find?_some h
    simp only [inRange, Bool.and_eq_true, decide_eq_true_eq, beq_iff_eq] at h2
    exact ⟨lo, hi, stride, image, h1, h2.1.1, h2.1.2, h2.2, rfl⟩

/-- A code point that no range of a table holds is its own image. -/
theorem unicodeTo_of_not_inRange {ranges : List (Nat × Nat × Nat × Nat)} {c : Nat}
    (h : ∀ r ∈ ranges, inRange c r = false) : unicodeTo ranges c = c := by
  unfold unicodeTo
  rw [List.find?_eq_none.2 (fun r hr => by simp [h r hr])]

/-- The marked code points are the punctuation and the white space. -/
theorem mem_markedPoints_iff (c : Nat) :
    c ∈ markedPoints ↔ (isPunct c = true ∨ isSpace c = true) := by
  unfold markedPoints
  rw [List.mem_append]
  apply or_congr
  · simp [isPunct]
  · simp only [isSpace, Bool.or_eq_true, Bool.and_eq_true, decide_eq_true_eq, beq_iff_eq,
      List.mem_cons, List.mem_singleton, List.not_mem_nil, or_false]
    omega

theorem not_marked {c : Nat} (h : c ∉ markedPoints) : isSpace c = false ∧ isPunct c = false := by
  rw [mem_markedPoints_iff] at h
  constructor
  · cases hs : isSpace c with
    | false => rfl
    | true => exact absurd (Or.inr hs) h
  · cases hp : isPunct c with
    | false => rfl
    | true => exact absurd (Or.inl hp) h

/-- The ranges of the upper-case mappings start beyond ASCII and hold, as code points and
as images, no marked code point; no image is a lower-case ASCII letter. -/
theorem upperRanges_marked : ∀ r ∈ upperRanges, 128 ≤ r.1 ∧
    (r.2.2.2 + (r.2.1 - r.1) < 97 ∨ 122 < r.2.2.2) ∧
    ∀ p ∈ markedPoints,
      (p < r.1 ∨ r.2.1 < p) ∧ (p < r.2.2.2 ∨ r.2.2.2 + (r.2.1 - r.1) < p) := by
  decide!

/-- The ranges of the title-case mappings start beyond ASCII and hold, as code points and
as images, no marked code point; no image is a lower-case ASCII letter. -/
theorem titleRanges_marked : ∀ r ∈ titleRanges, 128 ≤ r.1 ∧
    (r.2.2.2 + (r.2.1 - r.1) < 97 ∨ 122 < r.2.2.2) ∧
    ∀ p ∈ markedPoints,
      (p < r.1 ∨ r.2.1 < p) ∧ (p < r.2.2.2 ∨ r.2.2.2 + (r.2.1 - r.1) < p) := by
  decide!

/-- The ranges of the lower-case mappings start beyond ASCII and hold, as code points and
as images, no marked code point; no image is an upper-case ASCII letter. -/
theorem lowerRanges_marked : ∀ r ∈ lowerRanges, 128 ≤ r.1 ∧
    (r.2.2.2 + (r.2.1 - r.1) < 65 ∨ 90 < r.2.2.2) ∧
    ∀ p ∈ markedPoints,
      (p < r.1 ∨ r.2.1 < p) ∧ (p < r.2.2.2 ∨ r.2.2.2 + (r.2.1 - r.1) < p) := by
  decide!

/-- No image of the table of lower-case mappings is a code point of the table: the images
of a range and the code points of a range lie apart, or alternate. -/
theorem lowerRanges_apart : ∀ r ∈ lowerRanges, ∀ q ∈ lowerRanges,
    (r.2.2.2 + (r.2.1 - r.1) < q.1 ∨ q.2.1 < r.2.2.2) ∨
    ((r.1 = r.2.1 ∨ r.2.2.1 = 2) ∧ (q.1 = q.2.1 ∨ q.2.2.1 = 2) ∧ (r.2.2.2 + q.1) % 2 = 1) := by
  decide!

/-- What a table of case mappings that holds no marked code point says of a code point:
it is its own image, or it lies beyond ASCII and neither it nor its image is marked, and
its image is not between `a` and `b`. -/
theorem unicodeTo_facts {ranges : List (Nat × Nat × Nat × Nat)} {a b : Nat}
    (hok : ∀ r ∈ ranges, 128 ≤ r.1 ∧ (r.2.2.2 + (r.2.1 - r.1) < a ∨ b < r.2.2.2) ∧
      ∀ p ∈ markedPoints,
        (p < r.1 ∨ r.2.1 < p) ∧ (p < r.2.2.2 ∨ r.2.2.2 + (r.2.1 - r.1) < p))
    (c : Nat) :
    unicodeTo ranges c = c ∨
      (128 ≤ c ∧ c ∉ markedPoints ∧ unicodeTo ranges c ∉ markedPoints ∧
        (unicodeTo ranges c < a ∨ b < unicodeTo ranges c)) := by
  rcases unicodeTo_cases ranges c with h | ⟨lo, hi, stride, image, hr, h1, h2, -, h4⟩
  · exact Or.inl h
  · right
    obtain ⟨k1, k2, k3⟩ := hok _ hr
    simp only at k1 k2 k3
    refine ⟨by omega, ?_, ?_, ?_⟩
    · intro hm
      have := (k3 c hm).1
      omega
    · intro hm
      have := (k3 _ hm).2
      omega
    · omega

/-- The lower-case mapping of a code point: it is the code point itself, or the lower
case of an upper-case ASCII letter, or an image beyond ASCII of the table, which is not
marked, is no upper-case ASCII letter and is its own lower case. -/
theorem toLowerRune_facts (c : Nat) :
    toLowerRune c = c ∨ (isUpperAZ c = true ∧ toLowerRune c = c + 32) ∨
      (128 ≤ c ∧ c ∉ markedPoints ∧ toLowerRune c ∉ markedPoints ∧
        isUpperAZ (toLowerRune c) = false ∧ toLowerRune (toLowerRune c) = toLowerRune c) := by
  by_cases hc : c < 128
  · rw [toLowerRune_ascii hc]
    split
    · next h => exact Or.inr (Or.inl ⟨h, rfl⟩)
    · exact Or.inl rfl
  · have hto : toLowerRune c = unicodeTo lowerRanges c := by rw [toLowerRune, if_neg hc]
    rw [hto]
    rcases unicodeTo_cases lowerRanges c with h | ⟨lo, hi, stride, image, hr, h1, h2, h3, h4⟩
    · exact Or.inl h
    · right; right
      obtain ⟨k1, k2, k3⟩ := lowerRanges_marked _ hr
      simp only at k1 k2 k3
      rw [h4]
      refine ⟨by omega, ?_, ?_, ?_, ?_⟩
      · intro hm
        have := (k3 c hm).1
        omega
      · intro hm
        have := (k3 _ hm).2
        omega
      · rw [Bool.eq_false_iff, Ne, isUpperAZ_iff]; omega
      · by_cases hy : image + (c - lo) < 128
        · rw [toLowerRune_ascii hy, if_neg]
          rw [isUpperAZ_iff]; omega
        · rw [toLowerRune, if_neg hy]
          apply unicodeTo_of_not_inRange
          rintro ⟨lo', hi', stride', image'⟩ hq
          have hap := lowerRanges_apart _ hr _ hq
          simp only at hap
          rw [Bool.eq_false_iff]
          intro hin
          simp only [inRange, Bool.and_eq_true, decide_eq_true_eq, beq_iff_eq] at hin
          obtain ⟨⟨i1, i2⟩, i3⟩ := hin
          rcases hap with hap | ⟨ha, hb, hc'⟩
          · omega
          · rcases ha with ha | ha <;> rcases hb with hb | hb
            · omega
            · subst hb; omega
            · subst ha; omega
            · subst ha; subst hb; omega

/-- The upper-case mapping of a code point: it is the code point itself, or the upper
case of a lower-case ASCII letter, or an image beyond ASCII of the table, which is not
marked and is no lower-case ASCII letter. -/
theorem toUpperRune_facts (c : Nat) :
    toUpperRune c = c ∨ (isLowerAZ c = true ∧ toUpperRune c = c - 32) ∨
      (128 ≤ c ∧ c ∉ markedPoints ∧ toUpperRune c ∉ markedPoints ∧
        isLowerAZ (toUpperRune c) = false) := by
  by_cases hc : c < 128
  · rw [toUpperRune_ascii hc]
    split
    · next h => exact Or.inr (Or.inl ⟨h, rfl⟩)
    · exact Or.inl rfl
  · have hto : toUpperRune c = unicodeTo upperRanges c := by rw [toUpperRune, if_neg hc]
    rw [hto]
    rcases unicodeTo_facts upperRanges_marked c with h | ⟨h1, h2, h3, h4⟩
    · exact Or.inl h
    · refine Or.inr (Or.inr ⟨h1, h2, h3, ?_⟩)
      rw [Bool.eq_false_iff, Ne, isLowerAZ_iff]; omega

/-- The title-case mapping of a code point, as `toUpperRune_facts`. -/
theorem toTitleRune_facts (c : Nat) :
    toTitleRune c = c ∨ (isLowerAZ c = true ∧ toTitleRune c = c - 32) ∨
      (128 ≤ c ∧ c ∉ markedPoints ∧ toTitleRune c ∉ markedPoints ∧
        isLowerAZ (toTitleRune c) = false) := by
  by_cases hc : c < 128
  · rw [toTitleRune_ascii hc, toUpperRune_ascii hc]
    split
    · next h => exact Or.inr (Or.inl ⟨h, rfl⟩)
    · exact Or.inl rfl
  · have hto : toTitleRune c = unicodeTo titleRanges c := by rw [toTitleRune, if_neg hc]
    rw [hto]
    rcases unicodeTo_facts titleRanges_marked c with h | ⟨h1, h2, h3, h4⟩
    · exact Or.inl h
    · refine Or.inr (Or.inr ⟨h1, h2, h3, ?_⟩)
      rw [Bool.eq_false_iff, Ne, isLowerAZ_iff]; omega

theorem lt_of_isLowerAZ {c : Nat} (h : isLowerAZ c = true) : c < 128 := by
  rw [isLowerAZ_iff] at h; omega

theorem lt_of_isUpperAZ {c : Nat} (h : isUpperAZ c = true) : c < 128 := by
  rw [isUpperAZ_iff] at h; omega

theorem lt_of_isLetterAZ {c : Nat} (h : isLetterAZ c = true) : c < 128 := by
  rw [isLetterAZ_iff] at h; omega

theorem toUpperRune_of_lower {c : Nat} (h : isLowerAZ c = true) : toUpperRune c = c - 32 := by
  rw [toUpperRune_ascii (lt_of_isLowerAZ h), if_pos h]

theorem toLowerRune_of_upper {c : Nat} (h : isUpperAZ c = true) : toLowerRune c = c + 32 := by
  rw [toLowerRune_ascii (lt_of_isUpperAZ h), if_pos h]

theorem isUpperAZ_toUpperRune {c : Nat} (h : isLowerAZ c = true) :
    isUpperAZ (toUpperRune c) = true := by
  rw [toUpperRune_of_lower h, isUpperAZ_iff]
  rw [isLowerAZ_iff] at h; omega

theorem toUpperRune_ne {c : Nat} (h : isLowerAZ c = true) : toUpperRune c ≠ c := by
  rw [toUpperRune_of_lower h]
  rw [isLowerAZ_iff] at h; omega

/-- An ASCII code point that is no lower-case letter is its own upper case. -/
theorem toUpperRune_of_not_lower {c : Nat} (hc : c < 128) (h : isLowerAZ c = false) :
    toUpperRune c = c := by
  rw [toUpperRune_ascii hc, h]
  rfl

/-- An ASCII code point that is no upper-case letter is its own lower case. -/
theorem toLowerRune_of_not_upper {c : Nat} (hc : c < 128) (h : isUpperAZ c = false) :
    toLowerRune c = c := by
  rw [toLowerRune_ascii hc, h]
  rfl

/-- A code point of the punctuation has no case. -/
theorem case_of_isPunct {c : Nat} (h : isPunct c = true) :
    toUpperRune c = c ∧ toLowerRune c = c ∧ toTitleRune c = c := by
  have hm : c ∈ markedPoints := (mem_markedPoints_iff c).2 (Or.inl h)
  have hl : isLowerAZ c = false := by
    cases hl : isLowerAZ c with
    | false => rfl
    | true => rw [isPunct_of_letter (isLetterAZ_of_lower hl)] at h; cases h
  have hu : isUpperAZ c = false := by
    cases hu : isUpperAZ c with
    | false => rfl
    | true => rw [isPunct_of_letter (isLetterAZ_of_upper hu)] at h; cases h
  refine ⟨?_, ?_, ?_⟩
  · rcases toUpperRune_facts c with h1 | ⟨h1, -⟩ | ⟨-, h1, -⟩
    · exact h1
    · rw [hl] at h1; cases h1
    · exact absurd hm h1
  · rcases toLowerRune_facts c with h1 | ⟨h1, -⟩ | ⟨-, h1, -⟩
    · exact h1
    · rw [hu] at h1; cases h1
    · exact absurd hm h1
  · rcases toTitleRune_facts c with h1 | ⟨h1, -⟩ | ⟨-, h1, -⟩
    · exact h1
    · rw [hl] at h1; cases h1
    · exact absurd hm h1

/-! ## The patterns on words of lower-case letters -/

theorem smallWordList_eq : smallWordList =
    [[97], [97, 110], [97, 110, 100], [97, 115], [97, 116], [98, 117, 116], [98, 121],
     [101, 110], [102, 111, 114], [105, 102], [105, 110], [111, 102], [111, 110], [111, 114],
     [116, 104, 101], [116, 111], [118], [118, 105, 97], [118, 115], [119, 105, 116, 104]] := by
  decide

/-- An alternative of `smallWords` starts with a lower-case letter. -/
theorem smallWords_head {a : List Nat} (h : a ∈ smallWords) :
    ∃ c t, a = c :: t ∧ isLowerAZ c = true := by
  rw [smallWords_eq] at h
  simp only [List.mem_cons, List.mem_singleton, List.not_mem_nil, or_false] at h
  rcases h with h | h | h | h | h | h | h | h | h | h | h | h | h | h | h | h | h | h | h | h | h | h <;>
    subst h <;> exact ⟨_, _, rfl, by decide⟩

theorem matchSmall_some {k : Option Nat → List Nat → Bool} {s a : List Nat}
    (h : matchSmall k s = some a) :
    a ∈ smallWords ∧ a <+: s ∧ k a.getLast? (s.drop a.length) = true := by
  unfold matchSmall at h
  have h1 := List.mem_of_find?_eq_some h
  have h2 := List.find?_some h
  simp only [Bool.and_eq_true, List.isPrefixOf_iff_prefix] at h2
  exact ⟨h1, h2.1, h2.2⟩

theorem matchSmall_none_of_head {k : Option Nat → List Nat → Bool} {c : Nat} {t : List Nat}
    (hc : isLowerAZ c = false) : matchSmall k (c :: t) = none := by
  cases h : matchSmall k (c :: t) with
  | none => rfl
  | some a =>
    obtain ⟨h1, h2, -⟩ := matchSmall_some h
    obtain ⟨c', t', rfl, hc'⟩ := smallWords_head h1
    rw [List.cons_prefix_cons] at h2
    rw [h2.1, hc] at hc'
    exact absurd hc' (by decide)

theorem matchSmall_nil {k : Option Nat → List Nat → Bool} : matchSmall k [] = none := by
  cases h : matchSmall k [] with
  | none => rfl
  | some a =>
    obtain ⟨h1, h2, -⟩ := matchSmall_some h
    obtain ⟨c', t', rfl, -⟩ := smallWords_head h1
    simp at h2

theorem matchSmall_isSome_iff {k : Option Nat → List Nat → Bool} {s : List Nat} :
    (matchSmall k s).isSome = true ↔
      ∃ a ∈ smallWords, a <+: s ∧ k a.getLast? (s.drop a.length) = true := by
  unfold matchSmall
  rw [List.find?_isSome]
  simp only [Bool.and_eq_true, List.isPrefixOf_iff_prefix]

/-- `SmallWords` matches exactly the alternatives of `smallWords`. -/
theorem SmallWords_iff {w : List Nat} : SmallWords w = true ↔ w ∈ smallWords := by
  unfold SmallWords
  rw [matchSmall_isSome_iff]
  constructor
  · rintro ⟨a, ha, ⟨r, rfl⟩, hk⟩
    simp only [List.drop_left, beq_iff_eq] at hk
    subst hk
    simpa using ha
  · intro h
    exact ⟨w, h, List.prefix_refl _, by simp⟩

/-- A word of letters is an alternative of `smallWords` exactly when it is in the list
of the specification. -/
theorem mem_smallWords_of_letters {w : List Nat} (hw : ∀ c ∈ w, isLetterAZ c = true) :
    w ∈ smallWords ↔ w ∈ smallWordList := by
  rw [smallWords_eq, smallWordList_eq]
  simp only [List.mem_cons, List.mem_singleton, List.not_mem_nil, or_false]
  constructor
  · intro h
    rcases h with h | h | h | h | h | h | h | h | h | h | h | h | h | h | h | h | h | h | h | h | h | h <;>
      subst h <;> first
      | (exfalso; revert hw; decide)
      | simp
  · intro h
    rcases h with h | h | h | h | h | h | h | h | h | h | h | h | h | h | h | h | h | h | h | h <;>
      simp [h]

theorem AposSecond_of_letters {w : List Nat} (hw : ∀ c ∈ w, isLetterAZ c = true) :
    AposSecond w = false := by
  match w with
  | [] => rfl
  | [_] => rfl
  | [_, _] => rfl
  | c0 :: c1 :: c2 :: t =>
    have h1 := hw c1 (by simp)
    rw [isLetterAZ_iff] at h1
    have : (c1 == 39) = false ∧ (c1 == 0x2018) = false := by
      constructor <;> simp <;> omega
    simp [AposSecond, this]

theorem InlinePeriod_of_no_period : ∀ {w : List Nat}, (∀ c ∈ w, c ≠ 46) → InlinePeriod w = false
  | [], _ => rfl
  | [_], _ => rfl
  | [_, _], _ => rfl
  | a :: b :: c :: t, hw => by
    have hb : (b == 46) = false := by simpa using hw b (by simp)
    have ih := InlinePeriod_of_no_period (w := b :: c :: t) (fun x hx => hw x (by simp [hx]))
    simp [InlinePeriod, hb, ih]

theorem lettersThenUpper_of_no_upper : ∀ {w : List Nat}, (∀ c ∈ w, isUpperAZ c = false) →
    lettersThenUpper w = false
  | [], _ => rfl
  | [_], _ => rfl
  | a :: b :: t, hw => by
    have hb := hw b (by simp)
    have ih := lettersThenUpper_of_no_upper (w := b :: t) (fun x hx => hw x (by simp [hx]))
    simp [lettersThenUpper, hb, ih]

theorem ucElsewhereHere_of_no_upper : ∀ {w : List Nat}, (∀ c ∈ w, isUpperAZ c = false) →
    ucElsewhereHere w = false
  | [], _ => rfl
  | c :: t, hw => by
    have ih := ucElsewhereHere_of_no_upper (w := t) (fun x hx => hw x (by simp [hx]))
    simp [ucElsewhereHere, lettersThenUpper_of_no_upper hw, ih]

/-- `UCElsewhere` needs an upper-case letter. -/
theorem UCElsewhere_of_no_upper : ∀ {w : List Nat}, (∀ c ∈ w, isUpperAZ c = false) →
    UCElsewhere w = false
  | [], _ => rfl
  | c :: t, hw => by
    have ih := UCElsewhere_of_no_upper (w := t) (fun x hx => hw x (by simp [hx]))
    simp [UCElsewhere, ucElsewhereHere_of_no_upper hw, ih]

theorem stringsContains_singleton : ∀ (s : List Nat) (c : Nat),
    stringsContains s [c] = s.contains c
  | [], c => by simp [stringsContains, List.isPrefixOf]
  | x :: t, c => by
    simp only [stringsContains, List.isPrefixOf, stringsContains_singleton t c, Bool.and_true,
      List.contains_cons]

theorem stringsContains_hyphen (w : List Nat) :
    stringsContains [45] w = (w == [] || w == [45]) := by
  match w with
  | [] => rfl
  | [c] => simp [stringsContains, List.isPrefixOf]
  | c :: d :: t => simp [stringsContains, List.isPrefixOf]

theorem capFirstLength_of_letter {c : Nat} {t : List Nat} (h : isLetterAZ c = true) :
    capFirstLength (c :: t) = some 1 := by
  simp [capFirstLength, h]

theorem CapFirst_of_letter {c : Nat} {t : List Nat} (h : isLetterAZ c = true) :
    CapFirst_ReplaceAllStringFunc (c :: t) stringsToUpper = firstUpper (c :: t) := by
  simp [CapFirst_ReplaceAllStringFunc, capFirstLength_of_letter h, stringsToUpper, firstUpper]

theorem MacMc_none_of_lower {w : List Nat}
    (h : ¬ ((str "mc").isPrefixOf w = true ∧ 4 ≤ w.length)) (hw : ∀ c ∈ w, isLowerAZ c = true) :
    MacMc w = none := by
  match w with
  | [] => rfl
  | [_] => rfl
  | [_, _] => rfl
  | [_, _, _] => rfl
  | a :: b :: c :: d :: t =>
    have ha := hw a (by simp)
    have hb := hw b (by simp)
    rw [isLowerAZ_iff] at ha hb
    by_cases hab : a = 109 ∧ b = 99
    · exfalso
      apply h
      rw [hab.1, hab.2]
      exact ⟨by rfl, by simp⟩
    · have : (((a == 77 || a == 109) && b == 99) || (a == 77 && b == 67)) = false := by
        simp only [Bool.or_eq_false_iff, Bool.and_eq_false_iff, beq_eq_false_iff_ne, ne_eq]
        omega
      simp [MacMc, this]

/-! ## The boundary pass and the phrase repair on words of letters -/

theorem SmallFirst_smallWord {w : List Nat} (h : w ∈ smallWordList) :
    SmallFirst_ReplaceAllStringFunc w capitalize = firstUpper w := by
  rw [smallWordList_eq] at h
  simp only [List.mem_cons, List.mem_singleton, List.not_mem_nil, or_false] at h
  rcases h with h | h | h | h | h | h | h | h | h | h | h | h | h | h | h | h | h | h | h | h <;>
    subst h <;> decide

theorem SmallLast_smallWord {w : List Nat} (h : w ∈ smallWordList) :
    SmallLast_ReplaceAllStringFunc w capitalize = firstUpper w := by
  rw [smallWordList_eq] at h
  simp only [List.mem_cons, List.mem_singleton, List.not_mem_nil, or_false] at h
  rcases h with h | h | h | h | h | h | h | h | h | h | h | h | h | h | h | h | h | h | h | h <;>
    subst h <;> decide

theorem smallFirstMatch_none_of_head {c : Nat} {t : List Nat} (hl : isLowerAZ c = false)
    (hp : isPunct c = false) : smallFirstMatch (c :: t) = none := by
  simp [smallFirstMatch, hp, matchSmall_none_of_head hl]

theorem SmallFirst_of_head {c : Nat} {t : List Nat} (f : List Nat → List Nat)
    (hl : isLowerAZ c = false) (hp : isPunct c = false) :
    SmallFirst_ReplaceAllStringFunc (c :: t) f = c :: t := by
  simp [SmallFirst_ReplaceAllStringFunc, smallFirstMatch_none_of_head hl hp]

theorem wordBoundary_of_word {p c : Nat} (hp : isWordChar p = true) (hc : isWordChar c = true) :
    wordBoundary (some p) (some c) = false := by
  simp [wordBoundary, hp, hc]

/-- Inside a run of word characters `SmallLast` finds no word boundary. -/
theorem smallLastFrom_of_word (f : List Nat → List Nat) : ∀ (t : List Nat) (p : Nat),
    isWordChar p = true → (∀ c ∈ t, isWordChar c = true) → smallLastFrom f (some p) t = t
  | [], _, _, _ => rfl
  | c :: t, p, hp, ht => by
    have hc := ht c (by simp)
    have ih := smallLastFrom_of_word f t c hc (fun x hx => ht x (by simp [hx]))
    simp [smallLastFrom, wordBoundary_of_word hp hc, ih]

theorem SmallLast_of_head {c : Nat} {t : List Nat} (f : List Nat → List Nat)
    (hl : isLowerAZ c = false) (hc : isWordChar c = true) (ht : ∀ x ∈ t, isWordChar x = true) :
    SmallLast_ReplaceAllStringFunc (c :: t) f = c :: t := by
  simp [SmallLast_ReplaceAllStringFunc, smallLastFrom, matchSmall_none_of_head hl,
    smallLastFrom_of_word f t c hc ht]

theorem subPhraseMatch_none_of_head {c : Nat} {t : List Nat} (h : isPhraseBreak c = false) :
    subPhraseMatch (c :: t) = none := by
  cases t with
  | nil => rfl
  | cons sp t => simp [subPhraseMatch, h]

/-- Without a phrase break the phrase repair changes nothing. -/
theorem subPhraseFrom_of_no_break (f : List Nat → List Nat) : ∀ (s : List Nat),
    (∀ c ∈ s, isPhraseBreak c = false) → subPhraseFrom f 0 s = s
  | [], _ => rfl
  | c :: t, h => by
    have ih := subPhraseFrom_of_no_break f t (fun x hx => h x (by simp [hx]))
    simp [subPhraseFrom, subPhraseMatch_none_of_head (h c (by simp)), ih]

/-! ## Fields, lines and joins -/

theorem fieldsFrom_append : ∀ (w cur rest : List Nat), (∀ c ∈ w, isSpace c = false) →
    fieldsFrom cur (w ++ rest) = fieldsFrom (cur ++ w) rest
  | [], cur, rest, _ => by simp
  | c :: w, cur, rest, h => by
    have ih := fieldsFrom_append w (cur ++ [c]) rest (fun x hx => h x (by simp [hx]))
    simp [fieldsFrom, h c (by simp), ih]

theorem fieldsFrom_word (w : List Nat) (hw : w ≠ []) (h : ∀ c ∈ w, isSpace c = false) :
    fieldsFrom [] w = [w] := by
  have := fieldsFrom_append w [] [] h
  simp only [List.append_nil, List.nil_append] at this
  rw [this]; simp [fieldsFrom, hw]

theorem fieldsFrom_word_space (w rest : List Nat) (hw : w ≠ [])
    (h : ∀ c ∈ w, isSpace c = false) :
    fieldsFrom [] (w ++ 32 :: rest) = w :: fieldsFrom [] rest := by
  rw [fieldsFrom_append w [] _ h]
  simp [fieldsFrom, isSpace, hw]

theorem intercalate_cons_cons (sep x y : List Nat) (t : List (List Nat)) :
    sep.intercalate (x :: y :: t) = x ++ sep ++ sep.intercalate (y :: t) := by
  simp [List.intercalate, List.intersperse]

theorem intercalate_singleton (sep x : List Nat) : sep.intercalate [x] = x := by
  simp [List.intercalate, List.intersperse]

/-- The fields of words joined by single spaces are the words. -/
theorem stringsFields_join : ∀ (ws : List (List Nat)),
    (∀ w ∈ ws, w ≠ [] ∧ ∀ c ∈ w, isSpace c = false) →
    stringsFields (stringsJoin ws [32]) = ws
  | [], _ => rfl
  | [w], h => by
    simp only [stringsJoin, intercalate_singleton, stringsFields]
    exact fieldsFrom_word w (h w (by simp)).1 (h w (by simp)).2
  | w :: w2 :: ws, h => by
    have ih := stringsFields_join (w2 :: ws) (fun x hx => h x (by simp [hx]))
    simp only [stringsJoin, stringsFields] at ih ⊢
    rw [intercalate_cons_cons, List.append_assoc, List.singleton_append,
      fieldsFrom_word_space w _ (h w (by simp)).1 (h w (by simp)).2, ih]

theorem joinWords_eq : ∀ (ms : List Mutagenic) (acc : List Nat),
    joinWords acc ms = acc ++ (ms.map (fun m => 32 :: m.String)).flatten
  | [], acc => by simp [joinWords]
  | m :: ms, acc => by
    simp [joinWords, joinWords_eq ms]

theorem join_space_eq : ∀ (vs : List (List Nat)), vs ≠ [] →
    (vs.map (fun v => 32 :: v)).flatten = 32 :: stringsJoin vs [32]
  | [], h => absurd rfl h
  | [v], _ => by simp [stringsJoin, intercalate_singleton]
  | v :: v2 :: vs, _ => by
    have ih := join_space_eq (v2 :: vs) (by simp)
    simp only [stringsJoin] at ih ⊢
    rw [intercalate_cons_cons, List.map_cons, List.flatten_cons, ih]
    simp

/-! ## The bytes of a text -/

theorem utf8Bytes_ascii {c : Nat} (h : c < 128) : utf8Bytes c = [c] := by
  simp [utf8Bytes, h]

theorem utf8Bytes_length_pos (c : Nat) : 1 ≤ (utf8Bytes c).length := by
  unfold utf8Bytes
  split
  · simp
  split
  · simp
  split
  · simp
  split <;> simp

theorem stringBytes_cons (c : Nat) (t : List Nat) :
    stringBytes (c :: t) = utf8Bytes c ++ stringBytes t := by
  simp [stringBytes]

theorem stringBytes_append (s t : List Nat) :
    stringBytes (s ++ t) = stringBytes s ++ stringBytes t := by
  simp [stringBytes]

theorem byteLen_nil : byteLen [] = 0 := rfl

theorem byteLen_cons (c : Nat) (t : List Nat) :
    byteLen (c :: t) = (utf8Bytes c).length + byteLen t := by
  simp [byteLen, stringBytes_cons]

theorem byteLen_append (s t : List Nat) : byteLen (s ++ t) = byteLen s + byteLen t := by
  simp [byteLen, stringBytes_append]

/-- A text has at least as many bytes as code points. -/
theorem length_le_byteLen : ∀ (s : List Nat), s.length ≤ byteLen s
  | [] => by simp [byteLen_nil]
  | c :: t => by
    have := length_le_byteLen t
    have := utf8Bytes_length_pos c
    rw [byteLen_cons, List.length_cons]
    omega

/-- An ASCII text has as many bytes as code points. -/
theorem byteLen_ascii : ∀ {s : List Nat}, (∀ c ∈ s, c < 128) → byteLen s = s.length
  | [], _ => rfl
  | c :: t, h => by
    have ih := byteLen_ascii (s := t) (fun x hx => h x (by simp [hx]))
    rw [byteLen_cons, utf8Bytes_ascii (h c (by simp)), ih]
    simp
    omega

theorem byteLen_le_of_append_right (s t : List Nat) : byteLen t ≤ byteLen (s ++ t) := by
  rw [byteLen_append]; omega

theorem byteLen_le_of_append_left (s t : List Nat) : byteLen s ≤ byteLen (s ++ t) := by
  rw [byteLen_append]; omega

/-! ## The lines of an input -/

theorem scanFrom_of_no_newline : ∀ (s cur : List Nat), (∀ c ∈ s, c ≠ 10) →
    scanFrom cur s =
      if cur ++ s = [] then [] else
        if maxScanTokenSize ≤ byteLen (cur ++ s) then [] else [dropCR (cur ++ s)]
  | [], cur, _ => by simp [scanFrom]
  | c :: s, cur, h => by
    have ih := scanFrom_of_no_newline s (cur ++ [c]) (fun x hx => h x (by simp [hx]))
    simp [scanFrom, h c (by simp), ih]

/-- An input without a newline is no line when it is empty or has `maxScanTokenSize`
bytes or more, and one line otherwise. -/
theorem scanLines_of_no_newline (s : List Nat) (h : ∀ c ∈ s, c ≠ 10) :
    scanLines s =
      if s = [] then [] else if maxScanTokenSize ≤ byteLen s then [] else [dropCR s] := by
  simpa using scanFrom_of_no_newline s [] h

/-! ## Lines of lower-case words -/

theorem stringsToLower_of_no_upper : ∀ (w : List Nat), (∀ c ∈ w, c < 128) →
    (∀ c ∈ w, isUpperAZ c = false) → stringsToLower w = w
  | [], _, _ => rfl
  | c :: t, ha, h => by
    have ih := stringsToLower_of_no_upper t (fun x hx => ha x (by simp [hx]))
      (fun x hx => h x (by simp [hx]))
    simp only [stringsToLower] at ih ⊢
    rw [List.map_cons, ih, toLowerRune_of_not_upper (ha c (by simp)) (h c (by simp))]

theorem convertWord_lower (conv : List Nat → Except Fault (List Nat)) {w : List Nat}
    (hne : w ≠ []) (hw : ∀ c ∈ w, isLowerAZ c = true)
    (hmc : ¬ ((str "mc").isPrefixOf w = true ∧ 4 ≤ w.length)) :
    convertWord conv none false w = .ok (NewMutable (lowerValue w)) := by
  have hL : ∀ c ∈ w, isLetterAZ c = true := fun c hc => isLetterAZ_of_lower (hw c hc)
  have hU : ∀ c ∈ w, isUpperAZ c = false := fun c hc => isUpperAZ_of_lower (hw c hc)
  have h1 := AposSecond_of_letters hL
  have h2 := MacMc_none_of_lower hmc hw
  have h3 : InlinePeriod w = false := InlinePeriod_of_no_period (fun c hc h => by
    have := hw c hc; rw [isLowerAZ_iff] at this; omega)
  have h4 := UCElsewhere_of_no_upper hU
  have h6 : stringsContains w [47] = false := by
    rw [stringsContains_singleton]
    simp only [List.contains_eq_any_beq, List.any_eq_false, beq_iff_eq]
    intro c hc h
    have := hw c hc; rw [isLowerAZ_iff] at this; omega
  have h7 : stringsContains [45] w = false := by
    rw [stringsContains_hyphen]
    obtain ⟨c, t, rfl⟩ := List.exists_cons_of_ne_nil hne
    have := hw c (by simp); rw [isLowerAZ_iff] at this
    simp; omega
  obtain ⟨c, t, rfl⟩ := List.exists_cons_of_ne_nil hne
  have h8 := CapFirst_of_letter (t := t) (hL c (by simp))
  by_cases hs : c :: t ∈ smallWordList
  · have h5 : SmallWords (c :: t) = true :=
      SmallWords_iff.2 ((mem_smallWords_of_letters hL).2 hs)
    simp [convertWord, h1, h2, h3, h4, h5,
      stringsToLower_of_no_upper _ (fun c hc => lt_of_isLowerAZ (hw c hc)) hU, lowerValue, hs]
  · have h5 : SmallWords (c :: t) = false := by
      rw [Bool.eq_false_iff, Ne, SmallWords_iff, mem_smallWords_of_letters hL]; exact hs
    simp [convertWord, h1, h2, h3, h4, h5, h6, h7, h8, lowerValue, hs]

theorem convertWords_lower (conv : List Nat → Except Fault (List Nat)) :
    ∀ (ws : List (List Nat)), (∀ w ∈ ws, lowerWord w) →
      convertWords conv none false ws = .ok (ws.map (fun w => NewMutable (lowerValue w)))
  | [], _ => rfl
  | w :: ws, h => by
    have hw := h w (by simp)
    have ih := convertWords_lower conv ws (fun x hx => h x (by simp [hx]))
    simp [convertWords, convertWord_lower conv hw.1 hw.2.1 hw.2.2, ih]

theorem firstUpper_shape {w : List Nat} (hne : w ≠ []) (hw : ∀ c ∈ w, isLowerAZ c = true) :
    ∃ c t, firstUpper w = c :: t ∧ isUpperAZ c = true ∧ ∀ x ∈ t, isLowerAZ x = true := by
  obtain ⟨c, t, rfl⟩ := List.exists_cons_of_ne_nil hne
  exact ⟨_, t, rfl, isUpperAZ_toUpperRune (hw c (by simp)), fun x hx => hw x (by simp [hx])⟩

theorem isLowerAZ_of_upper {c : Nat} (h : isUpperAZ c = true) : isLowerAZ c = false := by
  rw [isUpperAZ_iff] at h
  rw [Bool.eq_false_iff, Ne, isLowerAZ_iff]; omega

theorem SmallFirst_firstUpper {w : List Nat} (hne : w ≠ []) (hw : ∀ c ∈ w, isLowerAZ c = true) :
    SmallFirst_ReplaceAllStringFunc (firstUpper w) capitalize = firstUpper w := by
  obtain ⟨c, t, h, hc, -⟩ := firstUpper_shape hne hw
  rw [h]
  exact SmallFirst_of_head _ (isLowerAZ_of_upper hc) (isPunct_of_letter (isLetterAZ_of_upper hc))

theorem SmallLast_firstUpper {w : List Nat} (hne : w ≠ []) (hw : ∀ c ∈ w, isLowerAZ c = true) :
    SmallLast_ReplaceAllStringFunc (firstUpper w) capitalize = firstUpper w := by
  obtain ⟨c, t, h, hc, ht⟩ := firstUpper_shape hne hw
  rw [h]
  exact SmallLast_of_head _ (isLowerAZ_of_upper hc) (isWordChar_of_letter (isLetterAZ_of_upper hc))
    (fun x hx => isWordChar_of_letter (isLetterAZ_of_lower (ht x hx)))

theorem SmallFirst_lowerValue {w : List Nat} (h : lowerWord w) :
    SmallFirst_ReplaceAllStringFunc (lowerValue w) capitalize = firstUpper w := by
  unfold lowerValue
  split
  · next hs => exact SmallFirst_smallWord hs
  · exact SmallFirst_firstUpper h.1 h.2.1

theorem SmallLast_lowerValue {w : List Nat} (h : lowerWord w) :
    SmallLast_ReplaceAllStringFunc (lowerValue w) capitalize = firstUpper w := by
  unfold lowerValue
  split
  · next hs => exact SmallLast_smallWord hs
  · exact SmallLast_firstUpper h.1 h.2.1

theorem expectedWord_middle (w : List Nat) : expectedWord false false w = lowerValue w := by
  simp [expectedWord, lowerValue]

theorem expectedWord_last (first : Bool) (w : List Nat) : expectedWord first true w = firstUpper w := by
  simp [expectedWord]

theorem expectedWord_first (last : Bool) (w : List Nat) : expectedWord true last w = firstUpper w := by
  simp [expectedWord]

theorem forceLast_lower : ∀ (ws : List (List Nat)), (∀ w ∈ ws, lowerWord w) →
    forceLast (ws.map (fun w => NewMutable (lowerValue w))) =
      (expectedFrom false ws).map NewMutable
  | [], _ => rfl
  | [w], h => by
    simp [forceLast, NewMutable, expectedFrom, expectedWord_last, SmallLast_lowerValue (h w (by simp))]
  | w :: w2 :: ws, h => by
    have ih := forceLast_lower (w2 :: ws) (fun x hx => h x (by simp [hx]))
    simp only [List.map_cons] at ih
    simp only [List.map_cons, forceLast, expectedFrom, expectedWord_middle, ih]
    rfl

theorem forceBoth_lower : ∀ (ws : List (List Nat)), (∀ w ∈ ws, lowerWord w) →
    forceLast (forceFirst (ws.map (fun w => NewMutable (lowerValue w)))) =
      (expectedWords ws).map NewMutable
  | [], _ => rfl
  | [w], h => by
    have hw := h w (by simp)
    simp [forceFirst, forceLast, NewMutable, expectedWords, expectedFrom, expectedWord_last,
      SmallFirst_lowerValue hw, SmallLast_firstUpper hw.1 hw.2.1]
  | w :: w2 :: ws, h => by
    have hw := h w (by simp)
    have ih := forceLast_lower (w2 :: ws) (fun x hx => h x (by simp [hx]))
    simp only [List.map_cons] at ih
    simp only [List.map_cons, NewMutable, forceFirst, forceLast, expectedWords, expectedFrom,
      expectedWord_first, SmallFirst_lowerValue hw]
    simp only [NewMutable] at ih
    rw [ih]

theorem allCaps_of_lower_head {c : Nat} {t : List Nat} (hc : isLowerAZ c = true) :
    (stringsToUpper (c :: t) == c :: t) = false := by
  rw [beq_eq_false_iff_ne]
  intro h
  simp only [stringsToUpper, List.map_cons, List.cons.injEq] at h
  exact toUpperRune_ne hc h.1

theorem isSpace_of_letter {c : Nat} (h : isLetterAZ c = true) : isSpace c = false := by
  rw [isLetterAZ_iff] at h
  simp only [isSpace, Bool.or_eq_false_iff, Bool.and_eq_false_iff, decide_eq_false_iff_not,
    beq_eq_false_iff_ne, ne_eq]
  omega

theorem mem_expectedFrom : ∀ (ws : List (List Nat)) (first : Bool) (v : List Nat),
    v ∈ expectedFrom first ws → ∃ w ∈ ws, v = w ∨ v = firstUpper w
  | [], _, v, h => by simp [expectedFrom] at h
  | [w], first, v, h => by
    simp only [expectedFrom, expectedWord_last, List.mem_singleton] at h
    exact ⟨w, by simp, Or.inr h⟩
  | w :: w2 :: ws, first, v, h => by
    simp only [expectedFrom, List.mem_cons] at h
    rcases h with h | h
    · refine ⟨w, by simp, ?_⟩
      rw [h, expectedWord]; split <;> simp
    · obtain ⟨x, hx, hv⟩ := mem_expectedFrom (w2 :: ws) false v (by simpa using h)
      exact ⟨x, by simp at hx ⊢; tauto, hv⟩

theorem expectedFrom_ne_nil : ∀ (ws : List (List Nat)) (first : Bool), ws ≠ [] →
    expectedFrom first ws ≠ []
  | [], _, h => absurd rfl h
  | [w], _, _ => by simp [expectedFrom]
  | w :: w2 :: ws, _, _ => by simp [expectedFrom]

theorem mem_join_space {c : Nat} : ∀ {vs : List (List Nat)}, c ∈ stringsJoin vs [32] →
    c = 32 ∨ ∃ v ∈ vs, c ∈ v
  | [], h => by simp [stringsJoin, List.intercalate] at h
  | [v], h => by
    simp only [stringsJoin, intercalate_singleton] at h
    exact Or.inr ⟨v, by simp, h⟩
  | v :: v2 :: vs, h => by
    simp only [stringsJoin, intercalate_cons_cons, List.mem_append, List.mem_singleton] at h
    rcases h with (h | h) | h
    · exact Or.inr ⟨v, by simp, h⟩
    · exact Or.inl h
    · rcases @mem_join_space c (v2 :: vs) h with h | ⟨x, hx, hc⟩
      · exact Or.inl h
      · exact Or.inr ⟨x, by simp at hx ⊢; tauto, hc⟩

theorem join_head {c : Nat} {t : List Nat} (ws : List (List Nat)) :
    ∃ l, stringsJoin ((c :: t) :: ws) [32] = c :: l := by
  cases ws with
  | nil => exact ⟨t, by simp [stringsJoin, intercalate_singleton]⟩
  | cons w2 ws2 =>
    exact ⟨t ++ [32] ++ stringsJoin (w2 :: ws2) [32], by
      simp only [stringsJoin, intercalate_cons_cons, List.cons_append, List.append_assoc]⟩

theorem dropCR_of_no_cr {s : List Nat} (h : ∀ c ∈ s, c ≠ 13) : dropCR s = s := by
  unfold dropCR
  split
  · next hl => exact absurd rfl (h 13 (List.mem_of_getLast?_eq_some hl))
  · rfl

/-! ## Texts that differ in the case of their letters -/

theorem toLowerAZ_of_upper {c : Nat} (h : isUpperAZ c = true) : toLowerAZ c = c + 32 := by
  rw [toLowerAZ, if_pos h]

theorem toLowerAZ_of_not_upper {c : Nat} (h : isUpperAZ c = false) : toLowerAZ c = c := by
  rw [toLowerAZ, h]
  rfl

theorem isUpperAZ_of_isPunct {c : Nat} (h : isPunct c = true) : isUpperAZ c = false := by
  cases hu : isUpperAZ c with
  | false => rfl
  | true => rw [isPunct_of_letter (isLetterAZ_of_upper hu)] at h; cases h

theorem isLowerAZ_of_isPunct {c : Nat} (h : isPunct c = true) : isLowerAZ c = false := by
  cases hl : isLowerAZ c with
  | false => rfl
  | true => rw [isPunct_of_letter (isLetterAZ_of_lower hl)] at h; cases h

/-- On ASCII and on the punctuation the lower case is the lower case of ASCII. -/
theorem toLowerRune_of_plain {c : Nat} (h : c < 128 ∨ isPunct c = true) :
    toLowerRune c = toLowerAZ c := by
  rcases h with h | h
  · rw [toLowerRune_ascii h]; rfl
  · rw [(case_of_isPunct h).2.1, toLowerAZ_of_not_upper (isUpperAZ_of_isPunct h)]

theorem toLowerAZ_toUpperRune {c : Nat} (h : c < 128 ∨ isPunct c = true) :
    toLowerAZ (toUpperRune c) = toLowerAZ c := by
  rcases h with h | h
  · by_cases hl : isLowerAZ c = true
    · rw [toUpperRune_of_lower hl]
      have h1 : isUpperAZ (c - 32) = true := by
        rw [isLowerAZ_iff] at hl; rw [isUpperAZ_iff]; omega
      rw [toLowerAZ_of_upper h1, toLowerAZ_of_not_upper (isUpperAZ_of_lower hl)]
      rw [isLowerAZ_iff] at hl; omega
    · rw [toUpperRune_of_not_lower h (by simpa using hl)]
  · rw [(case_of_isPunct h).1]

theorem toLowerAZ_toTitleRune {c : Nat} (h : c < 128 ∨ isPunct c = true) :
    toLowerAZ (toTitleRune c) = toLowerAZ c := by
  rcases h with h | h
  · rw [toTitleRune_ascii h]; exact toLowerAZ_toUpperRune (Or.inl h)
  · rw [(case_of_isPunct h).2.2]

theorem toLowerAZ_toLowerAZ (c : Nat) : toLowerAZ (toLowerAZ c) = toLowerAZ c := by
  by_cases hu : isUpperAZ c = true
  · rw [toLowerAZ_of_upper hu]
    apply toLowerAZ_of_not_upper
    rw [isUpperAZ_iff] at hu
    rw [Bool.eq_false_iff, Ne, isUpperAZ_iff]; omega
  · have h := toLowerAZ_of_not_upper (c := c) (by simpa using hu)
    rw [h, h]

theorem toLowerAZ_toLowerRune {c : Nat} (h : c < 128 ∨ isPunct c = true) :
    toLowerAZ (toLowerRune c) = toLowerAZ c := by
  rw [toLowerRune_of_plain h, toLowerAZ_toLowerAZ]

/-- Code points with the same ASCII lower case have the same lower case. -/
theorem toLowerRune_of_toLowerAZ {a b : Nat} (h : toLowerAZ a = toLowerAZ b) :
    toLowerRune a = toLowerRune b := by
  by_cases ha : isUpperAZ a = true <;> by_cases hb : isUpperAZ b = true
  · rw [toLowerAZ_of_upper ha, toLowerAZ_of_upper hb] at h
    rw [show a = b by omega]
  · rw [toLowerAZ_of_upper ha, toLowerAZ_of_not_upper (by simpa using hb)] at h
    rw [toLowerRune_of_upper ha, ← h]
    rw [isUpperAZ_iff] at ha
    rw [toLowerRune_of_not_upper (by omega)
      (by rw [Bool.eq_false_iff, Ne, isUpperAZ_iff]; omega)]
  · rw [toLowerAZ_of_not_upper (by simpa using ha), toLowerAZ_of_upper hb] at h
    rw [toLowerRune_of_upper hb, h]
    rw [isUpperAZ_iff] at hb
    rw [toLowerRune_of_not_upper (by omega)
      (by rw [Bool.eq_false_iff, Ne, isUpperAZ_iff]; omega)]
  · rw [toLowerAZ_of_not_upper (by simpa using ha),
      toLowerAZ_of_not_upper (by simpa using hb)] at h
    rw [h]

theorem toLowerRune_toUpperRune {c : Nat} (h : c < 128 ∨ isPunct c = true) :
    toLowerRune (toUpperRune c) = toLowerRune c :=
  toLowerRune_of_toLowerAZ (toLowerAZ_toUpperRune h)

theorem toLowerRune_toLowerRune (c : Nat) : toLowerRune (toLowerRune c) = toLowerRune c := by
  rcases toLowerRune_facts c with h | ⟨hu, h⟩ | ⟨-, -, -, -, h⟩
  · rw [h, h]
  · rw [h]
    rw [isUpperAZ_iff] at hu
    exact toLowerRune_of_not_upper (by omega)
      (by rw [Bool.eq_false_iff, Ne, isUpperAZ_iff]; omega)
  · exact h

theorem isSpace_toLowerRune (c : Nat) : isSpace (toLowerRune c) = isSpace c := by
  rcases toLowerRune_facts c with h | ⟨hu, h⟩ | ⟨-, h1, h2, -⟩
  · rw [h]
  · rw [h, isSpace_of_letter (isLetterAZ_of_upper hu)]
    apply isSpace_of_letter
    rw [isUpperAZ_iff] at hu
    rw [isLetterAZ_iff]; omega
  · rw [(not_marked h1).1, (not_marked h2).1]

theorem isSpace_toUpperRune (c : Nat) : isSpace (toUpperRune c) = isSpace c := by
  rcases toUpperRune_facts c with h | ⟨hl, h⟩ | ⟨-, h1, h2, -⟩
  · rw [h]
  · rw [h, isSpace_of_letter (isLetterAZ_of_lower hl)]
    apply isSpace_of_letter
    rw [isLowerAZ_iff] at hl
    rw [isLetterAZ_iff]; omega
  · rw [(not_marked h1).1, (not_marked h2).1]

theorem isSpace_toLowerAZ (c : Nat) : isSpace (toLowerAZ c) = isSpace c := by
  by_cases hu : isUpperAZ c = true
  · rw [toLowerAZ_of_upper hu, isSpace_of_letter (isLetterAZ_of_upper hu)]
    apply isSpace_of_letter
    rw [isUpperAZ_iff] at hu
    rw [isLetterAZ_iff]; omega
  · rw [toLowerAZ_of_not_upper (by simpa using hu)]

theorem sameLetters_refl (s : List Nat) : sameLetters s s := rfl

theorem sameLetters_symm {s t : List Nat} (h : sameLetters s t) : sameLetters t s := h.symm

theorem sameLetters_trans {s t u : List Nat} (h1 : sameLetters s t) (h2 : sameLetters t u) :
    sameLetters s u := h1.trans h2

theorem sameLetters_append {s t s' t' : List Nat} (h1 : sameLetters s s')
    (h2 : sameLetters t t') : sameLetters (s ++ t) (s' ++ t') := by
  unfold sameLetters at *
  rw [List.map_append, List.map_append, h1, h2]

theorem sameLetters_cons {a b : Nat} {s t : List Nat} (h1 : toLowerAZ a = toLowerAZ b)
    (h2 : sameLetters s t) : sameLetters (a :: s) (b :: t) := by
  unfold sameLetters at *
  rw [List.map_cons, List.map_cons, h1, h2]

theorem sameLetters_cons_iff {a b : Nat} {s t : List Nat} :
    sameLetters (a :: s) (b :: t) ↔ toLowerAZ a = toLowerAZ b ∧ sameLetters s t := by
  unfold sameLetters
  simp

/-- The lower case of a text of ASCII and punctuation differs from it in case only. -/
theorem sameLetters_toLower : ∀ (s : List Nat), (∀ c ∈ s, c < 128 ∨ isPunct c = true) →
    sameLetters (stringsToLower s) s
  | [], _ => rfl
  | c :: t, h =>
    sameLetters_cons (toLowerAZ_toLowerRune (h c (by simp)))
      (sameLetters_toLower t (fun x hx => h x (by simp [hx])))

/-- The upper case of a text of ASCII and punctuation differs from it in case only. -/
theorem sameLetters_toUpper : ∀ (s : List Nat), (∀ c ∈ s, c < 128 ∨ isPunct c = true) →
    sameLetters (stringsToUpper s) s
  | [], _ => rfl
  | c :: t, h =>
    sameLetters_cons (toLowerAZ_toUpperRune (h c (by simp)))
      (sameLetters_toUpper t (fun x hx => h x (by simp [hx])))

theorem sameLetters_length {s t : List Nat} (h : sameLetters s t) : s.length = t.length := by
  have := congrArg List.length h
  simpa using this

theorem sameLetters_nil_iff {s t : List Nat} (h : sameLetters s t) : s = [] ↔ t = [] := by
  have := sameLetters_length h
  rw [← List.length_eq_zero, ← List.length_eq_zero (l := t), this]

theorem titleFrom_sameLetters : ∀ (s : List Nat) (prev : Nat),
    (∀ c ∈ s, c < 128 ∨ isPunct c = true) → sameLetters (titleFrom prev s) s
  | [], _, _ => rfl
  | c :: t, prev, h => by
    rw [titleFrom]
    apply sameLetters_cons _ (titleFrom_sameLetters t c (fun x hx => h x (by simp [hx])))
    split
    · exact toLowerAZ_toTitleRune (h c (by simp))
    · rfl

/-- A text of ASCII and punctuation stays so in lower case. -/
theorem plain_toLower {s : List Nat} (h : ∀ c ∈ s, c < 128 ∨ isPunct c = true) :
    ∀ c ∈ stringsToLower s, c < 128 ∨ isPunct c = true := by
  intro c hc
  rw [stringsToLower, List.mem_map] at hc
  obtain ⟨a, ha, rfl⟩ := hc
  rcases h a ha with h1 | h1
  · left
    rw [toLowerRune_ascii h1]
    split
    · next hu => rw [isUpperAZ_iff] at hu; omega
    · exact h1
  · right
    rw [(case_of_isPunct h1).2.1]; exact h1

theorem capitalize_sameLetters (s : List Nat) (h : ∀ c ∈ s, c < 128 ∨ isPunct c = true) :
    sameLetters (capitalize s) s :=
  sameLetters_trans (titleFrom_sameLetters _ _ (plain_toLower h)) (sameLetters_toLower s h)

theorem capFirstLength_plain : ∀ (w : List Nat) (n : Nat), capFirstLength w = some n →
    ∀ c ∈ w.take n, c < 128 ∨ isPunct c = true
  | [], _, h => by simp [capFirstLength] at h
  | a :: t, n, h => by
    rw [capFirstLength] at h
    split at h
    · next ha =>
      cases h
      intro c hc
      simp only [List.take_succ_cons, List.take_zero, List.mem_singleton] at hc
      subst hc
      exact Or.inl (lt_of_isLetterAZ ha)
    · split at h
      · next hp =>
        cases hn : capFirstLength t with
        | none => rw [hn] at h; cases h
        | some k =>
          rw [hn] at h
          cases h
          intro c hc
          rw [List.take_succ_cons, List.mem_cons] at hc
          rcases hc with hc | hc
          · subst hc; exact Or.inr hp
          · exact capFirstLength_plain t k hn c hc
      · cases h

theorem CapFirst_sameLetters (w : List Nat) :
    sameLetters (CapFirst_ReplaceAllStringFunc w stringsToUpper) w := by
  unfold CapFirst_ReplaceAllStringFunc
  split
  · next n hn =>
    have := sameLetters_append (sameLetters_toUpper (w.take n) (capFirstLength_plain w n hn))
      (sameLetters_refl (w.drop n))
    rwa [List.take_append_drop] at this
  · rfl

theorem smallFirstMatch_prefix : ∀ (s m : List Nat), smallFirstMatch s = some m → m <+: s
  | [], m, h => by
    rw [smallFirstMatch] at h
    exact (matchSmall_some h).2.1
  | c :: t, m, h => by
    rw [smallFirstMatch] at h
    split at h
    · split at h
      · next m' hm' =>
        have := smallFirstMatch_prefix t m' hm'
        simp only [Option.some.injEq] at h
        subst h
        exact List.cons_prefix_cons.2 ⟨rfl, this⟩
      · exact (matchSmall_some h).2.1
    · exact (matchSmall_some h).2.1

/-- The small words are ASCII text. -/
theorem smallWords_ascii {a : List Nat} (h : a ∈ smallWords) : ∀ c ∈ a, c < 128 := by
  rw [smallWords_eq] at h
  simp only [List.mem_cons, List.mem_singleton, List.not_mem_nil, or_false] at h
  rcases h with h | h | h | h | h | h | h | h | h | h | h | h | h | h | h | h | h | h | h | h | h | h <;>
    subst h <;> decide

theorem smallFirstMatch_plain : ∀ (s m : List Nat), smallFirstMatch s = some m →
    ∀ c ∈ m, c < 128 ∨ isPunct c = true
  | [], m, h => by
    rw [smallFirstMatch] at h
    exact fun c hc => Or.inl (smallWords_ascii (matchSmall_some h).1 c hc)
  | a :: t, m, h => by
    rw [smallFirstMatch] at h
    split at h
    · next hp =>
      split at h
      · next m' hm' =>
        have := smallFirstMatch_plain t m' hm'
        simp only [Option.some.injEq] at h
        subst h
        intro c hc
        rcases List.mem_cons.1 hc with hc | hc
        · subst hc; exact Or.inr hp
        · exact this c hc
      · exact fun c hc => Or.inl (smallWords_ascii (matchSmall_some h).1 c hc)
    · exact fun c hc => Or.inl (smallWords_ascii (matchSmall_some h).1 c hc)

theorem SmallFirst_sameLetters (s : List Nat) :
    sameLetters (SmallFirst_ReplaceAllStringFunc s capitalize) s := by
  unfold SmallFirst_ReplaceAllStringFunc
  split
  · next m hm =>
    have hp := smallFirstMatch_plain s m hm
    obtain ⟨r, rfl⟩ := smallFirstMatch_prefix _ m hm
    rw [List.drop_left]
    exact sameLetters_append (capitalize_sameLetters m hp) (sameLetters_refl r)
  · rfl

/-- A text that `SmallLast` matches from its beginning is ASCII and punctuation. -/
theorem punctThenEnd_plain {s : List Nat} (h : (matchSmall punctThenEnd s).isSome = true) :
    ∀ c ∈ s, c < 128 ∨ isPunct c = true := by
  obtain ⟨a, ha⟩ := Option.isSome_iff_exists.1 h
  obtain ⟨hmem, ⟨r, rfl⟩, hk⟩ := matchSmall_some ha
  rw [List.drop_left] at hk
  intro c hc
  rcases List.mem_append.1 hc with hc | hc
  · exact Or.inl (smallWords_ascii hmem c hc)
  · match r, hk, hc with
    | [p], hk, hc =>
      simp only [List.mem_singleton] at hc
      subst hc
      exact Or.inr hk

theorem smallLastFrom_sameLetters : ∀ (s : List Nat) (prev : Option Nat),
    sameLetters (smallLastFrom capitalize prev s) s
  | [], _ => rfl
  | c :: t, prev => by
    rw [smallLastFrom]
    split
    · next h =>
      rw [Bool.and_eq_true] at h
      exact capitalize_sameLetters _ (punctThenEnd_plain h.2)
    · exact sameLetters_cons rfl (smallLastFrom_sameLetters t _)

theorem SmallLast_sameLetters (s : List Nat) :
    sameLetters (SmallLast_ReplaceAllStringFunc s capitalize) s :=
  smallLastFrom_sameLetters s none

theorem noSpace_iff_toLower (s : List Nat) : noSpace (stringsToLower s) ↔ noSpace s := by
  unfold noSpace stringsToLower
  simp [isSpace_toLowerRune]

theorem noSpace_iff_toLowerAZ (s : List Nat) : noSpace (s.map toLowerAZ) ↔ noSpace s := by
  unfold noSpace
  simp [isSpace_toLowerAZ]

theorem sameLetters_noSpace {s t : List Nat} (h : sameLetters s t) : noSpace s ↔ noSpace t := by
  rw [← noSpace_iff_toLowerAZ s, ← noSpace_iff_toLowerAZ t, h]

theorem raisedRune_toLower {a b : Nat} (h : raisedRune a b) : toLowerAZ a = toLowerAZ b := by
  rcases h with h | ⟨hl, h⟩
  · rw [h]
  · rw [h, toLowerAZ_toUpperRune (Or.inl (lt_of_isLowerAZ hl))]

theorem raised_sameLetters {s t : List Nat} (h : raised s t) : sameLetters s t := by
  induction h with
  | nil => rfl
  | cons hab _ ih => exact sameLetters_cons (raisedRune_toLower hab) ih

theorem raised_refl : ∀ (s : List Nat), raised s s
  | [] => List.Forall₂.nil
  | _ :: t => List.Forall₂.cons (Or.inl rfl) (raised_refl t)

theorem raised_append {s t s' t' : List Nat} (h1 : raised s s') (h2 : raised t t') :
    raised (s ++ t) (s' ++ t') := by
  induction h1 with
  | nil => exact h2
  | cons hab _ ih => exact List.Forall₂.cons hab ih

/-- A text without lower-case letters is raised to itself only. -/
theorem raised_of_no_lower {s t : List Nat} (h : raised s t)
    (hs : ∀ c ∈ s, isLowerAZ c = false) : t = s := by
  induction h with
  | nil => rfl
  | @cons a b s' t' hab _ ih =>
    have ha := hs a (by simp)
    rcases hab with h1 | ⟨h1, -⟩
    · rw [h1, ih (fun c hc => hs c (by simp [hc]))]
    · rw [ha] at h1; exact absurd h1 (by decide)

/-! ## The phrase repair -/

theorem subPhraseFrom_skip (f : List Nat → List Nat) : ∀ (s : List Nat) (k : Nat),
    subPhraseFrom f k s = subPhraseFrom f 0 (s.drop k)
  | [], k => by simp [subPhraseFrom]
  | _ :: _, 0 => rfl
  | _ :: t, k + 1 => by
    rw [subPhraseFrom, List.drop_succ_cons]
    exact subPhraseFrom_skip f t k

/-- The first alternative that is a prefix of a text is the first alternative that is a
prefix of itself. -/
theorem matchSmall_self {t a : List Nat} (h : matchSmall (fun _ _ => true) t = some a) :
    matchSmall (fun _ _ => true) a = some a := by
  unfold matchSmall at h ⊢
  simp only [Bool.and_true] at h ⊢
  rw [List.find?_eq_some] at h ⊢
  obtain ⟨h1, as, bs, h2, h3⟩ := h
  refine ⟨by simp, as, bs, h2, ?_⟩
  intro x hx
  have := h3 x hx
  simp only [Bool.not_eq_true'] at this ⊢
  rw [List.isPrefixOf_iff_prefix] at h1
  cases hxa : x.isPrefixOf a with
  | false => rfl
  | true =>
    rw [List.isPrefixOf_iff_prefix] at hxa
    rw [← List.isPrefixOf_iff_prefix.2 (hxa.trans h1), this]

theorem capitalize_smallWord {a : List Nat} (h : a ∈ smallWords) :
    capitalize a = firstUpper a := by
  rw [smallWords_eq] at h
  simp only [List.mem_cons, List.mem_singleton, List.not_mem_nil, or_false] at h
  rcases h with h | h | h | h | h | h | h | h | h | h | h | h | h | h | h | h | h | h | h | h | h | h <;>
    subst h <;> decide

theorem smallWords_no_space {a : List Nat} (h : a ∈ smallWords) : ∀ c ∈ a, c ≠ 32 := by
  rw [smallWords_eq] at h
  simp only [List.mem_cons, List.mem_singleton, List.not_mem_nil, or_false] at h
  rcases h with h | h | h | h | h | h | h | h | h | h | h | h | h | h | h | h | h | h | h | h | h | h <;>
    subst h <;> decide

theorem subPhraseMatch_some {s g1 g2 : List Nat} (h : subPhraseMatch s = some (g1, g2)) :
    ∃ c rest, s = c :: 32 :: (g2 ++ rest) ∧ g1 = [c, 32] ∧ isPhraseBreak c = true ∧
      g2 ∈ smallWords ∧ matchSmall (fun _ _ => true) g2 = some g2 := by
  match s with
  | [] => simp [subPhraseMatch] at h
  | [_] => simp [subPhraseMatch] at h
  | c :: sp :: t =>
    rw [subPhraseMatch] at h
    split at h
    · next hc =>
      simp only [Bool.and_eq_true, beq_iff_eq] at hc
      cases hm : matchSmall (fun _ _ => true) t with
      | none => simp [hm] at h
      | some a =>
        simp only [hm, Option.map_some', Option.some.injEq, Prod.mk.injEq] at h
        obtain ⟨h1, h2⟩ := h
        subst h2
        obtain ⟨ha, ⟨rest, hr⟩, -⟩ := matchSmall_some hm
        exact ⟨c, rest, by rw [hc.2, hr], by rw [← h1, hc.2], hc.1, ha, matchSmall_self hm⟩
    · simp at h

theorem repairPhrase_match {c : Nat} {a : List Nat} (hc : isPhraseBreak c = true)
    (ha : a ∈ smallWords) (hm : matchSmall (fun _ _ => true) a = some a) :
    repairPhrase (c :: 32 :: a) = c :: 32 :: firstUpper a := by
  simp [repairPhrase, subPhraseMatch, hc, hm, capitalize_smallWord ha]

/-- The phrase repair, one step: a code point is copied, or a match is replaced and the
search goes on behind it. -/
theorem subPhrase_step (c : Nat) (t : List Nat) :
    (subPhraseMatch (c :: t) = none ∧
      SubPhrase_ReplaceAllStringFunc (c :: t) repairPhrase =
        c :: SubPhrase_ReplaceAllStringFunc t repairPhrase) ∨
    (∃ a rest, isPhraseBreak c = true ∧ a ∈ smallWords ∧ t = 32 :: (a ++ rest) ∧
      SubPhrase_ReplaceAllStringFunc (c :: t) repairPhrase =
        c :: 32 :: (firstUpper a ++ SubPhrase_ReplaceAllStringFunc rest repairPhrase)) := by
  cases hm : subPhraseMatch (c :: t) with
  | none =>
    left
    refine ⟨rfl, ?_⟩
    simp [SubPhrase_ReplaceAllStringFunc, subPhraseFrom, hm]
  | some g =>
    obtain ⟨g1, g2⟩ := g
    right
    obtain ⟨c', rest, hs, hg1, hc, ha, hself⟩ := subPhraseMatch_some hm
    simp only [List.cons.injEq] at hs
    obtain ⟨hcc, ht⟩ := hs
    subst hcc
    refine ⟨g2, rest, hc, ha, ht, ?_⟩
    subst hg1
    simp only [SubPhrase_ReplaceAllStringFunc, subPhraseFrom, hm]
    rw [subPhraseFrom_skip, ht]
    have e1 : [c, 32].length + g2.length = g2.length + 1 + 1 := by simp; omega
    have e2 : g2.length + 1 + 1 - 1 = g2.length + 1 := by omega
    have h1 : List.take ([c, 32].length + g2.length) (c :: 32 :: (g2 ++ rest)) = c :: 32 :: g2 := by
      rw [e1, List.take_succ_cons, List.take_succ_cons, List.take_left]
    have h2 : List.drop ([c, 32].length + g2.length - 1) (32 :: (g2 ++ rest)) = rest := by
      rw [e1, e2, List.drop_succ_cons, List.drop_left]
    rw [h1, h2, repairPhrase_match hc ha hself]
    simp

theorem raised_firstUpper {a : List Nat} (h : a ∈ smallWords) : raised a (firstUpper a) := by
  obtain ⟨c, t, rfl, hc⟩ := smallWords_head h
  exact List.Forall₂.cons (Or.inr ⟨hc, rfl⟩) (raised_refl t)

/-- The phrase repair only raises letters. -/
theorem subPhrase_raised (s : List Nat) :
    raised s (SubPhrase_ReplaceAllStringFunc s repairPhrase) := by
  suffices H : ∀ (n : Nat) (s : List Nat), s.length ≤ n →
      raised s (SubPhrase_ReplaceAllStringFunc s repairPhrase) from H _ s le_rfl
  intro n
  induction n with
  | zero =>
    intro s hs
    have : s = [] := List.length_eq_zero.1 (by omega)
    subst this
    exact List.Forall₂.nil
  | succ n ih =>
    intro s hs
    match s with
    | [] => exact List.Forall₂.nil
    | c :: t =>
      rcases subPhrase_step c t with ⟨-, h⟩ | ⟨a, rest, -, ha, ht, h⟩
      · rw [h]
        exact List.Forall₂.cons (Or.inl rfl) (ih t (by simp at hs; omega))
      · rw [h, ht]
        refine List.Forall₂.cons (Or.inl rfl) (List.Forall₂.cons (Or.inl rfl) ?_)
        refine raised_append (raised_firstUpper ha) (ih rest ?_)
        simp [ht] at hs; omega

/-- The phrase repair leaves a first word as it is. -/
theorem subPhrase_head : ∀ (x t : List Nat), (∀ c ∈ x, c ≠ 32) →
    ∃ t', SubPhrase_ReplaceAllStringFunc (x ++ 32 :: t) repairPhrase = x ++ 32 :: t'
  | [], t, _ => by
    rcases subPhrase_step 32 t with ⟨-, h⟩ | ⟨a, rest, hc, -⟩
    · exact ⟨_, h⟩
    · exact absurd hc (by decide)
  | c :: x, t, hx => by
    obtain ⟨t', ih⟩ := subPhrase_head x t (fun y hy => hx y (by simp [hy]))
    rcases subPhrase_step c (x ++ 32 :: t) with ⟨-, h⟩ | ⟨a, rest, -, -, ht, h⟩
    · exact ⟨t', by simp only [List.cons_append, h, ih]⟩
    · cases x with
      | nil =>
        simp only [List.nil_append, List.cons.injEq, true_and] at ht
        exact ⟨firstUpper a ++ SubPhrase_ReplaceAllStringFunc rest repairPhrase, by
          rw [List.cons_append, h]; rfl⟩
      | cons y x =>
        simp only [List.cons_append, List.cons.injEq] at ht
        exact absurd ht.1 (hx y (by simp))

/-- The phrase repair leaves a single word as it is. -/
theorem subPhrase_word : ∀ (x : List Nat), (∀ c ∈ x, c ≠ 32) →
    SubPhrase_ReplaceAllStringFunc x repairPhrase = x
  | [], _ => rfl
  | c :: x, hx => by
    have ih := subPhrase_word x (fun y hy => hx y (by simp [hy]))
    rcases subPhrase_step c x with ⟨-, h⟩ | ⟨a, rest, -, -, ht, h⟩
    · rw [h, ih]
    · rw [ht] at hx
      exact absurd rfl (hx 32 (by simp))

/-- The phrase repair reaches the text behind a space only when the text before the
space ends in a phrase break and the text behind it starts with a small word. -/
theorem subPhrase_split (x : List Nat)
    (p : List Nat) (hp : ∀ b, p.getLast? = some b → isPhraseBreak b = true →
      ∀ a ∈ smallWords, ¬ a <+: x) :
    ∃ p', SubPhrase_ReplaceAllStringFunc (p ++ 32 :: x) repairPhrase =
      p' ++ 32 :: SubPhrase_ReplaceAllStringFunc x repairPhrase := by
  suffices H : ∀ (n : Nat) (p : List Nat), p.length ≤ n →
      (∀ b, p.getLast? = some b → isPhraseBreak b = true → ∀ a ∈ smallWords, ¬ a <+: x) →
      ∃ p', SubPhrase_ReplaceAllStringFunc (p ++ 32 :: x) repairPhrase =
        p' ++ 32 :: SubPhrase_ReplaceAllStringFunc x repairPhrase from H _ p le_rfl hp
  clear hp p
  intro n
  induction n using Nat.strong_induction_on with
  | _ n ih =>
    intro p hn hp
    match p with
    | [] =>
      rcases subPhrase_step 32 x with ⟨-, h⟩ | ⟨a, rest, hc, -⟩
      · exact ⟨[], h⟩
      · exact absurd hc (by decide)
    | c :: p1 =>
      rcases subPhrase_step c (p1 ++ 32 :: x) with ⟨-, h⟩ | ⟨a, rest, hc, ha, ht, h⟩
      · obtain ⟨p', hp'⟩ := ih p1.length (by simp at hn; omega) p1 le_rfl (by
          intro b hb
          apply hp b
          cases p1 with
          | nil => simp at hb
          | cons y p2 => simpa [List.getLast?_cons_cons] using hb)
        exact ⟨c :: p', by rw [List.cons_append, h, hp']; rfl⟩
      · cases p1 with
        | nil =>
          simp only [List.nil_append, List.cons.injEq, true_and] at ht
          exact absurd ⟨rest, ht.symm⟩ (hp c (by simp) hc a ha)
        | cons y p2 =>
          simp only [List.cons_append, List.cons.injEq] at ht
          obtain ⟨hy, ht⟩ := ht
          subst hy
          have hsp := smallWords_no_space ha
          obtain ⟨p3, hp3⟩ : ∃ p3, p2 = a ++ p3 := by
            rcases List.append_eq_append_iff.1 ht with ⟨a', h1, h2⟩ | ⟨c', h1, h2⟩
            · cases a' with
              | nil => exact ⟨[], by simp at h1; simp [h1]⟩
              | cons z a'' =>
                simp only [List.cons_append, List.cons.injEq] at h2
                exact absurd h2.1.symm (hsp z (by rw [h1]; simp))
            · exact ⟨c', h1⟩
          subst hp3
          rw [List.append_assoc] at ht
          have hrest := List.append_cancel_left ht
          obtain ⟨p', hp'⟩ := ih p3.length (by simp at hn; omega) p3 le_rfl (by
            intro b hb
            apply hp b
            cases p3 with
            | nil => simp at hb
            | cons z p4 =>
              rw [show c :: 32 :: (a ++ z :: p4) = (c :: 32 :: a) ++ (z :: p4) by simp,
                List.getLast?_append, hb]
              rfl)
          refine ⟨c :: 32 :: (firstUpper a ++ p'), ?_⟩
          rw [List.cons_append, h, ← hrest, hp']
          simp

/-! ## The structure of `Convert` -/

theorem Convert_nil (depth : Nat) (callback : Option tcCallback) (sfl : Bool) :
    Convert (depth + 1) callback sfl [] = .ok [] := rfl

/-- On an input of one line of less than `maxScanTokenSize` bytes `Convert` is the body
of the loop over the lines. -/
theorem Convert_line (depth : Nat) (callback : Option tcCallback) (sfl : Bool)
    (line : List Nat) (hnl : ∀ c ∈ line, c ≠ 10) (hne : line ≠ [])
    (hshort : byteLen line < maxScanTokenSize) :
    Convert (depth + 1) callback sfl line =
      convertLine (Convert depth callback sfl) callback sfl (dropCR line) := by
  rw [Convert, scanLines_of_no_newline _ hnl, if_neg hne, if_neg (by omega)]
  simp only [convertLines]
  cases convertLine (Convert depth callback sfl) callback sfl (dropCR line) with
  | error e => rfl
  | ok r => simp [stringsJoin, intercalate_singleton]

theorem fieldsFrom_snoc_space {c : Nat} (hc : isSpace c = true) : ∀ (p cur : List Nat),
    fieldsFrom cur (p ++ [c]) = fieldsFrom cur p
  | [], cur => by simp [fieldsFrom, hc]
  | x :: p, cur => by
    have h1 := fieldsFrom_snoc_space hc p []
    have h2 := fieldsFrom_snoc_space hc p (cur ++ [x])
    rw [List.cons_append]
    simp only [fieldsFrom, h1, h2]

theorem dropCR_cases (l : List Nat) : dropCR l = l ∨ l = dropCR l ++ [13] := by
  unfold dropCR
  split
  · next h =>
    right
    obtain ⟨ys, rfl⟩ := List.getLast?_eq_some_iff.1 h
    simp
  · exact Or.inl rfl

theorem stringsFields_dropCR (l : List Nat) : stringsFields (dropCR l) = stringsFields l := by
  rcases dropCR_cases l with h | h
  · rw [h]
  · conv_rhs => rw [h]
    exact (fieldsFrom_snoc_space (by decide) _ _).symm

theorem allCaps_dropCR (l : List Nat) :
    (stringsToUpper (dropCR l) == dropCR l) = (stringsToUpper l == l) := by
  rcases dropCR_cases l with h | h
  · rw [h]
  · conv_rhs => rw [h]
    rw [Bool.eq_iff_iff]
    simp only [beq_iff_eq, stringsToUpper, List.map_append, List.map_cons, List.map_nil]
    have : toUpperRune 13 = 13 := by decide
    rw [this]
    exact ⟨fun h => by rw [h], fun h => List.append_cancel_right h⟩

theorem convertLine_dropCR (conv : List Nat → Except Fault (List Nat))
    (callback : Option tcCallback) (sfl : Bool) (l : List Nat) :
    convertLine conv callback sfl (dropCR l) = convertLine conv callback sfl l := by
  simp only [convertLine, stringsFields_dropCR, allCaps_dropCR]

theorem convertWords_ok_iff (conv : List Nat → Except Fault (List Nat))
    (callback : Option tcCallback) (b : Bool) : ∀ (ws : List (List Nat)) (ms : List Mutagenic),
    convertWords conv callback b ws = .ok ms ↔
      List.Forall₂ (fun w m => convertWord conv callback b w = .ok m) ws ms
  | [], ms => by
    simp only [convertWords, Except.ok.injEq]
    constructor
    · intro h; subst h; exact List.Forall₂.nil
    · intro h; cases h; rfl
  | w :: ws, ms => by
    simp only [convertWords]
    cases hw : convertWord conv callback b w with
    | error e =>
      simp only
      constructor
      · intro h; cases h
      · intro h; cases h with | cons h1 _ => rw [hw] at h1; cases h1
    | ok m =>
      simp only
      cases hws : convertWords conv callback b ws with
      | error e =>
        simp only
        constructor
        · intro h; cases h
        · intro h
          cases h with
          | cons h1 h2 =>
            rw [(convertWords_ok_iff conv callback b ws _).2 h2] at hws
            cases hws
      | ok ms' =>
        simp only [Except.ok.injEq]
        constructor
        · intro h; subst h
          exact List.Forall₂.cons hw ((convertWords_ok_iff conv callback b ws ms').1 hws)
        · intro h
          cases h with
          | cons h1 h2 =>
            rw [hw] at h1
            rw [(convertWords_ok_iff conv callback b ws _).2 h2] at hws
            cases h1; cases hws; rfl

/-- The strings of the values of a line. -/
theorem joinWords_nil_cons (m : Mutagenic) (ms : List Mutagenic) :
    joinWords [] (m :: ms) = 32 :: stringsJoin ((m :: ms).map Mutagenic.String) [32] := by
  rw [joinWords_eq, List.nil_append, ← join_space_eq _ (by simp), List.map_map]
  rfl

theorem forceFirst_ne_nil {ms : List Mutagenic} (h : ms ≠ []) : forceFirst ms ≠ [] := by
  cases ms with
  | nil => exact absurd rfl h
  | cons m ms => cases m <;> simp [forceFirst]

theorem forceLast_ne_nil : ∀ {ms : List Mutagenic}, ms ≠ [] → forceLast ms ≠ []
  | [], h => absurd rfl h
  | [m], _ => by cases m <;> simp [forceLast, NewMutable]
  | m :: m2 :: ms, _ => by simp [forceLast]

/-- The result of a line, from the values of its words. -/
theorem convertLine_ok_iff (conv : List Nat → Except Fault (List Nat))
    (callback : Option tcCallback) (sfl : Bool) (line out : List Nat) :
    convertLine conv callback sfl line = .ok out ↔
      ∃ ms, convertWords conv callback (stringsToUpper line == line) (stringsFields line) = .ok ms ∧
        ms ≠ [] ∧
        out = SubPhrase_ReplaceAllStringFunc
          (stringsJoin ((if sfl then forceLast (forceFirst ms) else ms).map Mutagenic.String) [32])
          repairPhrase := by
  simp only [convertLine]
  cases hws : convertWords conv callback (stringsToUpper line == line) (stringsFields line) with
  | error e => simp
  | ok ms =>
    simp only [Except.ok.injEq, exists_eq_left']
    cases ms with
    | nil => cases sfl <;> simp [forceFirst, forceLast, joinWords]
    | cons m ms =>
      have hne : (if sfl = true then forceLast (forceFirst (m :: ms)) else m :: ms) ≠ [] := by
        cases sfl
        · simp
        · exact forceLast_ne_nil (forceFirst_ne_nil (by simp))
      obtain ⟨m', ms', hm⟩ := List.exists_cons_of_ne_nil hne
      rw [hm, joinWords_nil_cons]
      simp only [Except.ok.injEq, ne_eq, reduceCtorEq, not_false_eq_true, true_and]
      exact eq_comm

/-! ## What `Convert` keeps of a word -/

/-- Texts that differ in the case of their ASCII letters only have the same lower case. -/
theorem stringsToLower_of_sameLetters {s t : List Nat} (h : sameLetters s t) :
    stringsToLower s = stringsToLower t := by
  unfold stringsToLower
  induction s generalizing t with
  | nil =>
    cases t with
    | nil => rfl
    | cons b t => cases h
  | cons a s ih =>
    cases t with
    | nil => cases h
    | cons b t =>
      rw [sameLetters_cons_iff] at h
      rw [List.map_cons, List.map_cons, toLowerRune_of_toLowerAZ h.1, ih h.2]

theorem lastLower_eq_of_sameLetters {s t : List Nat} (h : sameLetters s t) :
    lastLower s = lastLower t := by
  have h1 : s.map toLowerRune = t.map toLowerRune := stringsToLower_of_sameLetters h
  unfold lastLower
  rw [← List.getLast?_map, ← List.getLast?_map]
  exact congrArg List.getLast? h1

/-- The lower case of a word keeps the word. -/
theorem wordKept_toLower {w : List Nat} (hw : noSpace w) : wordKept w (stringsToLower w) := by
  refine ⟨(noSpace_iff_toLower w).2 hw, ?_⟩
  unfold lastLower stringsToLower
  rw [List.getLast?_map, Option.map_map]
  congr 1
  funext c
  exact toLowerRune_toLowerRune c

theorem lastLower_append_of_ne_nil (s : List Nat) {t : List Nat} (h : t ≠ []) :
    lastLower (s ++ t) = lastLower t := by
  unfold lastLower
  obtain ⟨ys, b, rfl⟩ : ∃ ys b, t = ys ++ [b] := by
    rcases List.eq_nil_or_concat t with h' | ⟨ys, b, h'⟩
    · exact absurd h' h
    · exact ⟨ys, b, by simpa using h'⟩
  rw [← List.append_assoc, List.getLast?_append, List.getLast?_append]
  simp

theorem lastLower_eq_none_iff {s : List Nat} : lastLower s = none ↔ s = [] := by
  unfold lastLower
  simp [List.getLast?_eq_none_iff]

theorem wordKept_nil_iff {x r : List Nat} (h : wordKept x r) : r = [] ↔ x = [] := by
  rw [← lastLower_eq_none_iff, ← lastLower_eq_none_iff (s := x), h.2]

theorem wordKept_of_sameLetters {x r : List Nat} (h : sameLetters r x) (hx : noSpace x) :
    wordKept x r :=
  ⟨(sameLetters_noSpace h).2 hx, lastLower_eq_of_sameLetters h⟩

theorem wordKept_trans_sameLetters {x r r' : List Nat} (h : wordKept x r)
    (h' : sameLetters r' r) : wordKept x r' :=
  ⟨(sameLetters_noSpace h').2 h.1, (lastLower_eq_of_sameLetters h').trans h.2⟩

theorem noSpace_append {s t : List Nat} (hs : noSpace s) (ht : noSpace t) : noSpace (s ++ t) := by
  intro c hc
  rcases List.mem_append.1 hc with h | h
  · exact hs c h
  · exact ht c h

theorem noSpace_cons {c : Nat} {t : List Nat} (hc : isSpace c = false) (ht : noSpace t) :
    noSpace (c :: t) := by
  intro x hx
  rcases List.mem_cons.1 hx with h | h
  · rw [h]; exact hc
  · exact ht x h

theorem noSpace_tail {c : Nat} {t : List Nat} (h : noSpace (c :: t)) : noSpace t :=
  fun x hx => h x (by simp [hx])

/-- The recasing of a possessive keeps the word. -/
theorem aposRecase_wordKept {w : List Nat} (hw : noSpace w) (h : AposSecond w = true) :
    wordKept w (aposRecase w) := by
  match w with
  | [] => simp [AposSecond] at h
  | [_] => simp [AposSecond] at h
  | [_, _] => simp [AposSecond] at h
  | c0 :: c1 :: c2 :: t =>
    have h0 := hw c0 (by simp)
    have h1 := hw c1 (by simp)
    have h2 := hw c2 (by simp)
    have ht : noSpace t := noSpace_tail (noSpace_tail (noSpace_tail hw))
    have hA := h
    simp only [AposSecond, Bool.and_eq_true, Bool.or_eq_true, beq_iff_eq] at hA
    obtain ⟨⟨⟨hA0, -⟩, hA2⟩, -⟩ := hA
    have hc0 : c0 < 128 := by omega
    have hc2 : c2 < 128 := lt_of_isLowerAZ hA2
    have hfirst : isSpace (if !stringsContains (str "aeiouAEIOU") [c0] then toLowerRune c0
        else toUpperRune c0) = false := by
      split
      · rw [isSpace_toLowerRune]; exact h0
      · rw [isSpace_toUpperRune]; exact h0
    simp only [aposRecase]
    split
    · refine ⟨noSpace_cons hfirst (noSpace_cons (by decide) (noSpace_cons (by decide)
        (noSpace_cons (by decide) (noSpace_cons h2 ht)))), ?_⟩
      rw [show ∀ (a b c d : Nat), a :: b :: c :: d :: c2 :: t = [a, b, c, d] ++ (c2 :: t) from
        fun _ _ _ _ => rfl, lastLower_append_of_ne_nil _ (by simp)]
      rw [show c0 :: c1 :: c2 :: t = [c0, c1] ++ (c2 :: t) from rfl,
        lastLower_append_of_ne_nil _ (by simp)]
    · apply wordKept_of_sameLetters _ hw
      refine sameLetters_cons ?_ (sameLetters_cons rfl (sameLetters_cons
        (toLowerAZ_toUpperRune (Or.inl hc2)) (sameLetters_refl t)))
      split
      · exact toLowerAZ_toLowerRune (Or.inl hc0)
      · exact toLowerAZ_toUpperRune (Or.inl hc0)

theorem MacMc_some {w m1 m2 : List Nat} (h : MacMc w = some (m1, m2)) (hw : ∀ c ∈ w, c ≠ 10) :
    w = m1 ++ m2 ∧ m1.length = 2 ∧ m2 ≠ [] ∧ (∀ c ∈ m1, isLetterAZ c = true) ∧
      (m1 = [109, 99] ∨ m1 = [77, 99] ∨ m1 = [77, 67]) := by
  match w with
  | [] => simp [MacMc] at h
  | [_] => simp [MacMc] at h
  | [_, _] => simp [MacMc] at h
  | [_, _, _] => simp [MacMc] at h
  | a :: b :: c :: d :: t =>
    rw [MacMc] at h
    split at h
    · next hc =>
      simp only [Option.some.injEq, Prod.mk.injEq] at h
      obtain ⟨h1, h2⟩ := h
      have ht : t.takeWhile (fun x => x != 10) = t := by
        rw [List.takeWhile_eq_self_iff]
        intro x hx
        simpa using hw x (by simp [hx])
      rw [ht] at h2
      subst h1 h2
      simp only [Bool.and_eq_true, Bool.or_eq_true, beq_iff_eq, bne_iff_ne] at hc
      refine ⟨rfl, rfl, by simp, ?_, ?_⟩
      · intro x hx
        simp only [List.mem_cons, List.mem_singleton, List.not_mem_nil, or_false] at hx
        rw [isLetterAZ_iff]
        omega
      · simp only [List.cons.injEq, and_true]
        omega
    · simp at h

theorem noSpace_of_letters {s : List Nat} (h : ∀ c ∈ s, isLetterAZ c = true) : noSpace s :=
  fun c hc => isSpace_of_letter (h c hc)

theorem noSpace_of_append_right {s t : List Nat} (h : noSpace (s ++ t)) : noSpace t :=
  fun c hc => h c (List.mem_append_right _ hc)

theorem noSpace_of_append_left {s t : List Nat} (h : noSpace (s ++ t)) : noSpace s :=
  fun c hc => h c (List.mem_append_left _ hc)

theorem noSpace_no_newline {s : List Nat} (h : noSpace s) : ∀ c ∈ s, c ≠ 10 := by
  intro c hc hc'
  have := h c hc
  rw [hc'] at this
  exact absurd this (by decide)

theorem splitFrom_ne_nil (d : Nat) : ∀ (s cur : List Nat), splitFrom d cur s ≠ []
  | [], cur => by simp [splitFrom]
  | c :: t, cur => by
    rw [splitFrom]
    split
    · simp
    · exact splitFrom_ne_nil d t _

theorem intercalate_cons_of_ne_nil (sep x : List Nat) {l : List (List Nat)} (h : l ≠ []) :
    sep.intercalate (x :: l) = x ++ sep ++ sep.intercalate l := by
  obtain ⟨y, t, rfl⟩ := List.exists_cons_of_ne_nil h
  exact intercalate_cons_cons sep x y t

/-- Joining the segments of a split gives the text back. -/
theorem stringsJoin_splitFrom (d : Nat) : ∀ (s cur : List Nat),
    stringsJoin (splitFrom d cur s) [d] = cur ++ s
  | [], cur => by simp [splitFrom, stringsJoin, intercalate_singleton]
  | c :: t, cur => by
    rw [splitFrom]
    split
    · next h =>
      have ih := stringsJoin_splitFrom d t []
      simp only [stringsJoin] at ih ⊢
      rw [intercalate_cons_of_ne_nil _ _ (splitFrom_ne_nil d t []), ih, h]
      simp
    · have ih := stringsJoin_splitFrom d t (cur ++ [c])
      rw [ih]; simp

theorem mem_splitFrom (d : Nat) : ∀ (s cur seg : List Nat), seg ∈ splitFrom d cur s →
    ∀ c ∈ seg, c ∈ cur ∨ c ∈ s
  | [], cur, seg, h, c, hc => by
    simp only [splitFrom, List.mem_singleton] at h
    subst h
    exact Or.inl hc
  | x :: t, cur, seg, h, c, hc => by
    rw [splitFrom] at h
    split at h
    · rcases List.mem_cons.1 h with h | h
      · subst h; exact Or.inl hc
      · rcases mem_splitFrom d t [] seg h c hc with h' | h'
        · simp at h'
        · exact Or.inr (by simp [h'])
    · rcases mem_splitFrom d t (cur ++ [x]) seg h c hc with h' | h'
      · rcases List.mem_append.1 h' with h'' | h''
        · exact Or.inl h''
        · exact Or.inr (by simp at h''; simp [h''])
      · exact Or.inr (by simp [h'])

theorem titleDelimitedWith_ok (conv : List Nat → Except Fault (List Nat)) :
    ∀ (ts rs : List (List Nat)), titleDelimitedWith conv ts = .ok rs →
      List.Forall₂ (fun t r => conv t = .ok r) ts rs
  | [], rs, h => by
    simp only [titleDelimitedWith, Except.ok.injEq] at h
    subst h; exact List.Forall₂.nil
  | t :: ts, rs, h => by
    rw [titleDelimitedWith] at h
    split at h
    · cases h
    · next r hr =>
      split at h
      · cases h
      · next rs' hrs =>
        simp only [Except.ok.injEq] at h
        subst h
        exact List.Forall₂.cons hr (titleDelimitedWith_ok conv ts rs' hrs)

theorem titleDelimited_ok {conv : List Nat → Except Fault (List Nat)} {d : Nat}
    {s v : List Nat} (h : titleDelimited conv s d = .ok v) :
    ∃ rs, List.Forall₂ (fun t r => conv t = .ok r) (stringsSplit s d) rs ∧
      v = stringsJoin rs [d] := by
  unfold titleDelimited at h
  split at h
  · cases h
  · next rs hrs =>
    simp only [Except.ok.injEq] at h
    exact ⟨rs, titleDelimitedWith_ok conv _ rs hrs, h.symm⟩

theorem lastLower_cons_of_ne_nil (c : Nat) {t : List Nat} (h : t ≠ []) :
    lastLower (c :: t) = lastLower t :=
  lastLower_append_of_ne_nil [c] h

/-- Joined segments are kept when every segment is. -/
theorem wordKept_join {segs rs : List (List Nat)} (h : List.Forall₂ wordKept segs rs)
    (hne : segs ≠ []) : wordKept (stringsJoin segs [45]) (stringsJoin rs [45]) := by
  induction h with
  | nil => exact absurd rfl hne
  | @cons s r segs' rs' h1 h2 ih =>
    cases h2 with
    | nil => simpa [stringsJoin, intercalate_singleton] using h1
    | @cons s2 r2 segs'' rs'' h3 h4 =>
      have ih' := ih (by simp)
      simp only [stringsJoin] at ih' ⊢
      rw [intercalate_cons_cons, intercalate_cons_cons]
      refine ⟨noSpace_append (noSpace_append h1.1 (noSpace_cons (by decide) (fun _ h => by simp at h)))
        ih'.1, ?_⟩
      by_cases hJ : [45].intercalate (s2 :: segs'') = []
      · have hJr : [45].intercalate (r2 :: rs'') = [] := (wordKept_nil_iff ih').2 hJ
        rw [hJ, hJr, List.append_nil, List.append_nil,
          lastLower_append_of_ne_nil r (t := [45]) (by simp),
          lastLower_append_of_ne_nil s (t := [45]) (by simp)]
      · have hJr : [45].intercalate (r2 :: rs'') ≠ [] := fun h => hJ ((wordKept_nil_iff ih').1 h)
        rw [lastLower_append_of_ne_nil (r ++ [45]) hJr,
          lastLower_append_of_ne_nil (s ++ [45]) hJ, ih'.2]

theorem mem_splitFrom_byteLen (d : Nat) : ∀ (s cur seg : List Nat), seg ∈ splitFrom d cur s →
    byteLen seg ≤ byteLen cur + byteLen s
  | [], cur, seg, h => by
    simp only [splitFrom, List.mem_singleton] at h
    subst h
    omega
  | x :: t, cur, seg, h => by
    rw [splitFrom] at h
    rw [byteLen_cons]
    split at h
    · rcases List.mem_cons.1 h with h | h
      · subst h; omega
      · have := mem_splitFrom_byteLen d t [] seg h
        rw [byteLen_nil] at this
        omega
    · have := mem_splitFrom_byteLen d t (cur ++ [x]) seg h
      rw [byteLen_append, byteLen_cons, byteLen_nil] at this
      omega

theorem forall₂_wordKept {conv : List Nat → Except Fault (List Nat)}
    (hconv : ∀ x r, noSpace x → byteLen x < maxScanTokenSize → conv x = .ok r → wordKept x r)
    {ts rs : List (List Nat)}
    (h : List.Forall₂ (fun t r => conv t = .ok r) ts rs)
    (hts : ∀ t ∈ ts, noSpace t ∧ byteLen t < maxScanTokenSize) :
    List.Forall₂ wordKept ts rs := by
  induction h with
  | nil => exact List.Forall₂.nil
  | cons h1 _ ih =>
    exact List.Forall₂.cons (hconv _ _ (hts _ (by simp)).1 (hts _ (by simp)).2 h1)
      (ih (fun t ht => hts t (by simp [ht])))

theorem titleDelimited_wordKept {conv : List Nat → Except Fault (List Nat)}
    (hconv : ∀ x r, noSpace x → byteLen x < maxScanTokenSize → conv x = .ok r → wordKept x r)
    {w v : List Nat} (hw : noSpace w) (hshort : byteLen w < maxScanTokenSize)
    (h : titleDelimited conv w 45 = .ok v) : wordKept w v := by
  obtain ⟨rs, hrs, rfl⟩ := titleDelimited_ok h
  have hj := stringsJoin_splitFrom 45 w []
  rw [List.nil_append] at hj
  have hk : List.Forall₂ wordKept (stringsSplit w 45) rs := by
    apply forall₂_wordKept hconv hrs
    intro seg hseg
    refine ⟨?_, ?_⟩
    · intro c hc
      rcases mem_splitFrom 45 w [] seg hseg c hc with h' | h'
      · simp at h'
      · exact hw c h'
    · have := mem_splitFrom_byteLen 45 w [] seg hseg
      rw [byteLen_nil] at this
      omega
  have := wordKept_join hk (splitFrom_ne_nil 45 w [])
  rwa [show stringsJoin (stringsSplit w 45) [45] = w from hj] at this

/-- The value of a word without override keeps the word. -/
theorem convertWord_wordKept {conv : List Nat → Except Fault (List Nat)}
    (hconv : ∀ x r, noSpace x → byteLen x < maxScanTokenSize → conv x = .ok r → wordKept x r)
    {b : Bool} {w : List Nat} {m : Mutagenic} (hw : noSpace w)
    (hshort : byteLen w < maxScanTokenSize)
    (h : convertWord conv none b w = .ok m) : wordKept w m.String := by
  unfold convertWord at h
  simp only [Bool.false_eq_true, if_false] at h
  split at h
  · cases h; exact ⟨hw, rfl⟩
  split at h
  · next ha => cases h; exact aposRecase_wordKept hw ha
  split at h
  · next m1 m2 hm =>
    obtain ⟨hw12, -, hm2, hm1, -⟩ := MacMc_some hm (noSpace_no_newline hw)
    split at h
    · cases h
    · next r hr =>
      cases h
      subst hw12
      have hk := hconv m2 r (noSpace_of_append_right hw)
        (lt_of_le_of_lt (byteLen_le_of_append_right m1 m2) hshort) hr
      have hr' : r ≠ [] := fun h => hm2 ((wordKept_nil_iff hk).1 h)
      refine ⟨noSpace_append ((sameLetters_noSpace (capitalize_sameLetters m1
        (fun c hc => Or.inl (lt_of_isLetterAZ (hm1 c hc))))).2
        (noSpace_of_letters hm1)) hk.1, ?_⟩
      show lastLower (capitalize m1 ++ r) = _
      rw [lastLower_append_of_ne_nil _ hr', lastLower_append_of_ne_nil _ hm2, hk.2]
  · split at h
    · cases h; exact ⟨hw, rfl⟩
    split at h
    · cases h; exact wordKept_toLower hw
    split at h
    · split at h
      · cases h
      · next v hv => cases h; exact titleDelimited_wordKept hconv hw hshort hv
    split at h
    · split at h
      · cases h
      · next v hv => cases h; exact titleDelimited_wordKept hconv hw hshort hv
    · cases h
      refine wordKept_trans_sameLetters ?_ (CapFirst_sameLetters _)
      split
      · exact wordKept_toLower hw
      · exact ⟨hw, rfl⟩

/-! ## The boundary pass -/

theorem forall₂_refl_sameLetters : ∀ (ms : List Mutagenic),
    List.Forall₂ (fun m m' => sameLetters m'.String m.String) ms ms
  | [] => List.Forall₂.nil
  | _ :: ms => List.Forall₂.cons (sameLetters_refl _) (forall₂_refl_sameLetters ms)

theorem forall₂_trans_sameLetters {l1 l2 : List Mutagenic}
    (h1 : List.Forall₂ (fun m m' => sameLetters m'.String m.String) l1 l2) :
    ∀ {l3 : List Mutagenic}, List.Forall₂ (fun m m' => sameLetters m'.String m.String) l2 l3 →
      List.Forall₂ (fun m m' => sameLetters m'.String m.String) l1 l3 := by
  induction h1 with
  | nil => intro l3 h2; cases h2; exact List.Forall₂.nil
  | cons hab _ ih =>
    intro l3 h2
    cases h2 with
    | cons hbc h2' => exact List.Forall₂.cons (sameLetters_trans hbc hab) (ih h2')

theorem forceFirst_sameLetters (ms : List Mutagenic) :
    List.Forall₂ (fun m m' => sameLetters m'.String m.String) ms (forceFirst ms) := by
  match ms with
  | [] => exact List.Forall₂.nil
  | .Immutable v :: ms => exact forall₂_refl_sameLetters _
  | .Mutable v :: ms =>
    exact List.Forall₂.cons (SmallFirst_sameLetters v) (forall₂_refl_sameLetters ms)

theorem forceLast_sameLetters : ∀ (ms : List Mutagenic),
    List.Forall₂ (fun m m' => sameLetters m'.String m.String) ms (forceLast ms)
  | [] => List.Forall₂.nil
  | [.Immutable v] => forall₂_refl_sameLetters _
  | [.Mutable v] => List.Forall₂.cons (SmallLast_sameLetters v) List.Forall₂.nil
  | m :: m2 :: ms => by
    have ih := forceLast_sameLetters (m2 :: ms)
    cases m <;> exact List.Forall₂.cons (sameLetters_refl _) ih

/-- The boundary pass changes the case of letters only. -/
theorem forced_sameLetters (sfl : Bool) (ms : List Mutagenic) :
    List.Forall₂ (fun m m' => sameLetters m'.String m.String) ms
      (if sfl then forceLast (forceFirst ms) else ms) := by
  cases sfl
  · exact forall₂_refl_sameLetters ms
  · exact forall₂_trans_sameLetters (forceFirst_sameLetters ms)
      (forceLast_sameLetters (forceFirst ms))

/-- A call of `Convert` without override keeps a text without white space. -/
theorem Convert_wordKept (sfl : Bool) : ∀ (depth : Nat) (x r : List Nat), noSpace x →
    byteLen x < maxScanTokenSize → Convert depth none sfl x = .ok r → wordKept x r
  | 0, _, _, _, _, h => by cases h
  | depth + 1, x, r, hx, hshort, h => by
    by_cases hne : x = []
    · subst hne
      rw [Convert_nil] at h
      cases h
      exact ⟨hx, rfl⟩
    · rw [Convert_line _ _ _ _ (noSpace_no_newline hx) hne hshort, convertLine_dropCR,
        convertLine_ok_iff] at h
      obtain ⟨ms, hms, -, hr⟩ := h
      rw [show stringsFields x = [x] from fieldsFrom_word x hne hx, convertWords_ok_iff] at hms
      cases hms with
      | @cons _ m _ _ hm hnil =>
        cases hnil
        have hk := convertWord_wordKept (Convert_wordKept sfl depth) hx hshort hm
        have hf := forced_sameLetters sfl [m]
        generalize (if sfl = true then forceLast (forceFirst [m]) else [m]) = ms' at hf hr
        cases hf with
        | cons hv hnil' =>
          cases hnil'
          simp only [List.map_cons, List.map_nil, stringsJoin, intercalate_singleton] at hr
          rw [hr]
          exact wordKept_trans_sameLetters hk
            (sameLetters_trans (sameLetters_symm (raised_sameLetters (subPhrase_raised _))) hv)

/-! ## Lines -/

theorem mem_fieldsFrom : ∀ (s cur w : List Nat), noSpace cur → w ∈ fieldsFrom cur s →
    w ≠ [] ∧ noSpace w ∧ ∀ c ∈ w, c ∈ cur ∨ c ∈ s
  | [], cur, w, hcur, h => by
    rw [fieldsFrom] at h
    split at h
    · simp at h
    · next hne =>
      simp only [List.mem_singleton] at h
      subst h
      exact ⟨hne, hcur, fun c hc => Or.inl hc⟩
  | x :: s, cur, w, hcur, h => by
    rw [fieldsFrom] at h
    split at h
    · split at h
      · obtain ⟨h1, h2, h3⟩ := mem_fieldsFrom s [] w (fun _ hc => by simp at hc) h
        exact ⟨h1, h2, fun c hc => by rcases h3 c hc with h' | h'; simp at h'; simp [h']⟩
      · next hne =>
        rcases List.mem_cons.1 h with h | h
        · subst h
          exact ⟨hne, hcur, fun c hc => Or.inl hc⟩
        · obtain ⟨h1, h2, h3⟩ := mem_fieldsFrom s [] w (fun _ hc => by simp at hc) h
          exact ⟨h1, h2, fun c hc => by rcases h3 c hc with h' | h'; simp at h'; simp [h']⟩
    · next hx =>
      have hx' : isSpace x = false := by simpa using hx
      obtain ⟨h1, h2, h3⟩ := mem_fieldsFrom s (cur ++ [x]) w
        (noSpace_append hcur (noSpace_cons hx' (fun _ hc => by simp at hc))) h
      refine ⟨h1, h2, fun c hc => ?_⟩
      rcases h3 c hc with h' | h'
      · rcases List.mem_append.1 h' with h'' | h''
        · exact Or.inl h''
        · simp at h''; simp [h'']
      · simp [h']

/-- A field of a text is not empty, has no white space and is made of code points of
the text. -/
theorem mem_stringsFields {s w : List Nat} (h : w ∈ stringsFields s) :
    w ≠ [] ∧ noSpace w ∧ ∀ c ∈ w, c ∈ s := by
  obtain ⟨h1, h2, h3⟩ := mem_fieldsFrom s [] w (fun _ hc => by simp at hc) h
  exact ⟨h1, h2, fun c hc => by rcases h3 c hc with h' | h'; simp at h'; exact h'⟩

theorem stringsFields_ne_nil_ne_nil {s : List Nat} (h : stringsFields s ≠ []) : s ≠ [] := by
  rintro rfl
  exact h rfl

theorem mem_fieldsFrom_byteLen : ∀ (s cur w : List Nat), w ∈ fieldsFrom cur s →
    byteLen w ≤ byteLen cur + byteLen s
  | [], cur, w, h => by
    rw [fieldsFrom] at h
    split at h
    · simp at h
    · simp only [List.mem_singleton] at h
      subst h
      omega
  | x :: s, cur, w, h => by
    rw [fieldsFrom] at h
    rw [byteLen_cons]
    split at h
    · split at h
      · have := mem_fieldsFrom_byteLen s [] w h
        rw [byteLen_nil] at this
        omega
      · rcases List.mem_cons.1 h with h | h
        · subst h; omega
        · have := mem_fieldsFrom_byteLen s [] w h
          rw [byteLen_nil] at this
          omega
    · have := mem_fieldsFrom_byteLen s (cur ++ [x]) w h
      rw [byteLen_append, byteLen_cons, byteLen_nil] at this
      omega

/-- A word of a line has no more bytes than the line. -/
theorem mem_stringsFields_byteLen {s w : List Nat} (h : w ∈ stringsFields s) :
    byteLen w ≤ byteLen s := by
  have := mem_fieldsFrom_byteLen s [] w h
  rw [byteLen_nil] at this
  omega

theorem scanFrom_line (rest : List Nat) : ∀ (l cur : List Nat), (∀ c ∈ l, c ≠ 10) →
    scanFrom cur (l ++ 10 :: rest) =
      if maxScanTokenSize ≤ byteLen (cur ++ l) then []
      else dropCR (cur ++ l) :: scanFrom [] rest
  | [], cur, _ => by simp [scanFrom]
  | c :: l, cur, h => by
    have ih := scanFrom_line rest l (cur ++ [c]) (fun x hx => h x (by simp [hx]))
    rw [List.cons_append, scanFrom, if_neg (h c (by simp)), ih]
    simp

/-- The lines of lines joined by newlines, the last of them not empty and each of less
than `maxScanTokenSize` bytes. -/
theorem scanLines_join : ∀ (ls : List (List Nat)), ls ≠ [] →
    (∀ l ∈ ls, l ≠ [] ∧ (∀ c ∈ l, c ≠ 10) ∧ byteLen l < maxScanTokenSize) →
    scanLines (stringsJoin ls [10]) = ls.map dropCR
  | [], h, _ => absurd rfl h
  | [l], _, h => by
    have hl := h l (by simp)
    simp only [stringsJoin, intercalate_singleton, List.map_cons, List.map_nil]
    rw [scanLines_of_no_newline l hl.2.1, if_neg hl.1, if_neg (by omega)]
  | l :: l2 :: ls, _, h => by
    have hl := h l (by simp)
    have ih := scanLines_join (l2 :: ls) (by simp) (fun x hx => h x (by simp [hx]))
    simp only [stringsJoin, scanLines] at ih ⊢
    rw [intercalate_cons_cons, List.append_assoc, List.singleton_append,
      scanFrom_line _ l [] hl.2.1, List.nil_append, if_neg (by omega), ih]
    simp

/-- The scan ends at a first line of `maxScanTokenSize` bytes or more: the input has no
lines. -/
theorem scanLines_long_first (l rest : List Nat) (hnl : ∀ c ∈ l, c ≠ 10)
    (hlong : maxScanTokenSize ≤ byteLen l) :
    scanLines l = [] ∧ scanLines (l ++ 10 :: rest) = [] := by
  have hne : l ≠ [] := by
    rintro rfl
    rw [byteLen_nil] at hlong
    exact absurd hlong (by decide)
  refine ⟨?_, ?_⟩
  · rw [scanLines_of_no_newline l hnl, if_neg hne, if_pos hlong]
  · rw [scanLines, scanFrom_line rest l [] hnl, List.nil_append, if_pos hlong]

theorem convertLines_ok (conv : List Nat → Except Fault (List Nat))
    (callback : Option tcCallback) (sfl : Bool) {ls outs : List (List Nat)}
    (h : List.Forall₂ (fun l o => convertLine conv callback sfl l = .ok o) ls outs) :
    convertLines conv callback sfl ls = .ok outs := by
  induction h with
  | nil => rfl
  | cons h1 _ ih => simp only [convertLines, h1, ih]

theorem splitFrom_line (d : Nat) (rest : List Nat) : ∀ (l cur : List Nat), (∀ c ∈ l, c ≠ d) →
    splitFrom d cur (l ++ d :: rest) = (cur ++ l) :: splitFrom d [] rest
  | [], cur, _ => by simp [splitFrom]
  | c :: l, cur, h => by
    have ih := splitFrom_line d rest l (cur ++ [c]) (fun x hx => h x (by simp [hx]))
    rw [List.cons_append, splitFrom, if_neg (h c (by simp)), ih]
    simp

theorem splitFrom_of_not_mem (d : Nat) : ∀ (l cur : List Nat), (∀ c ∈ l, c ≠ d) →
    splitFrom d cur l = [cur ++ l]
  | [], cur, _ => by simp [splitFrom]
  | c :: l, cur, h => by
    have ih := splitFrom_of_not_mem d l (cur ++ [c]) (fun x hx => h x (by simp [hx]))
    rw [splitFrom, if_neg (h c (by simp)), ih]
    simp

/-- Splitting joined texts at the separator gives the texts back. -/
theorem stringsSplit_join (d : Nat) : ∀ (ls : List (List Nat)), ls ≠ [] →
    (∀ l ∈ ls, ∀ c ∈ l, c ≠ d) → stringsSplit (stringsJoin ls [d]) d = ls
  | [], h, _ => absurd rfl h
  | [l], _, h => by
    simp only [stringsJoin, intercalate_singleton, stringsSplit]
    rw [splitFrom_of_not_mem d l [] (h l (by simp))]
    simp
  | l :: l2 :: ls, _, h => by
    have ih := stringsSplit_join d (l2 :: ls) (by simp) (fun x hx => h x (by simp [hx]))
    simp only [stringsJoin, stringsSplit] at ih ⊢
    rw [intercalate_cons_cons, List.append_assoc, List.singleton_append,
      splitFrom_line d _ l [] (h l (by simp)), ih]
    simp

theorem forall₂_comp {α β γ : Type} {R : α → β → Prop} {S : β → γ → Prop} {T : α → γ → Prop}
    (hT : ∀ a b c, R a b → S b c → T a c) {l1 : List α} {l2 : List β}
    (h1 : List.Forall₂ R l1 l2) : ∀ {l3 : List γ}, List.Forall₂ S l2 l3 → List.Forall₂ T l1 l3 := by
  induction h1 with
  | nil => intro l3 h2; cases h2; exact List.Forall₂.nil
  | cons hab _ ih =>
    intro l3 h2
    cases h2 with
    | cons hbc h2' => exact List.Forall₂.cons (hT _ _ _ hab hbc) (ih h2')

theorem forall₂_getElem? {α β : Type} {R : α → β → Prop} {l1 : List α} {l2 : List β}
    (h : List.Forall₂ R l1 l2) : ∀ (i : Nat) (a : α), l1[i]? = some a →
      ∃ b, l2[i]? = some b ∧ R a b := by
  induction h with
  | nil => intro i a h; simp at h
  | cons hab _ ih =>
    intro i a h
    cases i with
    | zero =>
      simp only [List.getElem?_cons_zero, Option.some.injEq] at h
      subst h
      exact ⟨_, by simp, hab⟩
    | succ i =>
      simp only [List.getElem?_cons_succ] at h
      obtain ⟨b, hb, hr⟩ := ih i a h
      exact ⟨b, by simpa using hb, hr⟩

theorem forall₂_mem_right {α β : Type} {R : α → β → Prop} {l1 : List α} {l2 : List β}
    (h : List.Forall₂ R l1 l2) : ∀ b ∈ l2, ∃ a ∈ l1, R a b := by
  induction h with
  | nil => intro b hb; simp at hb
  | cons hab _ ih =>
    intro b hb
    rcases List.mem_cons.1 hb with h | h
    · subst h; exact ⟨_, by simp, hab⟩
    · obtain ⟨a, ha, hr⟩ := ih b h
      exact ⟨a, by simp [ha], hr⟩

/-- The result of `Convert` for one line that is not empty, from the values of its
words. -/
theorem Convert_line_ok {depth : Nat} {callback : Option tcCallback} {sfl : Bool}
    {line out : List Nat} (hnl : ∀ c ∈ line, c ≠ 10) (hne : line ≠ [])
    (hshort : byteLen line < maxScanTokenSize)
    (h : Convert depth callback sfl line = .ok out) :
    ∃ d ms, depth = d + 1 ∧
      List.Forall₂ (fun w m => convertWord (Convert d callback sfl) callback
        (stringsToUpper line == line) w = .ok m) (stringsFields line) ms ∧
      ms ≠ [] ∧
      out = SubPhrase_ReplaceAllStringFunc
        (stringsJoin ((if sfl then forceLast (forceFirst ms) else ms).map Mutagenic.String) [32])
        repairPhrase := by
  cases depth with
  | zero => cases h
  | succ d =>
    rw [Convert_line _ _ _ _ hnl hne hshort, convertLine_dropCR, convertLine_ok_iff] at h
    obtain ⟨ms, hms, hne', hr⟩ := h
    exact ⟨d, ms, rfl, (convertWords_ok_iff _ _ _ _ _).1 hms, hne', hr⟩

/-- On an input of one line of `maxScanTokenSize` bytes or more the scan yields no line
and `Convert` returns the empty string. -/
theorem Convert_long_line (depth : Nat) (callback : Option tcCallback) (sfl : Bool)
    (line : List Nat) (hnl : ∀ c ∈ line, c ≠ 10) (hlong : maxScanTokenSize ≤ byteLen line) :
    Convert (depth + 1) callback sfl line = .ok [] := by
  rw [Convert, (scanLines_long_first line [] hnl hlong).1]
  rfl

/-- The scan ends at a first line of `maxScanTokenSize` bytes or more: `Convert` returns
the empty string, whatever comes behind that line. -/
theorem Convert_long_first_line (depth : Nat) (callback : Option tcCallback) (sfl : Bool)
    (line rest : List Nat) (hnl : ∀ c ∈ line, c ≠ 10)
    (hlong : maxScanTokenSize ≤ byteLen line) :
    Convert (depth + 1) callback sfl (line ++ 10 :: rest) = .ok [] := by
  rw [Convert, (scanLines_long_first line rest hnl hlong).2]
  rfl

/-- Without override the values of the words of a line keep the words, also after the
boundary pass. -/
theorem values_wordKept {d : Nat} {sfl b : Bool} {ws : List (List Nat)} {ms : List Mutagenic}
    (hws : ∀ w ∈ ws, noSpace w ∧ byteLen w < maxScanTokenSize)
    (h : List.Forall₂ (fun w m => convertWord (Convert d none sfl) none b w = .ok m) ws ms) :
    List.Forall₂ (fun w m => wordKept w m.String) ws
      (if sfl then forceLast (forceFirst ms) else ms) := by
  have h1 : List.Forall₂ (fun w m => wordKept w m.String) ws ms := by
    revert hws
    induction h with
    | nil => intro _; exact List.Forall₂.nil
    | cons hab _ ih =>
      intro hws
      exact List.Forall₂.cons (convertWord_wordKept (Convert_wordKept sfl d) (hws _ (by simp)).1
        (hws _ (by simp)).2 hab) (ih (fun w hw => hws w (by simp [hw])))
  exact forall₂_comp (R := fun (w : List Nat) (m : Mutagenic) => wordKept w m.String)
    (S := fun (m m' : Mutagenic) => sameLetters m'.String m.String)
    (T := fun (w : List Nat) (m : Mutagenic) => wordKept w m.String)
    (fun a b c hab hbc => wordKept_trans_sameLetters hab hbc) h1 (forced_sameLetters sfl ms)

theorem mem_of_sameLetters_newline {s t : List Nat} (h : sameLetters s t)
    (hs : ∀ c ∈ s, c ≠ 10) : ∀ c ∈ t, c ≠ 10 := by
  intro c hc hc'
  subst hc'
  have : toLowerAZ 10 ∈ t.map toLowerAZ := List.mem_map_of_mem _ hc
  rw [← show s.map toLowerAZ = t.map toLowerAZ from h, show toLowerAZ 10 = 10 from rfl] at this
  obtain ⟨x, hx, hx'⟩ := List.mem_map.1 this
  have hx10 : x = 10 := by
    unfold toLowerAZ at hx'
    split at hx'
    · next hu => rw [isUpperAZ_iff] at hu; omega
    · exact hx'
  exact hs x hx hx10

/-- Without override the result of a line has no newline. -/
theorem Convert_no_newline {depth : Nat} {sfl : Bool} {line out : List Nat}
    (hnl : ∀ c ∈ line, c ≠ 10) (h : Convert depth none sfl line = .ok out) :
    ∀ c ∈ out, c ≠ 10 := by
  by_cases hne : line = []
  · subst hne
    cases depth with
    | zero => cases h
    | succ d => rw [Convert_nil] at h; cases h; simp
  · by_cases hshort : byteLen line < maxScanTokenSize
    swap
    · cases depth with
      | zero => cases h
      | succ d =>
        rw [Convert_long_line _ _ _ _ hnl (by omega)] at h
        cases h
        simp
    obtain ⟨d, ms, -, hms, -, rfl⟩ := Convert_line_ok hnl hne hshort h
    have hk := values_wordKept (fun w hw => ⟨(mem_stringsFields hw).2.1,
      lt_of_le_of_lt (mem_stringsFields_byteLen hw) hshort⟩) hms
    apply mem_of_sameLetters_newline (raised_sameLetters (subPhrase_raised _))
    intro c hc
    rcases mem_join_space hc with h' | ⟨v, hv, hcv⟩
    · omega
    · obtain ⟨m, hm, rfl⟩ := List.mem_map.1 hv
      obtain ⟨w, -, hw⟩ := forall₂_mem_right hk m hm
      exact noSpace_no_newline hw.1 c hcv

/-- Lines are transformed independently and their number and order are kept: for lines
of less than `maxScanTokenSize` bytes that are free of line breaks and hold a word, on
which `Convert` returns, the result for the lines joined by newlines is the results joined
by newlines, under the same options; without override the results have no newline, so
that the output has exactly as many lines as the input. -/
theorem Convert_lines_independent (depth : Nat) (callback : Option tcCallback) (sfl : Bool)
    (ls outs : List (List Nat)) (hne : ls ≠ [])
    (h : List.Forall₂ (fun l o => (∀ c ∈ l, c ≠ 10) ∧ stringsFields l ≠ [] ∧
      byteLen l < maxScanTokenSize ∧ Convert depth callback sfl l = .ok o) ls outs) :
    Convert depth callback sfl (stringsJoin ls [10]) = .ok (stringsJoin outs [10]) ∧
    outs.length = ls.length ∧
    (callback = none → stringsSplit (stringsJoin outs [10]) 10 = outs) := by
  refine ⟨?_, h.length_eq.symm, ?_⟩
  · cases depth with
    | zero =>
      cases h with
      | nil => exact absurd rfl hne
      | cons h1 _ => cases h1.2.2.2
    | succ d =>
      have hls : ∀ l ∈ ls, l ≠ [] ∧ (∀ c ∈ l, c ≠ 10) ∧ byteLen l < maxScanTokenSize := by
        intro l hl
        obtain ⟨o, -, ho⟩ := forall₂_mem_right h.flip l hl
        exact ⟨stringsFields_ne_nil_ne_nil ho.2.1, ho.1, ho.2.2.1⟩
      rw [Convert, scanLines_join ls hne hls]
      have : List.Forall₂ (fun l o => convertLine (Convert d callback sfl) callback sfl l = .ok o)
          (ls.map dropCR) outs := by
        rw [List.forall₂_map_left_iff]
        refine h.imp ?_
        intro l o ⟨h1, h2, h3, h4⟩
        rwa [Convert_line _ _ _ _ h1 (stringsFields_ne_nil_ne_nil h2) h3] at h4
      rw [convertLines_ok _ _ _ this]
  · intro hcb
    subst hcb
    have hout : outs ≠ [] := by
      intro ho
      rw [ho] at h
      cases h
      exact hne rfl
    apply stringsSplit_join 10 outs hout
    intro o ho
    obtain ⟨l, -, hl⟩ := forall₂_mem_right h o ho
    exact Convert_no_newline hl.1 hl.2.2.2

/-! ## A line of 64 KiB or more -/

theorem mem_repeated {n c x : Nat} (h : x ∈ repeated n c) : x = c :=
  (List.mem_replicate.1 h).2

theorem repeated_ne_nil {n c : Nat} (h : 0 < n) : repeated n c ≠ [] := by
  intro hn
  have := congrArg List.length hn
  simp [repeated] at this
  omega

theorem byteLen_repeated {n c : Nat} (h : c < 128) : byteLen (repeated n c) = n := by
  rw [byteLen_ascii (fun x hx => by rw [mem_repeated hx]; exact h)]
  simp [repeated]

theorem repeated_succ (n c : Nat) : repeated (n + 1) c = c :: repeated n c := rfl

/-- C6. Lines are not transformed independently when one of them has 64 KiB or more:
the scan ends at that line and the error is not looked at.  For a first line of 65536
letters "a" and a second line "b", `Convert` returns the empty string for the two lines
joined by a newline, while it returns the empty string for the first line and "B" for
the second, which joined by a newline are "\nB"; the output does not have two lines. -/
theorem C6_long_line_ends_scan :
    (∀ depth : Nat,
      Convert (depth + 1) none true (stringsJoin [repeated 65536 97, str "b"] [10]) = .ok []) ∧
    (∀ depth : Nat, Convert (depth + 1) none true (repeated 65536 97) = .ok []) ∧
    (∀ depth : Nat, Convert (depth + 1) none true (str "b") = .ok (str "B")) ∧
    (∀ c ∈ repeated 65536 97, c ≠ 10) ∧ stringsFields (repeated 65536 97) ≠ [] ∧
    stringsJoin [[], str "B"] [10] = str "\nB" ∧ ([] : List Nat) ≠ str "\nB" := by
  have hnl : ∀ c ∈ repeated 65536 97, c ≠ 10 := by
    intro c hc
    rw [mem_repeated hc]
    decide
  have hlong : maxScanTokenSize ≤ byteLen (repeated 65536 97) := by
    rw [byteLen_repeated (by decide)]
    decide
  refine ⟨?_, fun d => Convert_long_line d none true _ hnl hlong, fun _ => rfl, hnl, ?_,
    by decide, by decide⟩
  · intro d
    have : stringsJoin [repeated 65536 97, str "b"] [10] = repeated 65536 97 ++ 10 :: str "b" := by
      simp [stringsJoin, List.intercalate]
    rw [this]
    exact Convert_long_first_line d none true _ _ hnl hlong
  · rw [show stringsFields (repeated 65536 97) = [repeated 65536 97] from
      fieldsFrom_word _ (repeated_ne_nil (by decide)) (fun c hc => by
        rw [mem_repeated hc]; decide)]
    simp

/-! ## Inputs on which the program departs from its specification -/

theorem slash_word_error (conv : List Nat → Except Fault (List Nat)) (e : Fault)
    (sfl : Bool) (w : List Nat) (hw : w = str "a/b") (h : conv w = .error e) :
    convertLine conv none sfl w = .error e := by
  have hF : stringsFields w = [w] := by subst hw; decide
  have hU : (stringsToUpper w == w) = false := by subst hw; decide
  have hS : stringsSplit w 45 = [w] := by subst hw; decide
  have h1 : AposSecond w = false := by subst hw; decide
  have h2 : MacMc w = none := by subst hw; decide
  have h3 : InlinePeriod w = false := by subst hw; decide
  have h4 : UCElsewhere w = false := by subst hw; decide
  have h5 : SmallWords w = false := by subst hw; decide
  have h6 : stringsContains w [47] = true := by subst hw; decide
  have h7 : stringsContains w [47, 47] = false := by subst hw; decide
  clear hw
  simp [convertLine, hF, hU, convertWords, convertWord, h1, h2, h3, h4, h5, h6, h7,
    titleDelimited, hS, titleDelimitedWith, h]

/-- C4. `Convert` does not return for the word "a/b": whatever depth of calls
it is given, the call needs more.  The rule for a word with a "/" splits the word at "-",
so the only segment is the word itself and `titleDelimited` calls `Convert` on it again. -/
theorem C4_slash_word_never_returns :
    ∀ depth : Nat, Convert depth none true (str "a/b") = .error .stackExhausted := by
  intro depth
  induction depth with
  | zero => rfl
  | succ d ih =>
    have hL : scanLines (str "a/b") = [str "a/b"] := by decide
    have key := slash_word_error _ _ true _ rfl ih
    generalize str "a/b" = w at *
    simp only [Convert, hL, convertLines, key]

/-- C3. `Convert` panics on a line without words: for " ", for "\n" and for
"a\n\nb" the slice `result[1:]` of the empty `result` is out of range.  The empty input,
which has no line, gives the empty string. -/
theorem C3_line_without_words_panics :
    (∀ depth : Nat, Convert (depth + 1) none true (str " ") = .error .sliceOutOfRange) ∧
    (∀ depth : Nat, Convert (depth + 1) none true (str "\n") = .error .sliceOutOfRange) ∧
    (∀ depth : Nat, Convert (depth + 1) none true (str "a\n\nb") = .error .sliceOutOfRange) ∧
    (∀ depth : Nat, Convert (depth + 1) none true (str "") = .ok (str "")) :=
  ⟨fun _ => rfl, fun _ => rfl, fun _ => rfl, fun _ => rfl⟩

/-- C8. The small words are matched in lower case only: on the all-caps line
"THIS IS A TEST" the word "A" is not a small word for `SmallWords` and comes out as
"A", not as "a". -/
theorem C8_upper_case_small_word :
    ∀ depth : Nat,
      Convert (depth + 1) none true (str "THIS IS A TEST") = .ok (str "This Is A Test") :=
  fun _ => rfl

/-- C10. A hyphenated compound is not split: `strings.Contains("-", word)` holds for
the word "-" only, so "mother-in-law" takes the default rule and comes out as
"Mother-in-law", not as "Mother-in-Law". -/
theorem C10_hyphenated_word_not_split :
    ∀ depth : Nat,
      Convert (depth + 1) none true (str "mother-in-law") = .ok (str "Mother-in-law") :=
  fun _ => rfl

/-! ## Words without lower-case letters -/

theorem smallFirstMatch_of_no_lower : ∀ (s : List Nat), (∀ c ∈ s, isLowerAZ c = false) →
    smallFirstMatch s = none
  | [], _ => by rw [smallFirstMatch]; exact matchSmall_nil
  | c :: t, h => by
    have ih := smallFirstMatch_of_no_lower t (fun x hx => h x (by simp [hx]))
    rw [smallFirstMatch, ih, matchSmall_none_of_head (h c (by simp))]
    simp

theorem SmallFirst_of_no_lower (f : List Nat → List Nat) {s : List Nat}
    (h : ∀ c ∈ s, isLowerAZ c = false) : SmallFirst_ReplaceAllStringFunc s f = s := by
  simp [SmallFirst_ReplaceAllStringFunc, smallFirstMatch_of_no_lower s h]

theorem smallLastFrom_of_no_lower (f : List Nat → List Nat) : ∀ (s : List Nat) (prev : Option Nat),
    (∀ c ∈ s, isLowerAZ c = false) → smallLastFrom f prev s = s
  | [], _, _ => rfl
  | c :: t, prev, h => by
    have ih := smallLastFrom_of_no_lower f t (some c) (fun x hx => h x (by simp [hx]))
    rw [smallLastFrom, matchSmall_none_of_head (h c (by simp)), ih]
    simp

theorem SmallLast_of_no_lower (f : List Nat → List Nat) {s : List Nat}
    (h : ∀ c ∈ s, isLowerAZ c = false) : SmallLast_ReplaceAllStringFunc s f = s :=
  smallLastFrom_of_no_lower f s none h

theorem ucInitialsGroups_no_lower : ∀ (w : List Nat), ucInitialsGroups w = true →
    ∀ c ∈ w, isLowerAZ c = false
  | [], h => by simp [ucInitialsGroups] at h
  | [_], h => by simp [ucInitialsGroups] at h
  | [x, d], h => by
    simp only [ucInitialsGroups, Bool.and_eq_true, beq_iff_eq] at h
    intro c hc
    simp only [List.mem_cons, List.mem_singleton, List.not_mem_nil, or_false] at hc
    rcases hc with rfl | rfl
    · exact isLowerAZ_of_upper h.1
    · rw [h.2]; decide
  | x :: d :: y :: t, h => by
    simp only [ucInitialsGroups, Bool.and_eq_true, Bool.or_eq_true, beq_iff_eq] at h
    obtain ⟨⟨hx, hd⟩, hrest⟩ := h
    have hyt : ∀ c ∈ y :: t, isLowerAZ c = false := by
      rcases hrest with h1 | ⟨hy, h2⟩
      · exact ucInitialsGroups_no_lower (y :: t) h1
      · intro c hc
        rcases List.mem_cons.1 hc with rfl | hc
        · exact isLowerAZ_of_upper hy
        · rcases h2 with h3 | h3
          · subst h3; simp at hc
          · exact ucInitialsGroups_no_lower t h3 c hc
    intro c hc
    simp only [List.mem_cons] at hc
    rcases hc with rfl | rfl | hc
    · exact isLowerAZ_of_upper hx
    · rw [hd]; decide
    · exact hyt c (by simpa using hc)

/-- A word that matches `UCInitials` has no lower-case letter. -/
theorem UCInitials_no_lower {w : List Nat} (h : UCInitials w = true) :
    ∀ c ∈ w, isLowerAZ c = false :=
  ucInitialsGroups_no_lower w h

theorem forceFirst_strings (ms : List Mutagenic) :
    List.Forall₂ (fun m m' => m'.String = m.String ∨
      m'.String = SmallFirst_ReplaceAllStringFunc m.String capitalize) ms (forceFirst ms) := by
  have hrefl : ∀ (l : List Mutagenic), List.Forall₂ (fun m m' => m'.String = m.String ∨
      m'.String = SmallFirst_ReplaceAllStringFunc m.String capitalize) l l := by
    intro l
    induction l with
    | nil => exact List.Forall₂.nil
    | cons m l ih => exact List.Forall₂.cons (Or.inl rfl) ih
  match ms with
  | [] => exact List.Forall₂.nil
  | .Immutable v :: ms => exact hrefl _
  | .Mutable v :: ms => exact List.Forall₂.cons (Or.inr rfl) (hrefl ms)

theorem forceLast_strings : ∀ (ms : List Mutagenic),
    List.Forall₂ (fun m m' => m'.String = m.String ∨
      m'.String = SmallLast_ReplaceAllStringFunc m.String capitalize) ms (forceLast ms)
  | [] => List.Forall₂.nil
  | [.Immutable _] => List.Forall₂.cons (Or.inl rfl) List.Forall₂.nil
  | [.Mutable _] => List.Forall₂.cons (Or.inr rfl) List.Forall₂.nil
  | m :: m2 :: ms => by
    have ih := forceLast_strings (m2 :: ms)
    cases m <;> exact List.Forall₂.cons (Or.inl rfl) ih

/-- The boundary pass keeps a value without lower-case letters. -/
theorem forced_of_no_lower (sfl : Bool) (ms : List Mutagenic) :
    List.Forall₂ (fun m m' => (∀ c ∈ m.String, isLowerAZ c = false) → m'.String = m.String) ms
      (if sfl then forceLast (forceFirst ms) else ms) := by
  cases sfl
  · simp only [Bool.false_eq_true, if_false]
    induction ms with
    | nil => exact List.Forall₂.nil
    | cons m l ih => exact List.Forall₂.cons (fun _ => rfl) ih
  · simp only [if_true]
    refine forall₂_comp ?_ (forceFirst_strings ms) (forceLast_strings (forceFirst ms))
    intro a b c hab hbc hno
    have hb : b.String = a.String := by
      rcases hab with h | h
      · exact h
      · rw [h, SmallFirst_of_no_lower _ hno]
    rcases hbc with h | h
    · rw [h, hb]
    · rw [h, hb, SmallLast_of_no_lower _ hno]

/-! ## The fields of a recased text -/

theorem isSpace_of_raisedRune {a b : Nat} (h : raisedRune a b) : isSpace b = isSpace a := by
  rw [← isSpace_toLowerAZ b, ← raisedRune_toLower h, isSpace_toLowerAZ]

theorem raised_nil_iff {s t : List Nat} (h : raised s t) : s = [] ↔ t = [] := by
  cases h <;> simp

theorem fieldsFrom_raised {s t : List Nat} (h : raised s t) : ∀ {cur cur' : List Nat},
    raised cur cur' → List.Forall₂ raised (fieldsFrom cur s) (fieldsFrom cur' t) := by
  induction h with
  | nil =>
    intro cur cur' hc
    rw [fieldsFrom, fieldsFrom]
    by_cases h : cur = []
    · rw [if_pos h, if_pos ((raised_nil_iff hc).1 h)]
      exact List.Forall₂.nil
    · rw [if_neg h, if_neg (fun h' => h ((raised_nil_iff hc).2 h'))]
      exact List.Forall₂.cons hc List.Forall₂.nil
  | @cons a b s' t' hab _ ih =>
    intro cur cur' hc
    rw [fieldsFrom, fieldsFrom, isSpace_of_raisedRune hab]
    by_cases hsp : isSpace a = true
    · rw [if_pos hsp, if_pos hsp]
      by_cases h : cur = []
      · rw [if_pos h, if_pos ((raised_nil_iff hc).1 h)]
        exact ih List.Forall₂.nil
      · rw [if_neg h, if_neg (fun h' => h ((raised_nil_iff hc).2 h'))]
        exact List.Forall₂.cons hc (ih List.Forall₂.nil)
    · rw [if_neg hsp, if_neg hsp]
      exact ih (raised_append hc (List.Forall₂.cons hab List.Forall₂.nil))

/-- The fields of a raised text are the raised fields of the text. -/
theorem stringsFields_raised {s t : List Nat} (h : raised s t) :
    List.Forall₂ raised (stringsFields s) (stringsFields t) :=
  fieldsFrom_raised h List.Forall₂.nil

/-! ## The words of the result of a line -/

/-- Without override the values of the words of a line, after the boundary pass, are
the fields of the joined values. -/
theorem stringsFields_values {d : Nat} {sfl b : Bool} {line : List Nat} {ms : List Mutagenic}
    (hshort : byteLen line < maxScanTokenSize)
    (h : List.Forall₂ (fun w m => convertWord (Convert d none sfl) none b w = .ok m)
      (stringsFields line) ms) :
    stringsFields (stringsJoin
      ((if sfl then forceLast (forceFirst ms) else ms).map Mutagenic.String) [32]) =
      (if sfl then forceLast (forceFirst ms) else ms).map Mutagenic.String := by
  have hk := values_wordKept (fun w hw => ⟨(mem_stringsFields hw).2.1,
    Nat.lt_of_le_of_lt (mem_stringsFields_byteLen hw) hshort⟩) h
  apply stringsFields_join
  intro v hv
  obtain ⟨m, hm, rfl⟩ := List.mem_map.1 hv
  obtain ⟨w, hw, hwm⟩ := forall₂_mem_right hk m hm
  exact ⟨fun h' => (mem_stringsFields hw).1 ((wordKept_nil_iff hwm).1 h'), hwm.1⟩

theorem convertWord_initials (conv : List Nat → Except Fault (List Nat)) {w : List Nat}
    (hw : UCInitials w = true) : convertWord conv none true w = .ok (NewMutable w) := by
  simp [convertWord, hw]

/-- On every all-caps line below the limit of the scanner, without override, each word
that matches `UCInitials` is the word at the same position of a result, in first and last
position too and with either setting of the boundary pass. -/
theorem Convert_initials_kept (depth : Nat) (sfl : Bool) (line out : List Nat)
    (hnl : ∀ c ∈ line, c ≠ 10) (hshort : byteLen line < maxScanTokenSize)
    (hcaps : stringsToUpper line = line) (h : Convert depth none sfl line = .ok out) :
    ∀ (i : Nat) (w : List Nat), (stringsFields line)[i]? = some w → UCInitials w = true →
      (stringsFields out)[i]? = some w := by
  intro i w hi hw
  have hne : line ≠ [] := by
    rintro rfl
    simp [stringsFields, fieldsFrom] at hi
  obtain ⟨d, ms, -, hms, -, rfl⟩ := Convert_line_ok hnl hne hshort h
  have hb : (stringsToUpper line == line) = true := by simp [hcaps]
  rw [hb] at hms
  obtain ⟨m, hm, hwm⟩ := forall₂_getElem? hms i w hi
  rw [convertWord_initials _ hw] at hwm
  cases hwm
  obtain ⟨m', hm', hmm'⟩ := forall₂_getElem? (forced_of_no_lower sfl ms) i _ hm
  have hstr : m'.String = w := hmm' (UCInitials_no_lower hw)
  have hv : ((if sfl then forceLast (forceFirst ms) else ms).map Mutagenic.String)[i]? = some w := by
    rw [List.getElem?_map, hm', Option.map_some', hstr]
  have hr := stringsFields_raised (subPhrase_raised (stringsJoin
    ((if sfl then forceLast (forceFirst ms) else ms).map Mutagenic.String) [32]))
  rw [stringsFields_values hshort hms] at hr
  obtain ⟨b, hb', hwb⟩ := forall₂_getElem? hr i w hv
  rw [hb', raised_of_no_lower hwb (UCInitials_no_lower hw)]

/-! ## Lines on which `Convert` returns -/

theorem convertWords_returns {conv : List Nat → Except Fault (List Nat)} {b : Bool} :
    ∀ (ws : List (List Nat)), (∀ w ∈ ws, ∃ m, convertWord conv none b w = .ok m) →
      ∃ ms, convertWords conv none b ws = .ok ms ∧ ms.length = ws.length
  | [], _ => ⟨[], rfl, rfl⟩
  | w :: ws, h => by
    obtain ⟨m, hm⟩ := h w (by simp)
    obtain ⟨ms, hms, hlen⟩ := convertWords_returns ws (fun x hx => h x (by simp [hx]))
    exact ⟨m :: ms, by simp only [convertWords, hm, hms], by simp [hlen]⟩

theorem fieldsFrom_length_le : ∀ (s cur w : List Nat), w ∈ fieldsFrom cur s →
    w.length ≤ cur.length + s.length
  | [], cur, w, h => by
    rw [fieldsFrom] at h
    split at h
    · simp at h
    · simp only [List.mem_singleton] at h
      subst h
      simp
  | x :: s, cur, w, h => by
    rw [fieldsFrom] at h
    split at h
    · split at h
      · have := fieldsFrom_length_le s [] w h
        simp only [List.length_nil, List.length_cons] at this ⊢
        omega
      · rcases List.mem_cons.1 h with h | h
        · subst h; simp
        · have := fieldsFrom_length_le s [] w h
          simp only [List.length_nil, List.length_cons] at this ⊢
          omega
    · have := fieldsFrom_length_le s (cur ++ [x]) w h
      simp only [List.length_append, List.length_cons, List.length_nil] at this ⊢
      omega

/-- A word of a line is not longer than the line. -/
theorem stringsFields_length_le {line w : List Nat} (h : w ∈ stringsFields line) :
    w.length ≤ line.length := by
  have := fieldsFrom_length_le line [] w h
  simpa using this

/-- The loop over the words returns a value for a word without a slash, without
override, when the calls of `Convert` on shorter words without a slash return. -/
theorem convertWord_returns {conv : List Nat → Except Fault (List Nat)} {n : Nat}
    (hconv : ∀ x, noSpace x → (∀ c ∈ x, c ≠ 47) → x.length + 1 ≤ n → ∃ r, conv x = .ok r)
    (b : Bool) {w : List Nat} (hw : noSpace w) (hslash : ∀ c ∈ w, c ≠ 47) (hne : w ≠ [])
    (hlen : w.length ≤ n) :
    ∃ m, convertWord conv none b w = .ok m := by
  unfold convertWord
  simp only [Bool.false_eq_true, if_false]
  split
  · exact ⟨_, rfl⟩
  split
  · exact ⟨_, rfl⟩
  split
  · next m1 m2 hm =>
    obtain ⟨hw12, hl1, -, -, -⟩ := MacMc_some hm (noSpace_no_newline hw)
    subst hw12
    obtain ⟨r, hr⟩ := hconv m2 (noSpace_of_append_right hw)
      (fun c hc => hslash c (by simp [hc])) (by
        simp only [List.length_append] at hlen; omega)
    rw [hr]
    exact ⟨_, rfl⟩
  · split
    · exact ⟨_, rfl⟩
    split
    · exact ⟨_, rfl⟩
    split
    · next hs =>
      have : stringsContains w [47] = false := by
        rw [stringsContains_singleton]
        simp only [List.contains_eq_any_beq, List.any_eq_false, beq_iff_eq]
        exact fun c hc => Ne.symm (hslash c hc)
      rw [this] at hs
      simp at hs
    split
    · next hh =>
      rw [stringsContains_hyphen] at hh
      have hw45 : w = [45] := by simpa [hne] using hh
      subst hw45
      obtain ⟨r, hr⟩ := hconv [] (fun _ h => by simp at h) (fun _ h => by simp at h)
        (by simpa using hlen)
      simp only [titleDelimited, show stringsSplit [45] 45 = [[], []] from rfl,
        titleDelimitedWith, hr]
      exact ⟨_, rfl⟩
    · exact ⟨_, rfl⟩

/-- `Convert` without override returns on a word without a slash, with a depth of calls
above the length of the word. -/
theorem Convert_word_returns (sfl : Bool) : ∀ (depth : Nat) (x : List Nat),
    noSpace x → (∀ c ∈ x, c ≠ 47) → x.length + 1 ≤ depth →
    ∃ r, Convert depth none sfl x = .ok r
  | 0, _, _, _, h => by omega
  | depth + 1, x, hx, hslash, hd => by
    by_cases hne : x = []
    · subst hne
      exact ⟨[], Convert_nil depth none sfl⟩
    · by_cases hshort : byteLen x < maxScanTokenSize
      swap
      · exact ⟨[], Convert_long_line _ _ _ _ (noSpace_no_newline hx) (by omega)⟩
      rw [Convert_line _ _ _ _ (noSpace_no_newline hx) hne hshort, convertLine_dropCR]
      obtain ⟨m, hm⟩ := convertWord_returns (Convert_word_returns sfl depth)
        (stringsToUpper x == x) hx hslash hne (by omega)
      refine ⟨_, (convertLine_ok_iff _ _ _ _ _).2 ⟨[m], ?_, by simp, rfl⟩⟩
      rw [show stringsFields x = [x] from fieldsFrom_word x hne hx, convertWords_ok_iff]
      exact List.Forall₂.cons hm List.Forall₂.nil

/-- `Convert` without override returns on a line with a word and without a slash, with a
depth of calls above the length of the line. -/
theorem Convert_line_returns {sfl : Bool} {line : List Nat} (depth : Nat)
    (hnl : ∀ c ∈ line, c ≠ 10) (hslash : ∀ c ∈ line, c ≠ 47)
    (hwords : stringsFields line ≠ []) (hd : line.length + 1 ≤ depth) :
    ∃ out, Convert depth none sfl line = .ok out := by
  obtain ⟨d, rfl⟩ : ∃ d, depth = d + 1 := ⟨depth - 1, by omega⟩
  by_cases hshort : byteLen line < maxScanTokenSize
  swap
  · exact ⟨[], Convert_long_line _ _ _ _ hnl (by omega)⟩
  rw [Convert_line _ _ _ _ hnl (stringsFields_ne_nil_ne_nil hwords) hshort, convertLine_dropCR]
  obtain ⟨ms, hms, hlen⟩ := @convertWords_returns (Convert d none sfl)
    (stringsToUpper line == line) (stringsFields line) (fun w hw =>
      convertWord_returns (Convert_word_returns sfl d) _
        (mem_stringsFields hw).2.1 (fun c hc => hslash c ((mem_stringsFields hw).2.2 c hc))
        (mem_stringsFields hw).1 (by have := stringsFields_length_le hw; omega))
  refine ⟨_, (convertLine_ok_iff _ _ _ _ _).2 ⟨ms, hms, ?_, rfl⟩⟩
  intro h
  subst h
  simp only [List.length_nil] at hlen
  exact hwords (List.length_eq_zero.1 hlen.symm)

/-! ## Lines on which `Convert` does not return -/

/-- The value of a word with one "/" that no rule before the slash rule takes: the word
is split at "-", its only segment is the word itself, and the value is the result of the
call of `Convert` on the word. -/
theorem convertWord_slash_error (conv : List Nat → Except Fault (List Nat))
    (cb : Option tcCallback) (b : Bool) (w : List Nat) (hw : w = str "a/b" ∨ w = str "A/B")
    (hcb : ∀ f, cb = some f → f w b = []) (e : Fault) (h : conv w = .error e) :
    convertWord conv cb b w = .error e := by
  have h0 : UCInitials w = false := by rcases hw with rfl | rfl <;> decide
  have h1 : AposSecond w = false := by rcases hw with rfl | rfl <;> decide
  have h2 : MacMc w = none := by rcases hw with rfl | rfl <;> decide
  have h3 : InlinePeriod w = false := by rcases hw with rfl | rfl <;> decide
  have h4 : UCElsewhere w = false := by rcases hw with rfl | rfl <;> decide
  have h5 : SmallWords w = false := by rcases hw with rfl | rfl <;> decide
  have h6 : stringsContains w [47] = true := by rcases hw with rfl | rfl <;> decide
  have h7 : stringsContains w [47, 47] = false := by rcases hw with rfl | rfl <;> decide
  have hS : stringsSplit w 45 = [w] := by rcases hw with rfl | rfl <;> decide
  clear hw
  cases cb with
  | none =>
    simp [convertWord, h0, h1, h2, h3, h4, h5, h6, h7, titleDelimited, hS,
      titleDelimitedWith, h]
  | some f =>
    have hf := hcb f rfl
    simp [convertWord, hf, h0, h1, h2, h3, h4, h5, h6, h7, titleDelimited, hS,
      titleDelimitedWith, h]

/-- `Convert` does not return for the words "a/b" and "A/B", with an override that has no
replacement for the word or without override: whatever depth of calls it is given, the
call needs more. -/
theorem slash_word_never_returns (cb : Option tcCallback) (sfl : Bool) (w : List Nat)
    (hw : w = str "a/b" ∨ w = str "A/B") (hcb : ∀ f b, cb = some f → f w b = []) :
    ∀ depth : Nat, Convert depth cb sfl w = .error .stackExhausted := by
  intro depth
  induction depth with
  | zero => rfl
  | succ d ih =>
    have hL : scanLines w = [w] := by rcases hw with rfl | rfl <;> decide
    have hF : stringsFields w = [w] := by rcases hw with rfl | rfl <;> decide
    have key := convertWord_slash_error (Convert d cb sfl) cb (stringsToUpper w == w) w hw
      (fun f hf => hcb f _ hf) _ ih
    simp only [Convert, hL, convertLines, convertLine, hF, convertWords, key]

/-- `Convert` does not return for a line of two words of which the second is "a/b" or
"A/B", when the loop over the words has a value for the first word. -/
theorem slash_line_never_returns (cb : Option tcCallback) (sfl : Bool) (line x w : List Nat)
    (hw : w = str "a/b" ∨ w = str "A/B") (hcb : ∀ f b, cb = some f → f w b = [])
    (hL : scanLines line = [line]) (hF : stringsFields line = [x, w])
    (hx : ∀ conv, ∃ m, convertWord conv cb (stringsToUpper line == line) x = .ok m) :
    ∀ depth : Nat, Convert depth cb sfl line = .error .stackExhausted := by
  intro depth
  cases depth with
  | zero => rfl
  | succ d =>
    obtain ⟨m, hm⟩ := hx (Convert d cb sfl)
    have key := convertWord_slash_error (Convert d cb sfl) cb (stringsToUpper line == line) w hw
      (fun f hf => hcb f _ hf) _ (slash_word_never_returns cb sfl w hw hcb d)
    simp only [Convert, hL, convertLines, convertLine, hF, convertWords, hm, key]

/-- The scan ends at a line whose second word has `maxScanTokenSize` code points or
more: `Convert` returns the empty string. -/
theorem Convert_long_second_word (depth : Nat) (cb : Option tcCallback) (sfl : Bool)
    (p : List Nat) {n c : Nat} (hp : ∀ x ∈ p, x ≠ 10) (hc : c ≠ 10)
    (hn : maxScanTokenSize ≤ n) :
    Convert (depth + 1) cb sfl (p ++ 32 :: repeated n c) = .ok [] := by
  apply Convert_long_line
  · intro x hx
    rcases List.mem_append.1 hx with h | h
    · exact hp x h
    · rcases List.mem_cons.1 h with h | h
      · rw [h]; decide
      · rw [mem_repeated h]; exact hc
  · have h1 := byteLen_le_of_append_right p (32 :: repeated n c)
    have h2 := length_le_byteLen (repeated n c)
    have h3 : (repeated n c).length = n := by simp [repeated]
    rw [byteLen_cons] at h1
    omega

/-! ## Initials on an all-caps line -/

theorem stringsToUpper_repeated (n : Nat) :
    stringsToUpper (repeated n 66) = repeated n 66 := by
  unfold stringsToUpper repeated
  rw [List.map_replicate]
  rfl

theorem stringsToUpper_append (s t : List Nat) :
    stringsToUpper (s ++ t) = stringsToUpper s ++ stringsToUpper t := by
  simp [stringsToUpper]

theorem stringsToUpper_cons (c : Nat) (t : List Nat) :
    stringsToUpper (c :: t) = toUpperRune c :: stringsToUpper t := rfl

/-- C9. A word that matches the all-caps-initials pattern on an all-caps line is not in
the output when the line has 64 KiB or more, or a word with a "/".  For the all-caps line
of "U.S.A" and a word of 65536 letters "B" the scan ends at the line, the error is not
looked at and `Convert` returns the empty string; for the all-caps line "U.S.A A/B" the
call on "A/B" calls itself without end.  The example of the claim holds:
`Convert("U.S.A TEST")` is "U.S.A Test". -/
theorem C9_initials_line_without_output :
    (∀ depth : Nat,
      Convert (depth + 1) none true (str "U.S.A" ++ 32 :: repeated 65536 66) = .ok []) ∧
    (∀ depth : Nat, Convert depth none true (str "U.S.A A/B") = .error .stackExhausted) ∧
    stringsToUpper (str "U.S.A" ++ 32 :: repeated 65536 66) =
      str "U.S.A" ++ 32 :: repeated 65536 66 ∧
    stringsToUpper (str "U.S.A A/B") = str "U.S.A A/B" ∧
    (stringsFields (str "U.S.A" ++ 32 :: repeated 65536 66))[0]? = some (str "U.S.A") ∧
    (stringsFields (str "U.S.A A/B"))[0]? = some (str "U.S.A") ∧
    UCInitials (str "U.S.A") = true ∧ (stringsFields [])[0]? = none ∧
    Convert 1 none true (str "U.S.A TEST") = .ok (str "U.S.A Test") := by
  refine ⟨fun d => Convert_long_second_word d none true _ (by decide) (by decide) (by decide),
    ?_, ?_, by decide, ?_, by decide, by decide, rfl, rfl⟩
  · exact slash_line_never_returns none true _ (str "U.S.A") (str "A/B") (Or.inr rfl)
      (fun _ _ h => by cases h) (by decide) (by decide) (fun _ => ⟨_, rfl⟩)
  · rw [stringsToUpper_append, stringsToUpper_cons, stringsToUpper_repeated]
    have h2 : stringsToUpper (str "U.S.A") = str "U.S.A" := by decide
    have h3 : toUpperRune 32 = 32 := rfl
    rw [h2, h3]
  · rw [stringsFields, fieldsFrom_word_space _ _ (by decide) (by decide),
      List.getElem?_cons_zero]

/-! ## Small words at the beginning and at the end of a line -/

theorem lowerWord_of_smallWord {w : List Nat} (h : w ∈ smallWordList) : lowerWord w := by
  revert w
  rw [smallWordList_eq]
  decide

theorem lowerValue_of_smallWord {w : List Nat} (h : w ∈ smallWordList) : lowerValue w = w := by
  simp [lowerValue, h]

theorem convertWord_smallWord (conv : List Nat → Except Fault (List Nat)) {w : List Nat}
    (h : w ∈ smallWordList) : convertWord conv none false w = .ok (NewMutable w) := by
  have hl := lowerWord_of_smallWord h
  rw [convertWord_lower conv hl.1 hl.2.1 hl.2.2, lowerValue_of_smallWord h]

theorem stringsToUpper_ne_of_lower : ∀ {s : List Nat} {c : Nat}, c ∈ s → isLowerAZ c = true →
    (stringsToUpper s == s) = false
  | [], _, h, _ => by simp at h
  | x :: t, c, h, hc => by
    rw [beq_eq_false_iff_ne]
    intro heq
    simp only [stringsToUpper, List.map_cons, List.cons.injEq] at heq
    rcases List.mem_cons.1 h with h' | h'
    · subst h'
      exact toUpperRune_ne hc heq.1
    · have := stringsToUpper_ne_of_lower h' hc
      rw [beq_eq_false_iff_ne] at this
      exact this heq.2

/-- A line with a small word of the list is not an all-caps line. -/
theorem not_allCaps_of_smallWord {line w : List Nat} (hw : w ∈ stringsFields line)
    (h : w ∈ smallWordList) : (stringsToUpper line == line) = false := by
  have hl := lowerWord_of_smallWord h
  obtain ⟨c, t, rfl⟩ := List.exists_cons_of_ne_nil hl.1
  exact stringsToUpper_ne_of_lower ((mem_stringsFields hw).2.2 c (by simp)) (hl.2.1 c (by simp))

theorem forall₂_snoc_left {α β : Type} {R : α → β → Prop} : ∀ {init : List α} {w : α}
    {ms : List β}, List.Forall₂ R (init ++ [w]) ms →
      ∃ ms0 m, ms = ms0 ++ [m] ∧ List.Forall₂ R init ms0 ∧ R w m
  | [], w, ms, h => by
    cases h with
    | cons h1 h2 =>
      cases h2
      exact ⟨[], _, rfl, List.Forall₂.nil, h1⟩
  | a :: init, w, ms, h => by
    cases h with
    | cons h1 h2 =>
      obtain ⟨ms0, m, rfl, h3, h4⟩ := forall₂_snoc_left h2
      exact ⟨_ :: ms0, m, rfl, List.Forall₂.cons h1 h3, h4⟩

theorem forceLast_snoc : ∀ (l : List Mutagenic) (v : List Nat),
    forceLast (l ++ [Mutagenic.Mutable v]) =
      l ++ [Mutagenic.Mutable (SmallLast_ReplaceAllStringFunc v capitalize)]
  | [], v => rfl
  | [m], v => by cases m <;> rfl
  | m :: m2 :: l, v => by
    have ih := forceLast_snoc (m2 :: l) v
    simp only [List.cons_append] at ih ⊢
    cases m <;> simp only [forceLast, ih]

theorem forceFirst_snoc (ms0 : List Mutagenic) (v : List Nat) :
    ∃ l v', forceFirst (ms0 ++ [Mutagenic.Mutable v]) = l ++ [Mutagenic.Mutable v'] ∧
      l.length = ms0.length ∧
      (v' = v ∨ v' = SmallFirst_ReplaceAllStringFunc v capitalize) := by
  match ms0 with
  | [] => exact ⟨[], _, rfl, rfl, Or.inr rfl⟩
  | .Immutable x :: ms => exact ⟨.Immutable x :: ms, v, rfl, rfl, Or.inl rfl⟩
  | .Mutable x :: ms => exact ⟨_ :: ms, v, rfl, rfl, Or.inl rfl⟩

theorem firstUpper_smallWord_facts {w : List Nat} (h : w ∈ smallWordList) :
    firstUpper w ≠ [] ∧ noSpace (firstUpper w) ∧ (∀ c ∈ firstUpper w, c ≠ 32) ∧
      (∀ a ∈ smallWords, ¬ a <+: firstUpper w) ∧
      SmallLast_ReplaceAllStringFunc (firstUpper w) capitalize = firstUpper w := by
  have hl := lowerWord_of_smallWord h
  obtain ⟨c, t, hx, hc, ht⟩ := firstUpper_shape hl.1 hl.2.1
  have hletters : ∀ x ∈ firstUpper w, isLetterAZ x = true := by
    intro x hxm
    rw [hx] at hxm
    rcases List.mem_cons.1 hxm with h' | h'
    · rw [h']; exact isLetterAZ_of_upper hc
    · exact isLetterAZ_of_lower (ht x h')
  refine ⟨by rw [hx]; simp, noSpace_of_letters hletters, ?_, ?_, SmallLast_firstUpper hl.1 hl.2.1⟩
  · intro x hxm h32
    have := isSpace_of_letter (hletters x hxm)
    rw [h32] at this
    exact absurd this (by decide)
  · intro a ha hpre
    obtain ⟨c', t', rfl, hc'⟩ := smallWords_head ha
    rw [hx, List.cons_prefix_cons] at hpre
    rw [hpre.1, isLowerAZ_of_upper hc] at hc'
    exact absurd hc' (by decide)

theorem smallWord_facts {w : List Nat} (h : w ∈ smallWordList) :
    w ≠ [] ∧ noSpace w ∧ (∀ c ∈ w, c ≠ 32) := by
  have hl := lowerWord_of_smallWord h
  have hletters : ∀ x ∈ w, isLetterAZ x = true := fun x hx => isLetterAZ_of_lower (hl.2.1 x hx)
  refine ⟨hl.1, noSpace_of_letters hletters, ?_⟩
  intro x hxm h32
  have := isSpace_of_letter (hletters x hxm)
  rw [h32] at this
  exact absurd this (by decide)

theorem fieldsFrom_space_word (x : List Nat) (hx : x ≠ []) (hs : noSpace x) :
    ∀ (p cur : List Nat), fieldsFrom cur (p ++ 32 :: x) = fieldsFrom cur p ++ [x]
  | [], cur => by
    rw [List.nil_append, fieldsFrom, fieldsFrom, if_pos (by decide), fieldsFrom_word x hx hs]
    split <;> simp
  | c :: p, cur => by
    have h1 := fieldsFrom_space_word x hx hs p []
    have h2 := fieldsFrom_space_word x hx hs p (cur ++ [c])
    rw [List.cons_append, fieldsFrom, fieldsFrom, h1, h2]
    split
    · split <;> simp
    · rfl

/-- The first field of a text that starts with a word and a space. -/
theorem stringsFields_head {x : List Nat} (hx : x ≠ []) (hs : noSpace x) (t : List Nat) :
    (stringsFields (x ++ 32 :: t)).head? = some x := by
  rw [stringsFields, fieldsFrom_word_space x t hx hs]
  rfl

/-- The last field of a text that ends with a space and a word. -/
theorem stringsFields_getLast {x : List Nat} (hx : x ≠ []) (hs : noSpace x) (p : List Nat) :
    (stringsFields (p ++ 32 :: x)).getLast? = some x := by
  rw [stringsFields, fieldsFrom_space_word x hx hs p []]
  simp

theorem stringsFields_word {x : List Nat} (hx : x ≠ []) (hs : noSpace x) :
    stringsFields x = [x] := fieldsFrom_word x hx hs

theorem stringsJoin_cons (v : List Nat) (vs : List (List Nat)) :
    stringsJoin (v :: vs) [32] = v ∨ ∃ t, stringsJoin (v :: vs) [32] = v ++ 32 :: t := by
  cases vs with
  | nil => exact Or.inl (intercalate_singleton _ _)
  | cons v2 vs =>
    right
    exact ⟨stringsJoin (v2 :: vs) [32], by
      simp only [stringsJoin, intercalate_cons_cons, List.append_assoc, List.singleton_append]⟩

theorem stringsJoin_snoc : ∀ (vs : List (List Nat)) (x : List Nat), vs ≠ [] →
    stringsJoin (vs ++ [x]) [32] = stringsJoin vs [32] ++ 32 :: x
  | [], _, h => absurd rfl h
  | [v], x, _ => by
    simp only [stringsJoin, List.singleton_append, intercalate_cons_cons, intercalate_singleton,
      List.append_assoc]
  | v :: v2 :: vs, x, _ => by
    have ih := stringsJoin_snoc (v2 :: vs) x (by simp)
    simp only [stringsJoin, List.cons_append] at ih ⊢
    rw [intercalate_cons_cons, ih, intercalate_cons_cons]
    simp

/-- The result of a line whose first value is a word that the phrase repair cannot
reach starts with that word. -/
theorem result_head {x : List Nat} (hx : x ≠ []) (hs : noSpace x) (h32 : ∀ c ∈ x, c ≠ 32)
    (vs : List (List Nat)) :
    (stringsFields (SubPhrase_ReplaceAllStringFunc (stringsJoin (x :: vs) [32]) repairPhrase)).head?
      = some x := by
  rcases stringsJoin_cons x vs with h | ⟨t, h⟩
  · rw [h, subPhrase_word x h32, stringsFields_word hx hs]
    rfl
  · rw [h]
    obtain ⟨t', ht'⟩ := subPhrase_head x t h32
    rw [ht', stringsFields_head hx hs]

/-- The result of a line whose last value is a word that the phrase repair cannot reach
ends with that word. -/
theorem result_getLast {x : List Nat} (hx : x ≠ []) (hs : noSpace x) (h32 : ∀ c ∈ x, c ≠ 32)
    (vs : List (List Nat))
    (hp : vs ≠ [] → ∀ b, (stringsJoin vs [32]).getLast? = some b → isPhraseBreak b = true →
      ∀ a ∈ smallWords, ¬ a <+: x) :
    (stringsFields (SubPhrase_ReplaceAllStringFunc (stringsJoin (vs ++ [x]) [32])
      repairPhrase)).getLast? = some x := by
  by_cases hvs : vs = []
  · subst hvs
    rw [List.nil_append, stringsJoin, intercalate_singleton, subPhrase_word x h32,
      stringsFields_word hx hs]
    rfl
  · rw [stringsJoin_snoc vs x hvs]
    obtain ⟨p', hp'⟩ := subPhrase_split x (stringsJoin vs [32]) (hp hvs)
    rw [hp', subPhrase_word x h32, stringsFields_getLast hx hs]

theorem forced_head_smallWord {w : List Nat} (hw : w ∈ smallWordList) (ms : List Mutagenic) :
    ∃ vs, (forceLast (forceFirst (NewMutable w :: ms))).map Mutagenic.String =
      firstUpper w :: vs := by
  have hf : forceFirst (NewMutable w :: ms) = Mutagenic.Mutable (firstUpper w) :: ms := by
    simp only [NewMutable, forceFirst, SmallFirst_smallWord hw]
  rw [hf]
  cases ms with
  | nil =>
    exact ⟨[], by
      simp only [forceLast, NewMutable, (firstUpper_smallWord_facts hw).2.2.2.2, List.map_cons,
        List.map_nil, Mutagenic.String]⟩
  | cons m2 ms =>
    exact ⟨(forceLast (m2 :: ms)).map Mutagenic.String, by
      simp only [forceLast, List.map_cons, Mutagenic.String]⟩

theorem forced_last_smallWord {w : List Nat} (hw : w ∈ smallWordList) (ms0 : List Mutagenic) :
    ∃ vs, (forceLast (forceFirst (ms0 ++ [NewMutable w]))).map Mutagenic.String =
      vs ++ [firstUpper w] := by
  obtain ⟨l, v', hl, -, hv'⟩ := forceFirst_snoc ms0 w
  rw [NewMutable, hl, forceLast_snoc]
  refine ⟨l.map Mutagenic.String, ?_⟩
  have : SmallLast_ReplaceAllStringFunc v' capitalize = firstUpper w := by
    rcases hv' with h | h
    · rw [h, SmallLast_smallWord hw]
    · rw [h, SmallFirst_smallWord hw, (firstUpper_smallWord_facts hw).2.2.2.2]
  simp only [List.map_append, List.map_cons, List.map_nil, Mutagenic.String, this]

theorem mem_smallWords_cases {w : List Nat} (h : w ∈ smallWords) :
    w ∈ smallWordList ∨ w = [118, 46] ∨ w = [118, 115, 46] := by
  revert w
  rw [smallWords_eq, smallWordList_eq]
  decide

/-- An alternative of `smallWords` is not empty, has no white space and has a
lower-case letter. -/
theorem smallWords_facts {w : List Nat} (h : w ∈ smallWords) :
    w ≠ [] ∧ noSpace w ∧ (∀ c ∈ w, c ≠ 32) ∧ ∃ c ∈ w, isLowerAZ c = true := by
  revert w
  rw [smallWords_eq]
  unfold noSpace
  decide

/-- On a line that is not all caps the value of a small word is the word. -/
theorem convertWord_smallWords (conv : List Nat → Except Fault (List Nat)) {w : List Nat}
    (h : w ∈ smallWords) : convertWord conv none false w = .ok (NewMutable w) := by
  rcases mem_smallWords_cases h with h | h | h
  · exact convertWord_smallWord conv h
  · subst h; rfl
  · subst h; rfl

/-- A line with a small word is not an all-caps line. -/
theorem not_allCaps_of_smallWords {line w : List Nat} (hw : w ∈ stringsFields line)
    (h : w ∈ smallWords) : (stringsToUpper line == line) = false := by
  obtain ⟨-, -, -, c, hc, hl⟩ := smallWords_facts h
  exact stringsToUpper_ne_of_lower ((mem_stringsFields hw).2.2 c hc) hl

theorem SmallFirst_smallWords {w : List Nat} (h : w ∈ smallWords) :
    SmallFirst_ReplaceAllStringFunc w capitalize = firstUpper w := by
  rcases mem_smallWords_cases h with h | h | h
  · exact SmallFirst_smallWord h
  · subst h; decide
  · subst h; decide

theorem SmallLast_smallWords {w : List Nat} (h : w ∈ smallWords) :
    SmallLast_ReplaceAllStringFunc w capitalize = firstUpper w := by
  rcases mem_smallWords_cases h with h | h | h
  · exact SmallLast_smallWord h
  · subst h; decide
  · subst h; decide

theorem firstUpper_smallWords_facts {w : List Nat} (h : w ∈ smallWords) :
    firstUpper w ≠ [] ∧ noSpace (firstUpper w) ∧ (∀ c ∈ firstUpper w, c ≠ 32) ∧
      (∀ a ∈ smallWords, ¬ a <+: firstUpper w) ∧
      SmallLast_ReplaceAllStringFunc (firstUpper w) capitalize = firstUpper w := by
  rcases mem_smallWords_cases h with h | h | h
  · exact firstUpper_smallWord_facts h
  · subst h
    refine ⟨by decide, by unfold noSpace; decide, by decide, ?_, by decide⟩
    rw [smallWords_eq]
    decide
  · subst h
    refine ⟨by decide, by unfold noSpace; decide, by decide, ?_, by decide⟩
    rw [smallWords_eq]
    decide

theorem forced_head_smallWords {w : List Nat} (hw : w ∈ smallWords) (ms : List Mutagenic) :
    ∃ vs, (forceLast (forceFirst (NewMutable w :: ms))).map Mutagenic.String =
      firstUpper w :: vs := by
  have hf : forceFirst (NewMutable w :: ms) = Mutagenic.Mutable (firstUpper w) :: ms := by
    simp only [NewMutable, forceFirst, SmallFirst_smallWords hw]
  rw [hf]
  cases ms with
  | nil =>
    exact ⟨[], by
      simp only [forceLast, NewMutable, (firstUpper_smallWords_facts hw).2.2.2.2, List.map_cons,
        List.map_nil, Mutagenic.String]⟩
  | cons m2 ms =>
    exact ⟨(forceLast (m2 :: ms)).map Mutagenic.String, by
      simp only [forceLast, List.map_cons, Mutagenic.String]⟩

theorem forced_last_smallWords {w : List Nat} (hw : w ∈ smallWords) (ms0 : List Mutagenic) :
    ∃ vs, (forceLast (forceFirst (ms0 ++ [NewMutable w]))).map Mutagenic.String =
      vs ++ [firstUpper w] := by
  obtain ⟨l, v', hl, -, hv'⟩ := forceFirst_snoc ms0 w
  rw [NewMutable, hl, forceLast_snoc]
  refine ⟨l.map Mutagenic.String, ?_⟩
  have : SmallLast_ReplaceAllStringFunc v' capitalize = firstUpper w := by
    rcases hv' with h | h
    · rw [h, SmallLast_smallWords hw]
    · rw [h, SmallFirst_smallWords hw, (firstUpper_smallWords_facts hw).2.2.2.2]
  simp only [List.map_append, List.map_cons, List.map_nil, Mutagenic.String, this]

/-- With the default options, on every line below the limit of the scanner on which
`Convert` returns, a small word in lower case in first position is the first word of the
result with its first letter in upper case, and a small word in lower case in last
position is the last word of the result with its first letter in upper case. -/
theorem Convert_small_word_at_boundary (depth : Nat) (line out : List Nat)
    (hnl : ∀ c ∈ line, c ≠ 10) (hshort : byteLen line < maxScanTokenSize)
    (h : Convert depth none true line = .ok out) :
    (∀ (w : List Nat) (rest : List (List Nat)), stringsFields line = w :: rest →
      w ∈ smallWords → (stringsFields out).head? = some (firstUpper w)) ∧
    (∀ (init : List (List Nat)) (w : List Nat), stringsFields line = init ++ [w] →
      w ∈ smallWords → (stringsFields out).getLast? = some (firstUpper w)) := by
  refine ⟨?_, ?_⟩
  · intro w rest hf hw
    have hne : line ≠ [] := by rintro rfl; cases hf
    obtain ⟨d, ms, -, hms, -, rfl⟩ := Convert_line_ok hnl hne hshort h
    rw [not_allCaps_of_smallWords (w := w) (by rw [hf]; simp) hw, hf] at hms
    cases hms with
    | cons hm hrest =>
      rw [convertWord_smallWords _ hw] at hm
      cases hm
      obtain ⟨vs, hvs⟩ := forced_head_smallWords hw _
      simp only [if_true]
      rw [hvs]
      obtain ⟨h1, h2, h3, -, -⟩ := firstUpper_smallWords_facts hw
      exact result_head h1 h2 h3 vs
  · intro init w hf hw
    have hne : line ≠ [] := by
      rintro rfl
      cases init <;> cases hf
    obtain ⟨d, ms, -, hms, -, rfl⟩ := Convert_line_ok hnl hne hshort h
    rw [not_allCaps_of_smallWords (w := w) (by rw [hf]; simp) hw, hf] at hms
    obtain ⟨ms0, m, rfl, -, hm⟩ := forall₂_snoc_left hms
    rw [convertWord_smallWords _ hw] at hm
    cases hm
    obtain ⟨vs, hvs⟩ := forced_last_smallWords hw ms0
    simp only [if_true]
    rw [hvs]
    obtain ⟨h1, h2, h3, h4, -⟩ := firstUpper_smallWords_facts hw
    exact result_getLast h1 h2 h3 vs (fun _ _ _ _ => h4)

/-- C2. A line whose first word is a small word in lower case has no output with that
word capitalized when the line has 64 KiB or more, or a word with a "/".  For the line of
"a" and a word of 65536 letters "b" the scan ends at the line, the error is not looked
at and `Convert` returns the empty string; for the line "a a/b" the call on "a/b" calls
itself without end.  The example of the claim holds:
Convert("a simple test of the") = "A Simple Test of The". -/
theorem C2_small_word_line_without_output :
    (∀ depth : Nat,
      Convert (depth + 1) none true (str "a" ++ 32 :: repeated 65536 98) = .ok []) ∧
    (∀ depth : Nat, Convert depth none true (str "a a/b") = .error .stackExhausted) ∧
    (stringsFields (str "a" ++ 32 :: repeated 65536 98)).head? = some (str "a") ∧
    (stringsFields (str "a a/b")).head? = some (str "a") ∧
    str "a" ∈ smallWords ∧ (stringsFields []).head? = none ∧
    Convert 1 none true (str "a simple test of the") = .ok (str "A Simple Test of The") := by
  refine ⟨fun d => Convert_long_second_word d none true _ (by decide) (by decide) (by decide),
    ?_, stringsFields_head (by decide) (by unfold noSpace; decide) _, by decide, by decide,
    rfl, rfl⟩
  exact slash_line_never_returns none true _ (str "a") (str "a/b") (Or.inl rfl)
    (fun _ _ h => by cases h) (by decide) (by decide) (fun _ => ⟨_, rfl⟩)

theorem forall₂_getLast? {α β : Type} {R : α → β → Prop} {l1 : List α} {l2 : List β}
    (h : List.Forall₂ R l1 l2) : ∀ (a : α), l1.getLast? = some a →
      ∃ b, l2.getLast? = some b ∧ R a b := by
  induction h with
  | nil => intro a h; simp at h
  | @cons x y l1' l2' hxy htl ih =>
    intro a ha
    cases htl with
    | nil =>
      simp only [List.getLast?_singleton, Option.some.injEq] at ha
      subst ha
      exact ⟨y, by simp, hxy⟩
    | cons h1 h2 =>
      rw [List.getLast?_cons_cons] at ha
      obtain ⟨b, hb, hr⟩ := ih a ha
      exact ⟨b, by rw [List.getLast?_cons_cons]; exact hb, hr⟩

theorem stringsJoin_getLast? : ∀ (vs : List (List Nat)) (v : List Nat), vs.getLast? = some v →
    v ≠ [] → (stringsJoin vs [32]).getLast? = v.getLast?
  | [], _, h, _ => by simp at h
  | [x], v, h, _ => by
    simp only [List.getLast?_singleton, Option.some.injEq] at h
    rw [stringsJoin, intercalate_singleton, h]
  | x :: x2 :: vs, v, h, hv => by
    rw [List.getLast?_cons_cons] at h
    have ih := stringsJoin_getLast? (x2 :: vs) v h hv
    simp only [stringsJoin] at ih ⊢
    rw [intercalate_cons_cons, List.getLast?_append, ih]
    obtain ⟨ys, b, rfl⟩ : ∃ ys b, v = ys ++ [b] := by
      rcases List.eq_nil_or_concat v with h' | ⟨ys, b, h'⟩
      · exact absurd h' hv
      · exact ⟨ys, b, by simpa using h'⟩
    simp

/-- The phrase breaks are punctuation. -/
theorem isPunct_of_isPhraseBreak {c : Nat} (h : isPhraseBreak c = true) : isPunct c = true := by
  have hall : ∀ p ∈ str ":.;?!-–‒—―", p ∈ punctuation := by decide
  rw [isPunct_iff]
  exact hall c (List.elem_iff.1 h)

theorem isPhraseBreak_of_not_marked {c : Nat} (h : c ∉ markedPoints) :
    isPhraseBreak c = false := by
  cases hb : isPhraseBreak c with
  | false => rfl
  | true =>
    have := isPunct_of_isPhraseBreak hb
    rw [(not_marked h).2] at this
    cases this

theorem isPhraseBreak_toLowerRune (c : Nat) : isPhraseBreak (toLowerRune c) = isPhraseBreak c := by
  rcases toLowerRune_facts c with h | ⟨hu, h⟩ | ⟨-, h1, h2, -⟩
  · rw [h]
  · have h1 := isPhraseBreak_of_letter (isLetterAZ_of_upper hu)
    have h2 : isPhraseBreak (c + 32) = false := by
      apply isPhraseBreak_of_letter
      rw [isUpperAZ_iff] at hu
      rw [isLetterAZ_iff]; omega
    rw [h, h1, h2]
  · rw [isPhraseBreak_of_not_marked h1, isPhraseBreak_of_not_marked h2]

/-- A text that is kept ends in a phrase break only when the word does. -/
theorem wordKept_phraseBreak {x r : List Nat} {b c : Nat} (h : wordKept x r)
    (hb : r.getLast? = some b) (hc : x.getLast? = some c) :
    isPhraseBreak b = isPhraseBreak c := by
  have := h.2
  simp only [lastLower, hb, hc, Option.map_some', Option.some.injEq] at this
  rw [← isPhraseBreak_toLowerRune b, this, isPhraseBreak_toLowerRune]

/-- C7, as amended. With the boundary pass disabled and no override, for every line of
less than 65536 bytes: `Convert` returns when the line has a word and no "/" and the
depth of calls is above the length of the line; and in every result a small word in lower
case in the first position is the first word of the result unchanged, and a small word in
lower case in the last position is the last word of the result unchanged when the word
before it does not end in a phrase break (one of `: . ; ? ! -` and the dashes); for
instance Convert("the who", false) = "the Who". -/
theorem C7_small_word_without_forcing (depth : Nat) (line : List Nat)
    (hnl : ∀ c ∈ line, c ≠ 10) (hshort : byteLen line < maxScanTokenSize) :
    ((∀ c ∈ line, c ≠ 47) → stringsFields line ≠ [] → line.length + 1 ≤ depth →
      ∃ out, Convert depth none false line = .ok out) ∧
    (∀ out, Convert depth none false line = .ok out →
      (∀ (w : List Nat) (rest : List (List Nat)), stringsFields line = w :: rest →
        w ∈ smallWords → (stringsFields out).head? = some w) ∧
      (∀ (init : List (List Nat)) (w : List Nat), stringsFields line = init ++ [w] →
        w ∈ smallWords →
        (∀ (p : List Nat) (c : Nat), init.getLast? = some p → p.getLast? = some c →
          isPhraseBreak c = false) →
        (stringsFields out).getLast? = some w)) ∧
    Convert 1 none false (str "the who") = .ok (str "the Who") := by
  refine ⟨fun hslash hwords hd => Convert_line_returns depth hnl hslash hwords hd, ?_, rfl⟩
  intro out h
  refine ⟨?_, ?_⟩
  · intro w rest hf hw
    have hne : line ≠ [] := by rintro rfl; cases hf
    obtain ⟨d, ms, -, hms, -, rfl⟩ := Convert_line_ok hnl hne hshort h
    rw [not_allCaps_of_smallWords (w := w) (by rw [hf]; simp) hw, hf] at hms
    cases hms with
    | cons hm hrest =>
      rw [convertWord_smallWords _ hw] at hm
      cases hm
      simp only [Bool.false_eq_true, if_false, List.map_cons, NewMutable, Mutagenic.String]
      obtain ⟨h1, h2, h3, -⟩ := smallWords_facts hw
      exact result_head h1 h2 h3 _
  · intro init w hf hw hprev
    have hne : line ≠ [] := by
      rintro rfl
      cases init <;> cases hf
    obtain ⟨d, ms, -, hms, -, rfl⟩ := Convert_line_ok hnl hne hshort h
    have hfields : ∀ x ∈ init, x ≠ [] ∧ noSpace x ∧ byteLen x < maxScanTokenSize := by
      intro x hx
      have : x ∈ stringsFields line := by rw [hf]; simp [hx]
      exact ⟨(mem_stringsFields this).1, (mem_stringsFields this).2.1,
        Nat.lt_of_le_of_lt (mem_stringsFields_byteLen this) hshort⟩
    rw [not_allCaps_of_smallWords (w := w) (by rw [hf]; simp) hw, hf] at hms
    obtain ⟨ms0, m, rfl, hms0, hm⟩ := forall₂_snoc_left hms
    rw [convertWord_smallWords _ hw] at hm
    cases hm
    simp only [Bool.false_eq_true, if_false, List.map_append, List.map_cons, List.map_nil,
      NewMutable, Mutagenic.String]
    obtain ⟨h1, h2, h3, -⟩ := smallWords_facts hw
    apply result_getLast h1 h2 h3
    intro hvs b hb hbreak
    exfalso
    have hk := values_wordKept (fun x hx => (hfields x hx).2) hms0
    simp only [Bool.false_eq_true, if_false] at hk
    obtain ⟨v, hv⟩ : ∃ v, (ms0.map Mutagenic.String).getLast? = some v := by
      cases hl : (ms0.map Mutagenic.String).getLast? with
      | none => exact absurd (List.getLast?_eq_none_iff.1 hl) hvs
      | some v => exact ⟨v, rfl⟩
    rw [List.getLast?_map] at hv
    obtain ⟨m0, hm0, hm0v⟩ := Option.map_eq_some'.1 hv
    obtain ⟨p, hp, hpm⟩ := forall₂_getLast? hk.flip m0 hm0
    have hpne : p ≠ [] := (hfields p (List.mem_of_getLast?_eq_some hp)).1
    have hvne : v ≠ [] := by
      rw [← hm0v]
      exact fun h' => hpne ((wordKept_nil_iff hpm).1 h')
    obtain ⟨c, hc⟩ : ∃ c, p.getLast? = some c := by
      cases hl : p.getLast? with
      | none => exact absurd (List.getLast?_eq_none_iff.1 hl) hpne
      | some c => exact ⟨c, rfl⟩
    rw [stringsJoin_getLast? _ v (by rw [List.getLast?_map, hm0, Option.map_some', hm0v]) hvne,
      ← hm0v] at hb
    have := wordKept_phraseBreak hpm hb hc
    rw [hbreak, hprev p c hp hc] at this
    exact absurd this (by decide)

/-- The hypotheses of C7, as amended, hold for the line "the who and the". -/
theorem C7_small_word_without_forcing_witness :
    (∃ out, Convert 16 none false (str "the who and the") = .ok out) ∧
    (stringsFields (str "the Who and the")).head? = some (str "the") ∧
    (stringsFields (str "the Who and the")).getLast? = some (str "the") :=
  ⟨(C7_small_word_without_forcing 16 (str "the who and the") (by decide) (by decide)).1
      (by decide) (by decide) (by decide),
   ((C7_small_word_without_forcing 1 (str "the who and the") (by decide) (by decide)).2.1
      (str "the Who and the") rfl).1 (str "the") [str "who", str "and", str "the"]
      (by decide) (by decide),
   ((C7_small_word_without_forcing 1 (str "the who and the") (by decide) (by decide)).2.1
      (str "the Who and the") rfl).2 [str "the", str "who", str "and"] (str "the")
      (by decide) (by decide)
      (by
        intro p c hp hc
        have h1 : [str "the", str "who", str "and"].getLast? = some (str "and") := rfl
        rw [h1] at hp
        cases hp
        have h2 : (str "and").getLast? = some 100 := rfl
        rw [h2] at hc
        cases hc
        decide)⟩

/-- C7 as stated fails: with the boundary pass disabled the small word "the" at the end
of "x: the" does not stay in lower case, the phrase repair capitalizes it. -/
theorem C7_counterexample :
    Convert 1 none false (str "x: the") = .ok (str "X: The") ∧
    (stringsFields (str "x: the")).getLast? = some (str "the") ∧
    str "the" ∈ smallWords ∧
    (stringsFields (str "X: The")).getLast? ≠ some (str "the") := by
  refine ⟨rfl, by decide, by decide, by decide⟩

/-! ## Lines of ordinary words -/

theorem ucInitialsGroups_of_no_period : ∀ (w : List Nat), (∀ c ∈ w, c ≠ 46) →
    ucInitialsGroups w = false
  | [], _ => rfl
  | [_], _ => rfl
  | [x, d], h => by
    have hd : (d == 46) = false := by simpa using h d (by simp)
    simp [ucInitialsGroups, hd]
  | x :: d :: y :: t, h => by
    have hd : (d == 46) = false := by simpa using h d (by simp)
    simp [ucInitialsGroups, hd]

theorem letter_ne {c : Nat} (h : isLetterAZ c = true) : c ≠ 46 ∧ c ≠ 47 ∧ c ≠ 45 ∧ c ≠ 10 := by
  rw [isLetterAZ_iff] at h
  omega

theorem stringsToLower_cons (c : Nat) (t : List Nat) :
    stringsToLower (c :: t) = toLowerRune c :: stringsToLower t := rfl

theorem toLowerRune_lt {c : Nat} (h : c < 128) : toLowerRune c < 128 := by
  rw [toLowerRune_ascii h]
  split
  · next hu => rw [isUpperAZ_iff] at hu; omega
  · exact h

theorem toUpperRune_lt {c : Nat} (h : c < 128) : toUpperRune c < 128 := by
  rw [toUpperRune_ascii h]
  split <;> omega

theorem isLetterAZ_toLowerRune {c : Nat} (h : isLetterAZ c = true) :
    isLetterAZ (toLowerRune c) = true := by
  rw [toLowerRune_ascii (lt_of_isLetterAZ h)]
  split
  · next hu => rw [isUpperAZ_iff] at hu; rw [isLetterAZ_iff]; omega
  · exact h

/-- The value of an ordinary word: the rules that apply to it are the Mc rule, the rule
for a capital inside the word, the small words and the default rule. -/
theorem convertWord_letters (conv : List Nat → Except Fault (List Nat)) (b : Bool)
    {w : List Nat} (hw : letterWord w) :
    convertWord conv none b w =
      match MacMc w with
      | some (m1, m2) =>
        (match conv m2 with
         | .error e => .error e
         | .ok r => .ok (NewMutable (capitalize m1 ++ r)))
      | none =>
        if (!b && UCElsewhere w) = true then .ok (NewMutable w)
        else if SmallWords w = true then .ok (NewMutable (stringsToLower w))
        else .ok (NewMutable (firstUpper (if b then stringsToLower w else w))) := by
  have h0 : UCInitials w = false :=
    ucInitialsGroups_of_no_period w (fun c hc => (letter_ne (hw.2 c hc)).1)
  have h1 := AposSecond_of_letters hw.2
  have h3 : InlinePeriod w = false :=
    InlinePeriod_of_no_period (fun c hc => (letter_ne (hw.2 c hc)).1)
  have h6 : stringsContains w [47] = false := by
    rw [stringsContains_singleton]
    simp only [List.contains_eq_any_beq, List.any_eq_false, beq_iff_eq]
    exact fun c hc => Ne.symm (letter_ne (hw.2 c hc)).2.1
  obtain ⟨c, t, rfl⟩ := List.exists_cons_of_ne_nil hw.1
  have h7 : stringsContains [45] (c :: t) = false := by
    rw [stringsContains_hyphen]
    have := (letter_ne (hw.2 c (by simp))).2.2.1
    simp [this]
  have h8 := CapFirst_of_letter (t := t) (hw.2 c (by simp))
  have h9 := CapFirst_of_letter (t := stringsToLower t) (isLetterAZ_toLowerRune (hw.2 c (by simp)))
  unfold convertWord
  simp only [Bool.false_eq_true, if_false, h0, Bool.and_false, h1, h3, Bool.false_or, h6,
    Bool.false_and, h7]
  cases MacMc (c :: t) with
  | some p => rfl
  | none =>
    simp only
    split
    · rfl
    · split
      · rfl
      · cases b
        · simp only [Bool.false_eq_true, if_false, h8]
        · simp only [if_true, stringsToLower_cons, h9]

theorem capitalize_mc {m1 : List Nat} (h : m1 = [109, 99] ∨ m1 = [77, 99] ∨ m1 = [77, 67]) :
    capitalize m1 = [77, 99] := by
  rcases h with h | h | h <;> subst h <;> decide

theorem smallWordList_lower {w : List Nat} (h : w ∈ smallWordList) :
    ∀ c ∈ w, isLowerAZ c = true := (lowerWord_of_smallWord h).2.1

theorem not_smallWord_of_head {c : Nat} {t : List Nat} (h : isLowerAZ c = false) :
    c :: t ∉ smallWordList := by
  intro hs
  have := smallWordList_lower hs c (by simp)
  rw [h] at this
  exact absurd this (by decide)

theorem matchSmall_boundaryAfter_letters {v : List Nat} (hv : ∀ c ∈ v, isLetterAZ c = true)
    (hs : v ∉ smallWordList) : matchSmall boundaryAfter v = none := by
  cases h : matchSmall boundaryAfter v with
  | none => rfl
  | some a =>
    exfalso
    obtain ⟨ha, ⟨rest, hr⟩, hk⟩ := matchSmall_some h
    subst hr
    rw [List.drop_left] at hk
    have hal : ∀ c ∈ a, isLetterAZ c = true := fun c hc => hv c (by simp [hc])
    obtain ⟨c0, t0, rfl, -⟩ := smallWords_head ha
    cases rest with
    | nil =>
      rw [List.append_nil] at hs
      exact hs ((mem_smallWords_of_letters hal).1 ha)
    | cons r rest =>
      obtain ⟨l, hl⟩ : ∃ l, (c0 :: t0).getLast? = some l := ⟨_, List.getLast?_eq_getLast _ (by simp)⟩
      have hlw := isWordChar_of_letter (hal l (List.mem_of_getLast?_eq_some hl))
      have hrw := isWordChar_of_letter (hv r (by simp))
      rw [boundaryAfter, hl, List.head?_cons, wordBoundary_of_word hlw hrw] at hk
      exact absurd hk (by decide)

theorem matchSmall_punctThenEnd_letters {v : List Nat} (hv : ∀ c ∈ v, isLetterAZ c = true)
    (hs : v ∉ smallWordList) : matchSmall punctThenEnd v = none := by
  cases h : matchSmall punctThenEnd v with
  | none => rfl
  | some a =>
    exfalso
    obtain ⟨ha, ⟨rest, hr⟩, hk⟩ := matchSmall_some h
    subst hr
    rw [List.drop_left] at hk
    have hal : ∀ c ∈ a, isLetterAZ c = true := fun c hc => hv c (by simp [hc])
    match rest with
    | [] =>
      rw [List.append_nil] at hs
      exact hs ((mem_smallWords_of_letters hal).1 ha)
    | [p] =>
      simp only [punctThenEnd] at hk
      rw [isPunct_of_letter (hv p (by simp))] at hk
      exact absurd hk (by decide)
    | _ :: _ :: _ => simp [punctThenEnd] at hk

/-- On a value of letters `SmallFirst` capitalizes a small word and nothing else. -/
theorem SmallFirst_letters {v : List Nat} (hv : ∀ c ∈ v, isLetterAZ c = true) :
    SmallFirst_ReplaceAllStringFunc v capitalize = capSmall v := by
  unfold capSmall
  split
  · next hs => exact SmallFirst_smallWord hs
  · next hs =>
    cases v with
    | nil => rfl
    | cons c t =>
      simp [SmallFirst_ReplaceAllStringFunc, smallFirstMatch, isPunct_of_letter (hv c (by simp)),
        matchSmall_boundaryAfter_letters hv hs]

/-- On a value of letters `SmallLast` capitalizes a small word and nothing else. -/
theorem SmallLast_letters {v : List Nat} (hv : ∀ c ∈ v, isLetterAZ c = true) :
    SmallLast_ReplaceAllStringFunc v capitalize = capSmall v := by
  unfold capSmall
  split
  · next hs => exact SmallLast_smallWord hs
  · next hs =>
    cases v with
    | nil => rfl
    | cons c t =>
      simp [SmallLast_ReplaceAllStringFunc, smallLastFrom, matchSmall_punctThenEnd_letters hv hs,
        smallLastFrom_of_word capitalize t c (isWordChar_of_letter (hv c (by simp)))
          (fun x hx => isWordChar_of_letter (hv x (by simp [hx])))]

/-- An ASCII text is an all-caps line exactly when it has no lower-case letter. -/
theorem allCaps_iff (s : List Nat) (hs : ∀ c ∈ s, c < 128) :
    (stringsToUpper s == s) = true ↔ ∀ c ∈ s, isLowerAZ c = false := by
  induction s with
  | nil => simp [stringsToUpper]
  | cons c t ih =>
    have ih := ih (fun x hx => hs x (by simp [hx]))
    simp only [stringsToUpper, List.map_cons, beq_iff_eq, List.cons.injEq, List.mem_cons,
      forall_eq_or_imp] at ih ⊢
    constructor
    · rintro ⟨h1, h2⟩
      refine ⟨?_, ih.1 h2⟩
      by_contra hl
      exact toUpperRune_ne (by simpa using hl) h1
    · rintro ⟨h1, h2⟩
      exact ⟨toUpperRune_of_not_lower (hs c (by simp)) h1, ih.2 h2⟩

/-- An all-caps line has no lower-case ASCII letter. -/
theorem allCaps_no_lower : ∀ (s : List Nat), (stringsToUpper s == s) = true →
    ∀ c ∈ s, isLowerAZ c = false
  | [], _ => by simp
  | c :: t, h => by
    simp only [stringsToUpper, List.map_cons, beq_iff_eq, List.cons.injEq] at h
    have ih := allCaps_no_lower t (by simpa [stringsToUpper] using h.2)
    intro x hx
    rcases List.mem_cons.1 hx with hx | hx
    · subst hx
      by_contra hl
      exact toUpperRune_ne (by simpa using hl) h.1
    · exact ih x hx

theorem isLetterAZ_toLowerAZ (c : Nat) : isLetterAZ (toLowerAZ c) = isLetterAZ c := by
  unfold toLowerAZ
  split
  · next hu =>
    rw [isLetterAZ_of_upper hu]
    rw [isUpperAZ_iff] at hu
    rw [isLetterAZ_iff]; omega
  · rfl

theorem letters_of_sameLetters {s t : List Nat} (h : sameLetters s t)
    (ht : ∀ c ∈ t, isLetterAZ c = true) : ∀ c ∈ s, isLetterAZ c = true := by
  intro c hc
  have : toLowerAZ c ∈ s.map toLowerAZ := List.mem_map_of_mem _ hc
  rw [show s.map toLowerAZ = t.map toLowerAZ from h] at this
  obtain ⟨x, hx, hx'⟩ := List.mem_map.1 this
  rw [← isLetterAZ_toLowerAZ c, ← hx', isLetterAZ_toLowerAZ]
  exact ht x hx

theorem letterWord_of_sameLetters {s t : List Nat} (h : sameLetters s t) (ht : letterWord t) :
    letterWord s :=
  ⟨fun hs => ht.1 ((sameLetters_nil_iff h).1 hs), letters_of_sameLetters h ht.2⟩

theorem firstUpper_sameLetters (s : List Nat) (hs : ∀ c ∈ s, c < 128 ∨ isPunct c = true) :
    sameLetters (firstUpper s) s := by
  cases s with
  | nil => rfl
  | cons c t =>
    exact sameLetters_cons (toLowerAZ_toUpperRune (hs c (by simp))) (sameLetters_refl t)

theorem isLowerAZ_toUpperRune (c : Nat) : isLowerAZ (toUpperRune c) = false := by
  rcases toUpperRune_facts c with h | ⟨hl, h⟩ | ⟨-, -, -, h⟩
  · cases hl : isLowerAZ c with
    | false => rw [h, hl]
    | true => exact absurd h (toUpperRune_ne hl)
  · rw [h]
    rw [isLowerAZ_iff] at hl; rw [Bool.eq_false_iff, Ne, isLowerAZ_iff]; omega
  · exact h

theorem isUpperAZ_toLowerRune (c : Nat) : isUpperAZ (toLowerRune c) = false := by
  rcases toLowerRune_facts c with h | ⟨hu, h⟩ | ⟨-, -, -, h, -⟩
  · cases hu : isUpperAZ c with
    | false => rw [h, hu]
    | true =>
      rw [toLowerRune_of_upper hu] at h
      omega
  · rw [h]
    rw [isUpperAZ_iff] at hu; rw [Bool.eq_false_iff, Ne, isUpperAZ_iff]; omega
  · exact h

theorem MacMc_length {w m1 m2 : List Nat} (h : MacMc w = some (m1, m2)) : 2 ≤ m2.length := by
  match w with
  | [] => simp [MacMc] at h
  | [_] => simp [MacMc] at h
  | [_, _] => simp [MacMc] at h
  | [_, _, _] => simp [MacMc] at h
  | a :: b :: c :: d :: t =>
    rw [MacMc] at h
    split at h
    · simp only [Option.some.injEq, Prod.mk.injEq] at h
      rw [← h.2]; simp
    · simp at h

theorem MacMc_mc {r : List Nat} (hr : ∀ c ∈ r, isLetterAZ c = true) (hlen : 2 ≤ r.length) :
    MacMc (77 :: 99 :: r) = some ([77, 99], r) := by
  match r with
  | [] => simp at hlen
  | [_] => simp at hlen
  | c :: d :: t =>
    have hc := isWordChar_of_letter (hr c (by simp))
    have hd : (d != 10) = true := by simpa using (letter_ne (hr d (by simp))).2.2.2
    have ht : t.takeWhile (fun x => x != 10) = t := by
      rw [List.takeWhile_eq_self_iff]
      intro x hx
      simpa using (letter_ne (hr x (by simp [hx]))).2.2.2
    simp [MacMc, hc, hd, ht]

theorem lettersThenUpper_of_tail : ∀ (c : Nat) (t : List Nat), (∀ x ∈ t, isUpperAZ x = false) →
    lettersThenUpper (c :: t) = false
  | _, [], _ => rfl
  | c, b :: t, h => by
    have ih := lettersThenUpper_of_tail b t (fun x hx => h x (by simp [hx]))
    simp [lettersThenUpper, h b (by simp), ih]

theorem ucElsewhereHere_of_tail : ∀ (c : Nat) (t : List Nat), (∀ x ∈ t, isUpperAZ x = false) →
    ucElsewhereHere (c :: t) = false
  | c, [], _ => by simp [ucElsewhereHere, lettersThenUpper]
  | c, b :: t, h => by
    have ih := ucElsewhereHere_of_tail b t (fun x hx => h x (by simp [hx]))
    rw [ucElsewhereHere, lettersThenUpper_of_tail c (b :: t) h, ih]
    simp

/-- `UCElsewhere` needs an upper-case letter behind the first code point. -/
theorem UCElsewhere_of_tail : ∀ (c : Nat) (t : List Nat), (∀ x ∈ t, isUpperAZ x = false) →
    UCElsewhere (c :: t) = false
  | c, [], _ => by simp [UCElsewhere, ucElsewhereHere, lettersThenUpper]
  | c, b :: t, h => by
    have ih := UCElsewhere_of_tail b t (fun x hx => h x (by simp [hx]))
    rw [UCElsewhere, ucElsewhereHere_of_tail c (b :: t) h, ih]
    rfl

/-- In a word of letters that `UCElsewhere` does not match, only the first letter can be
in upper case. -/
theorem tail_of_UCElsewhere_false : ∀ (c : Nat) (t : List Nat),
    (∀ x ∈ c :: t, isLetterAZ x = true) → UCElsewhere (c :: t) = false →
    ∀ x ∈ t, isUpperAZ x = false
  | _, [], _, _ => by simp
  | c, b :: t, hl, h => by
    rw [UCElsewhere, Bool.or_eq_false_iff] at h
    obtain ⟨h1, h2⟩ := h
    rw [ucElsewhereHere, Bool.or_eq_false_iff] at h1
    have h3 := h1.1
    rw [lettersThenUpper, hl c (by simp), Bool.true_and, Bool.or_eq_false_iff] at h3
    have ih := tail_of_UCElsewhere_false b t (fun x hx => hl x (by simp [hx])) h2
    intro x hx
    rcases List.mem_cons.1 hx with rfl | hx
    · exact h3.1
    · exact ih x hx

theorem firstUpper_smallWord_stable (conv : List Nat → Except Fault (List Nat)) (b2 : Bool)
    {w : List Nat} (h : w ∈ smallWordList) :
    convertWord conv none b2 (firstUpper w) = .ok (NewMutable (firstUpper w)) := by
  rw [smallWordList_eq] at h
  simp only [List.mem_cons, List.mem_singleton, List.not_mem_nil, or_false] at h
  rcases h with h | h | h | h | h | h | h | h | h | h | h | h | h | h | h | h | h | h | h | h <;>
    subst h <;> cases b2 <;> rfl

theorem toUpperRune_toUpperRune {c : Nat} (hc : c < 128) :
    toUpperRune (toUpperRune c) = toUpperRune c :=
  toUpperRune_of_not_lower (toUpperRune_lt hc) (isLowerAZ_toUpperRune c)

theorem toUpperRune_toLowerRune_toUpperRune {c : Nat} (hc : c < 128) :
    toUpperRune (toLowerRune (toUpperRune c)) = toUpperRune c := by
  by_cases hl : isLowerAZ c = true
  · have h1 : isUpperAZ (c - 32) = true := by
      rw [isLowerAZ_iff] at hl; rw [isUpperAZ_iff]; omega
    have h2 : isLowerAZ (c - 32 + 32) = true := by
      rw [isLowerAZ_iff] at hl ⊢; omega
    rw [toUpperRune_of_lower hl, toLowerRune_of_upper h1, toUpperRune_of_lower h2]
    omega
  · have hl' : isLowerAZ c = false := by simpa using hl
    rw [toUpperRune_of_not_lower hc hl']
    by_cases hu : isUpperAZ c = true
    · have h2 : isLowerAZ (c + 32) = true := by
        rw [isUpperAZ_iff] at hu; rw [isLowerAZ_iff]; omega
      rw [toLowerRune_of_upper hu, toUpperRune_of_lower h2]
      omega
    · rw [toLowerRune_of_not_upper hc (by simpa using hu), toUpperRune_of_not_lower hc hl']

/-- The Mc rule does not apply to the value that the default rule gives to a word to
which the Mc rule does not apply. -/
theorem MacMc_default_value {b : Bool} {w : List Nat} (hw : ∀ c ∈ w, isLetterAZ c = true)
    (hMc : MacMc w = none) (hb : b = true → ∀ c ∈ w, isLowerAZ c = false)
    (ht : b = false → ∀ c t, w = c :: t → ∀ x ∈ t, isUpperAZ x = false) :
    MacMc (firstUpper (if b then stringsToLower w else w)) = none := by
  match w with
  | [] => cases b <;> rfl
  | [_] => cases b <;> rfl
  | [_, _] => cases b <;> rfl
  | [_, _, _] => cases b <;> rfl
  | a :: b' :: c :: d :: t =>
    have hc := isWordChar_of_letter (hw c (by simp))
    have hd : (d != 10) = true := by simpa using (letter_ne (hw d (by simp))).2.2.2
    have ha := hw a (by simp)
    have hb' := hw b' (by simp)
    rw [isLetterAZ_iff] at ha hb'
    simp only [MacMc, hc, hd, Bool.and_true, ite_eq_right_iff, reduceCtorEq, imp_false,
      Bool.not_eq_true, Bool.or_eq_false_iff, Bool.and_eq_false_iff, beq_eq_false_iff_ne,
      ne_eq] at hMc
    cases b with
    | false =>
      have hb2 := ht rfl a _ rfl b' (by simp)
      rw [Bool.eq_false_iff, Ne, isUpperAZ_iff] at hb2
      have hc' := isWordChar_of_letter (hw c (by simp))
      simp only [Bool.false_eq_true, if_false, firstUpper, MacMc, hc', hd, Bool.and_true,
        ite_eq_right_iff, reduceCtorEq, imp_false, Bool.not_eq_true, Bool.or_eq_false_iff,
        Bool.and_eq_false_iff, beq_eq_false_iff_ne, ne_eq,
        toUpperRune_ascii (show a < 128 by omega), isLowerAZ]
      split <;> omega
    | true =>
      have h1 := hb rfl a (by simp)
      have h2 := hb rfl b' (by simp)
      rw [Bool.eq_false_iff, Ne, isLowerAZ_iff] at h1 h2
      have hc' : isWordChar (toLowerRune c) = true :=
        isWordChar_of_letter (isLetterAZ_toLowerRune (hw c (by simp)))
      have hd' : (toLowerRune d != 10) = true := by
        simpa using (letter_ne (isLetterAZ_toLowerRune (hw d (by simp)))).2.2.2
      have hau : isUpperAZ a = true := by rw [isUpperAZ_iff]; omega
      have hbu : isUpperAZ b' = true := by rw [isUpperAZ_iff]; omega
      have hal : isLowerAZ (a + 32) = true := by rw [isLowerAZ_iff]; omega
      simp only [if_true, stringsToLower, List.map_cons, firstUpper, MacMc, hc', hd',
        Bool.and_true, ite_eq_right_iff, reduceCtorEq, imp_false, Bool.not_eq_true,
        Bool.or_eq_false_iff, Bool.and_eq_false_iff, beq_eq_false_iff_ne, ne_eq,
        toLowerRune_of_upper hau, toLowerRune_of_upper hbu, toUpperRune_of_lower hal]
      omega

theorem capSmall_of_head {c : Nat} {t : List Nat} (h : isLowerAZ c = false) :
    capSmall (c :: t) = c :: t := by
  simp [capSmall, not_smallWord_of_head h]

theorem UCElsewhere_smallWord {w : List Nat} (h : w ∈ smallWordList) : UCElsewhere w = false :=
  UCElsewhere_of_no_upper (fun c hc => isUpperAZ_of_lower (smallWordList_lower h c hc))

theorem SmallWords_of_head {c : Nat} {t : List Nat} (h : isLowerAZ c = false) :
    SmallWords (c :: t) = false := by
  unfold SmallWords
  rw [matchSmall_none_of_head h]
  rfl

/-- The value of an ordinary word, and that value after the boundary pass, is its own
value on a second call.  `b` and `b2` tell whether the line of the first call and the
line of the second call are all-caps lines. -/
theorem value_stable {conv : List Nat → Except Fault (List Nat)}
    (hconv : ∀ x r, letterWord x → x.length < maxScanTokenSize → conv x = .ok r →
      conv r = .ok r ∧ sameLetters r x)
    {b b2 : Bool} {w o : List Nat} {m : Mutagenic} (hw : letterWord w)
    (hshort : w.length < maxScanTokenSize)
    (hb : b = true → ∀ c ∈ w, isLowerAZ c = false)
    (hm : convertWord conv none b w = .ok m)
    (ho : o = m.String ∨ o = capSmall m.String)
    (h1 : b2 = true → ∀ c ∈ o, isLowerAZ c = false)
    (hK : b = false → MacMc w = none → UCElsewhere w = true → b2 = false) :
    convertWord conv none b2 o = .ok (NewMutable o) ∧ sameLetters o w := by
  rw [convertWord_letters conv b hw] at hm
  cases hMc : MacMc w with
  | some p =>
    obtain ⟨m1, m2⟩ := p
    rw [hMc] at hm
    simp only at hm
    cases hc : conv m2 with
    | error e => rw [hc] at hm; cases hm
    | ok r =>
      rw [hc] at hm
      simp only [Except.ok.injEq] at hm
      subst hm
      obtain ⟨hw12, -, hm2, hm1, hm1'⟩ := MacMc_some hMc (fun c hc => (letter_ne (hw.2 c hc)).2.2.2)
      have hlen := MacMc_length hMc
      have hm2l : letterWord m2 := ⟨hm2, fun c hc => hw.2 c (by rw [hw12]; simp [hc])⟩
      obtain ⟨hrr, hrs⟩ := hconv m2 r hm2l (by
        rw [hw12, List.length_append] at hshort; omega) hc
      have hrl := letterWord_of_sameLetters hrs hm2l
      have hsame : sameLetters (capitalize m1 ++ r) w := by
        rw [hw12]
        exact sameLetters_append (capitalize_sameLetters m1
          (fun c hc => Or.inl (lt_of_isLetterAZ (hm1 c hc)))) hrs
      have hv : (NewMutable (capitalize m1 ++ r)).String = 77 :: 99 :: r := by
        rw [capitalize_mc hm1']; rfl
      have hov : o = 77 :: 99 :: r := by
        rcases ho with h | h
        · rw [h, hv]
        · rw [h, hv, capSmall_of_head (by decide)]
      rw [capitalize_mc hm1'] at hsame
      have hsame : sameLetters (77 :: 99 :: r) w := hsame
      subst hov
      have hb2 : b2 = false := by
        cases b2 with
        | false => rfl
        | true => exact absurd (h1 rfl 99 (by simp)) (by decide)
      subst hb2
      refine ⟨?_, hsame⟩
      rw [convertWord_letters conv false (letterWord_of_sameLetters hsame hw),
        MacMc_mc hrl.2 (by rw [sameLetters_length hrs]; exact hlen)]
      simp only [hrr]
      rfl
  | none =>
    rw [hMc] at hm
    simp only at hm
    split at hm
    · next hk =>
      simp only [Bool.and_eq_true, Bool.not_eq_true'] at hk
      simp only [Except.ok.injEq] at hm
      subst hm
      have hns : w ∉ smallWordList := by
        intro hs
        rw [UCElsewhere_smallWord hs] at hk
        exact absurd hk.2 (by decide)
      have hov : o = w := by
        rcases ho with h | h
        · exact h
        · rw [h]; simp [NewMutable, Mutagenic.String, capSmall, hns]
      subst hov
      have hb2 := hK hk.1 hMc hk.2
      subst hb2
      refine ⟨?_, sameLetters_refl _⟩
      rw [convertWord_letters conv false hw, hMc]
      simp [hk.2]
    · split at hm
      · next hs =>
        simp only [Except.ok.injEq] at hm
        subst hm
        have hsl : w ∈ smallWordList := (mem_smallWords_of_letters hw.2).1 (SmallWords_iff.1 hs)
        have hlow : stringsToLower w = w :=
          stringsToLower_of_no_upper w (fun c hc => lt_of_isLetterAZ (hw.2 c hc))
            (fun c hc => isUpperAZ_of_lower (smallWordList_lower hsl c hc))
        rcases ho with h | h
        · have hov : o = w := by rw [h]; exact hlow
          subst hov
          have hb2 : b2 = false := by
            cases b2 with
            | false => rfl
            | true =>
              obtain ⟨c, t, rfl⟩ := List.exists_cons_of_ne_nil hw.1
              have := h1 rfl c (by simp)
              rw [smallWordList_lower hsl c (by simp)] at this
              exact absurd this (by decide)
          subst hb2
          exact ⟨convertWord_smallWord conv hsl, sameLetters_refl _⟩
        · have hov : o = firstUpper w := by
            rw [h]; simp [NewMutable, Mutagenic.String, hlow, capSmall, hsl]
          subst hov
          exact ⟨firstUpper_smallWord_stable conv b2 hsl,
            firstUpper_sameLetters w (fun c hc => Or.inl (lt_of_isLetterAZ (hw.2 c hc)))⟩
      · next hk hs =>
        simp only [Except.ok.injEq] at hm
        subst hm
        have hs' : SmallWords w = false := by simpa using hs
        have hMc' : MacMc (firstUpper (if b then stringsToLower w else w)) = none := by
          apply MacMc_default_value hw.2 hMc hb
          intro hbf c t hct
          subst hct
          apply tail_of_UCElsewhere_false c t hw.2
          subst hbf
          simpa using hk
        have hpl : ∀ c ∈ w, c < 128 ∨ isPunct c = true :=
          fun c hc => Or.inl (lt_of_isLetterAZ (hw.2 c hc))
        have hsame : sameLetters (firstUpper (if b = true then stringsToLower w else w)) w := by
          refine sameLetters_trans (firstUpper_sameLetters _ ?_) ?_
          · split
            · exact plain_toLower hpl
            · exact hpl
          · split
            · exact sameLetters_toLower w hpl
            · exact sameLetters_refl w
        obtain ⟨c, t, hct, hc128, htail, ht128⟩ : ∃ c t,
            (if b = true then stringsToLower w else w) = c :: t ∧ c < 128 ∧
            (∀ x ∈ t, isUpperAZ x = false) ∧ ∀ x ∈ t, x < 128 := by
          obtain ⟨c, t, rfl⟩ := List.exists_cons_of_ne_nil hw.1
          cases b with
          | true =>
            refine ⟨toLowerRune c, stringsToLower t, rfl,
              toLowerRune_lt (lt_of_isLetterAZ (hw.2 c (by simp))), ?_, ?_⟩
            · intro x hx
              obtain ⟨y, -, rfl⟩ := List.mem_map.1 hx
              exact isUpperAZ_toLowerRune y
            · intro x hx
              obtain ⟨y, hy, rfl⟩ := List.mem_map.1 hx
              exact toLowerRune_lt (lt_of_isLetterAZ (hw.2 y (by simp [hy])))
          | false =>
            refine ⟨c, t, rfl, lt_of_isLetterAZ (hw.2 c (by simp)), ?_,
              fun x hx => lt_of_isLetterAZ (hw.2 x (by simp [hx]))⟩
            apply tail_of_UCElsewhere_false c t hw.2
            simpa using hk
        rw [hct] at hMc' hsame
        have hv : (NewMutable (firstUpper (if b = true then stringsToLower w else w))).String =
            toUpperRune c :: t := by rw [hct]; rfl
        have hov : o = toUpperRune c :: t := by
          rcases ho with h | h
          · rw [h, hv]
          · rw [h, hv, capSmall_of_head (isLowerAZ_toUpperRune c)]
        subst hov
        simp only [firstUpper] at hMc' hsame
        refine ⟨?_, hsame⟩
        rw [convertWord_letters conv b2 (letterWord_of_sameLetters hsame hw), hMc']
        simp only [UCElsewhere_of_tail _ t htail, Bool.and_false, Bool.false_eq_true, if_false,
          SmallWords_of_head (isLowerAZ_toUpperRune c)]
        cases b2 with
        | false =>
          simp only [Bool.false_eq_true, if_false, firstUpper, toUpperRune_toUpperRune hc128]
        | true =>
          simp only [if_true, stringsToLower_cons, firstUpper,
            toUpperRune_toLowerRune_toUpperRune hc128, stringsToLower_of_no_upper t ht128 htail]

theorem convertWord_letters_mutable {conv : List Nat → Except Fault (List Nat)} {b : Bool}
    {w : List Nat} {m : Mutagenic} (hw : letterWord w) (hm : convertWord conv none b w = .ok m) :
    m = NewMutable m.String := by
  rw [convertWord_letters conv b hw] at hm
  split at hm
  · split at hm
    · cases hm
    · cases hm; rfl
  · split at hm
    · cases hm; rfl
    · split at hm <;> (cases hm; rfl)

theorem capSmall_sameLetters (v : List Nat) : sameLetters (capSmall v) v := by
  unfold capSmall
  split
  · next hs =>
    exact firstUpper_sameLetters v
      (fun c hc => Or.inl (lt_of_isLowerAZ (smallWordList_lower hs c hc)))
  · exact sameLetters_refl v

theorem capSmall_capSmall (v : List Nat) : capSmall (capSmall v) = capSmall v := by
  by_cases h : v ∈ smallWordList
  · have hl := lowerWord_of_smallWord h
    obtain ⟨c, t, hx, hc, -⟩ := firstUpper_shape hl.1 hl.2.1
    have : capSmall v = c :: t := by rw [capSmall, if_pos h, hx]
    rw [this, capSmall_of_head (isLowerAZ_of_upper hc)]
  · have : capSmall v = v := by rw [capSmall, if_neg h]
    rw [this, this]

theorem capSmallFirst_capSmallFirst (l : List (List Nat)) :
    capSmallFirst (capSmallFirst l) = capSmallFirst l := by
  cases l with
  | nil => rfl
  | cons v vs => simp [capSmallFirst, capSmall_capSmall]

theorem capSmallLast_capSmallLast : ∀ (l : List (List Nat)),
    capSmallLast (capSmallLast l) = capSmallLast l
  | [] => rfl
  | [v] => by simp [capSmallLast, capSmall_capSmall]
  | v :: v2 :: vs => by
    have ih := capSmallLast_capSmallLast (v2 :: vs)
    obtain ⟨y, ys, hy⟩ : ∃ y ys, capSmallLast (v2 :: vs) = y :: ys := by
      cases vs with
      | nil => exact ⟨_, _, rfl⟩
      | cons v3 vs => exact ⟨_, _, rfl⟩
    rw [capSmallLast, hy, capSmallLast, ← hy, ih]

theorem capSmallFirst_capSmallLast : ∀ (l : List (List Nat)),
    capSmallFirst (capSmallLast l) = capSmallLast (capSmallFirst l)
  | [] => rfl
  | [_] => rfl
  | _ :: _ :: _ => rfl

/-- The boundary pass changes nothing when it is applied a second time. -/
theorem capSmall_boundary_twice (l : List (List Nat)) :
    capSmallLast (capSmallFirst (capSmallLast (capSmallFirst l))) =
      capSmallLast (capSmallFirst l) := by
  rw [capSmallFirst_capSmallLast, capSmallFirst_capSmallFirst, capSmallLast_capSmallLast]

theorem forceFirst_letters (vs : List (List Nat)) (h : ∀ v ∈ vs, ∀ c ∈ v, isLetterAZ c = true) :
    forceFirst (vs.map NewMutable) = (capSmallFirst vs).map NewMutable := by
  cases vs with
  | nil => rfl
  | cons v vs =>
    simp only [List.map_cons, NewMutable, forceFirst, capSmallFirst,
      SmallFirst_letters (h v (by simp))]

theorem forceLast_letters : ∀ (vs : List (List Nat)),
    (∀ v ∈ vs, ∀ c ∈ v, isLetterAZ c = true) →
    forceLast (vs.map NewMutable) = (capSmallLast vs).map NewMutable
  | [], _ => rfl
  | [v], h => by
    simp only [List.map_cons, List.map_nil, NewMutable, forceLast, capSmallLast,
      SmallLast_letters (h v (by simp))]
  | v :: v2 :: vs, h => by
    have ih := forceLast_letters (v2 :: vs) (fun x hx => h x (by simp [hx]))
    simp only [List.map_cons, NewMutable] at ih ⊢
    simp only [forceLast, capSmallLast, List.map_cons, ih, NewMutable]

theorem mem_capSmallFirst {l : List (List Nat)} {o : List Nat} (h : o ∈ capSmallFirst l) :
    ∃ v ∈ l, o = v ∨ o = capSmall v := by
  cases l with
  | nil => simp [capSmallFirst] at h
  | cons v vs =>
    simp only [capSmallFirst, List.mem_cons] at h
    rcases h with h | h
    · exact ⟨v, by simp, Or.inr h⟩
    · exact ⟨o, by simp [h], Or.inl rfl⟩

theorem mem_capSmallLast : ∀ {l : List (List Nat)} {o : List Nat}, o ∈ capSmallLast l →
    ∃ v ∈ l, o = v ∨ o = capSmall v
  | [], o, h => by simp [capSmallLast] at h
  | [v], o, h => by
    simp only [capSmallLast, List.mem_singleton] at h
    exact ⟨v, by simp, Or.inr h⟩
  | v :: v2 :: vs, o, h => by
    simp only [capSmallLast, List.mem_cons] at h
    rcases h with h | h
    · exact ⟨v, by simp, Or.inl h⟩
    · obtain ⟨x, hx, hox⟩ := mem_capSmallLast (l := v2 :: vs) (by simpa using h)
      exact ⟨x, by simp at hx ⊢; tauto, hox⟩

theorem forall₂_capSmallFirst : ∀ (l : List (List Nat)),
    List.Forall₂ (fun v o => o = v ∨ o = capSmall v) l (capSmallFirst l)
  | [] => List.Forall₂.nil
  | _ :: vs => by
    refine List.Forall₂.cons (Or.inr rfl) ?_
    induction vs with
    | nil => exact List.Forall₂.nil
    | cons x xs ih => exact List.Forall₂.cons (Or.inl rfl) ih

theorem forall₂_capSmallLast : ∀ (l : List (List Nat)),
    List.Forall₂ (fun v o => o = v ∨ o = capSmall v) l (capSmallLast l)
  | [] => List.Forall₂.nil
  | [_] => List.Forall₂.cons (Or.inr rfl) List.Forall₂.nil
  | _ :: v2 :: vs => List.Forall₂.cons (Or.inl rfl) (forall₂_capSmallLast (v2 :: vs))

/-- The boundary pass, word by word. -/
theorem forall₂_capSmall_boundary (l : List (List Nat)) :
    List.Forall₂ (fun v o => o = v ∨ o = capSmall v) l (capSmallLast (capSmallFirst l)) := by
  refine forall₂_comp ?_ (forall₂_capSmallFirst l) (forall₂_capSmallLast (capSmallFirst l))
  intro a b c hab hbc
  rcases hab with h | h <;> rcases hbc with h' | h'
  · exact Or.inl (h'.trans h)
  · exact Or.inr (by rw [h', h])
  · exact Or.inr (h'.trans h)
  · exact Or.inr (by rw [h', h, capSmall_capSmall])

theorem convertWords_of_forall {conv : List Nat → Except Fault (List Nat)} {b : Bool} :
    ∀ (l : List (List Nat)), (∀ o ∈ l, convertWord conv none b o = .ok (NewMutable o)) →
      convertWords conv none b l = .ok (l.map NewMutable)
  | [], _ => rfl
  | o :: l, h => by
    have ih := convertWords_of_forall l (fun x hx => h x (by simp [hx]))
    simp only [convertWords, h o (by simp), ih, List.map_cons]

theorem forall₂_imp_mem {α β : Type} {R S : α → β → Prop} {l1 : List α} {l2 : List β}
    (h : List.Forall₂ R l1 l2) (hS : ∀ a ∈ l1, ∀ b ∈ l2, R a b → S a b) :
    List.Forall₂ S l1 l2 := by
  induction h with
  | nil => exact List.Forall₂.nil
  | cons hab _ ih =>
    exact List.Forall₂.cons (hS _ (by simp) _ (by simp) hab)
      (ih (fun a ha b hb => hS a (by simp [ha]) b (by simp [hb])))

theorem forall₂_map_right_string {R : List Nat → List Nat → Prop} {ws : List (List Nat)}
    {ms : List Mutagenic} (h : List.Forall₂ (fun w m => R w m.String) ws ms) :
    List.Forall₂ R ws (ms.map Mutagenic.String) := by
  induction h with
  | nil => exact List.Forall₂.nil
  | cons hab _ ih => exact List.Forall₂.cons hab ih

theorem map_newMutable_string {ms : List Mutagenic} (h : ∀ m ∈ ms, m = NewMutable m.String) :
    (ms.map Mutagenic.String).map NewMutable = ms := by
  induction ms with
  | nil => rfl
  | cons m ms ih =>
    rw [List.map_cons, List.map_cons, ← h m (by simp), ih (fun x hx => h x (by simp [hx]))]

theorem no_break_of_letter_words {os : List (List Nat)}
    (h : ∀ o ∈ os, ∀ c ∈ o, isLetterAZ c = true) :
    ∀ c ∈ stringsJoin os [32], isPhraseBreak c = false := by
  intro c hc
  rcases mem_join_space hc with h' | ⟨v, hv, hcv⟩
  · subst h'; decide
  · exact isPhraseBreak_of_letter (h v hv c hcv)

theorem mem_join_of_mem {c : Nat} {w : List Nat} : ∀ {ws : List (List Nat)}, w ∈ ws → c ∈ w →
    c ∈ stringsJoin ws [32]
  | [], h, _ => by simp at h
  | [v], h, hc => by
    simp only [List.mem_singleton] at h
    subst h
    simpa [stringsJoin, intercalate_singleton] using hc
  | v :: v2 :: vs, h, hc => by
    simp only [stringsJoin, intercalate_cons_cons, List.mem_append]
    rcases List.mem_cons.1 h with h' | h'
    · subst h'; exact Or.inl (Or.inl hc)
    · exact Or.inr (@mem_join_of_mem c w (v2 :: vs) h' hc)

theorem letterWord_facts {w : List Nat} (h : letterWord w) :
    w ≠ [] ∧ ∀ c ∈ w, isSpace c = false :=
  ⟨h.1, fun c hc => isSpace_of_letter (h.2 c hc)⟩

theorem map_string_map_newMutable (l : List (List Nat)) :
    (l.map NewMutable).map Mutagenic.String = l := by
  induction l with
  | nil => rfl
  | cons v l ih => rw [List.map_cons, List.map_cons, ih]; rfl

/-- The result of a line of ordinary words with the default options: the values of the
words after the boundary pass, joined by single spaces. -/
theorem line_values {conv : List Nat → Except Fault (List Nat)}
    (hconv : ∀ x r, letterWord x → x.length < maxScanTokenSize → conv x = .ok r →
      conv r = .ok r ∧ sameLetters r x)
    {ws : List (List Nat)} (hws : ∀ w ∈ ws, letterWord w)
    (hshort : ∀ w ∈ ws, w.length < maxScanTokenSize) {out : List Nat}
    (h : convertLine conv none true (stringsJoin ws [32]) = .ok out) :
    ∃ ms, List.Forall₂ (fun w m => convertWord conv none
        (stringsToUpper (stringsJoin ws [32]) == stringsJoin ws [32]) w = .ok m) ws ms ∧
      List.Forall₂ (fun w m => sameLetters m.String w) ws ms ∧ ms ≠ [] ∧
      out = stringsJoin (capSmallLast (capSmallFirst (ms.map Mutagenic.String))) [32] := by
  have hfields : stringsFields (stringsJoin ws [32]) = ws :=
    stringsFields_join ws (fun w hw => letterWord_facts (hws w hw))
  rw [convertLine_ok_iff] at h
  obtain ⟨ms, hms, hmsne, hout⟩ := h
  rw [hfields, convertWords_ok_iff] at hms
  have hb : ∀ w ∈ ws, (stringsToUpper (stringsJoin ws [32]) == stringsJoin ws [32]) = true →
      ∀ c ∈ w, isLowerAZ c = false :=
    fun w hw hcaps c hc => allCaps_no_lower _ hcaps c (mem_join_of_mem hw hc)
  have hboth : List.Forall₂ (fun w (m : Mutagenic) => sameLetters m.String w ∧
      m = NewMutable m.String) ws ms := by
    refine forall₂_imp_mem hms ?_
    intro w hw m _ hm
    exact ⟨(@value_stable conv hconv _ false w _ m (hws w hw) (hshort w hw) (hb w hw) hm (Or.inl rfl)
      (fun h' => absurd h' (by decide)) (fun _ _ _ => rfl)).2,
      convertWord_letters_mutable (hws w hw) hm⟩
  have hsame : List.Forall₂ (fun w (m : Mutagenic) => sameLetters m.String w) ws ms :=
    hboth.imp (fun _ _ h' => h'.1)
  have hmut : ∀ m ∈ ms, m = NewMutable m.String := by
    intro m hm
    obtain ⟨w, -, hw⟩ := forall₂_mem_right hboth m hm
    exact hw.2
  have hletters : ∀ v ∈ ms.map Mutagenic.String, ∀ c ∈ v, isLetterAZ c = true := by
    intro v hv
    obtain ⟨m, hm, rfl⟩ := List.mem_map.1 hv
    obtain ⟨w, hw, hwm⟩ := forall₂_mem_right hsame m hm
    exact letters_of_sameLetters hwm (hws w hw).2
  have hletters1 : ∀ v ∈ capSmallFirst (ms.map Mutagenic.String), ∀ c ∈ v, isLetterAZ c = true := by
    intro v hv
    obtain ⟨x, hx, hvx⟩ := mem_capSmallFirst hv
    rcases hvx with h' | h'
    · rw [h']; exact hletters x hx
    · rw [h']; exact letters_of_sameLetters (capSmall_sameLetters x) (hletters x hx)
  have hletters2 : ∀ v ∈ capSmallLast (capSmallFirst (ms.map Mutagenic.String)),
      ∀ c ∈ v, isLetterAZ c = true := by
    intro v hv
    obtain ⟨x, hx, hvx⟩ := mem_capSmallLast hv
    rcases hvx with h' | h'
    · rw [h']; exact hletters1 x hx
    · rw [h']; exact letters_of_sameLetters (capSmall_sameLetters x) (hletters1 x hx)
  refine ⟨ms, hms, hsame, hmsne, ?_⟩
  rw [hout]
  simp only [if_true]
  conv_lhs => rw [← map_newMutable_string hmut]
  rw [forceFirst_letters _ hletters, forceLast_letters _ hletters1, map_string_map_newMutable,
    SubPhrase_ReplaceAllStringFunc, subPhraseFrom_of_no_break _ _ (no_break_of_letter_words hletters2)]

/-- A line of ordinary words whose result is a line of the same kind: a second call on
the result returns the result, when no word that is kept for a capital inside it stands
in a result that is an all-caps line. -/
theorem line_stable {conv : List Nat → Except Fault (List Nat)}
    (hconv : ∀ x r, letterWord x → x.length < maxScanTokenSize → conv x = .ok r →
      conv r = .ok r ∧ sameLetters r x)
    {ws : List (List Nat)} (hws : ∀ w ∈ ws, letterWord w)
    (hshort : ∀ w ∈ ws, w.length < maxScanTokenSize) {out : List Nat}
    (h : convertLine conv none true (stringsJoin ws [32]) = .ok out)
    (hK : ∀ w ∈ ws, (stringsToUpper (stringsJoin ws [32]) == stringsJoin ws [32]) = false →
      MacMc w = none → UCElsewhere w = true → (stringsToUpper out == out) = false) :
    convertLine conv none true out = .ok out ∧
      ∃ os, out = stringsJoin os [32] ∧ List.Forall₂ (fun w o => sameLetters o w) ws os := by
  obtain ⟨ms, hms, hsame, hmsne, hout⟩ := line_values hconv hws hshort h
  have hrel : List.Forall₂ (fun w o => ∃ m, convertWord conv none
      (stringsToUpper (stringsJoin ws [32]) == stringsJoin ws [32]) w = .ok m ∧
      (o = m.String ∨ o = capSmall m.String)) ws
      (capSmallLast (capSmallFirst (ms.map Mutagenic.String))) := by
    have h1 : List.Forall₂ (fun w v => ∃ m, convertWord conv none
        (stringsToUpper (stringsJoin ws [32]) == stringsJoin ws [32]) w = .ok m ∧ v = m.String)
        ws (ms.map Mutagenic.String) := by
      apply forall₂_map_right_string
      exact hms.imp (fun w m hm => ⟨m, hm, rfl⟩)
    refine forall₂_comp ?_ h1 (forall₂_capSmall_boundary _)
    rintro w v o ⟨m, hm, rfl⟩ hvo
    exact ⟨m, hm, hvo⟩
  obtain ⟨os, hos⟩ : ∃ os, os = capSmallLast (capSmallFirst (ms.map Mutagenic.String)) :=
    ⟨_, rfl⟩
  rw [← hos] at hrel hout
  have hS : List.Forall₂ (fun w o => convertWord conv none (stringsToUpper out == out) o =
      .ok (NewMutable o) ∧ sameLetters o w) ws os := by
    refine forall₂_imp_mem hrel ?_
    rintro w hw o ho ⟨m, hm, hom⟩
    refine value_stable hconv (hws w hw) (hshort w hw) ?_ hm hom ?_ (hK w hw)
    · exact fun hcaps c hc => allCaps_no_lower _ hcaps c (mem_join_of_mem hw hc)
    · intro hcaps c hc
      rw [hout] at hcaps
      exact allCaps_no_lower _ hcaps c (mem_join_of_mem ho hc)
  have hosl : ∀ o ∈ os, letterWord o := by
    intro o ho
    obtain ⟨w, hw, hwo⟩ := forall₂_mem_right hS o ho
    exact letterWord_of_sameLetters hwo.2 (hws w hw)
  have hosne : os ≠ [] := by
    intro h'
    rw [h'] at hS
    cases hS
    cases hms
    exact hmsne rfl
  have hfields : stringsFields out = os := by
    rw [hout]
    exact stringsFields_join os (fun o ho => letterWord_facts (hosl o ho))
  refine ⟨?_, os, hout, hS.imp (fun _ _ h' => h'.2)⟩
  rw [convertLine_ok_iff]
  refine ⟨os.map NewMutable, ?_, by simpa using hosne, ?_⟩
  · rw [hfields]
    apply convertWords_of_forall
    intro o ho
    obtain ⟨w, -, hwo⟩ := forall₂_mem_right hS o ho
    exact hwo.1
  · have hl : ∀ v ∈ os, ∀ c ∈ v, isLetterAZ c = true := fun o ho => (hosl o ho).2
    have hl1 : ∀ v ∈ capSmallFirst os, ∀ c ∈ v, isLetterAZ c = true := by
      intro v hv
      obtain ⟨x, hx, hvx⟩ := mem_capSmallFirst hv
      rcases hvx with h' | h'
      · rw [h']; exact hl x hx
      · rw [h']; exact letters_of_sameLetters (capSmall_sameLetters x) (hl x hx)
    simp only [if_true]
    rw [forceFirst_letters _ hl, forceLast_letters _ hl1, map_string_map_newMutable]
    have htwice : capSmallLast (capSmallFirst os) = os := by
      rw [hos]; exact capSmall_boundary_twice _
    rw [htwice, SubPhrase_ReplaceAllStringFunc,
      subPhraseFrom_of_no_break _ _ (no_break_of_letter_words hl), ← hout]

theorem no_newline_of_letter_words {ws : List (List Nat)} (h : ∀ w ∈ ws, letterWord w) :
    ∀ c ∈ stringsJoin ws [32], c ≠ 10 := by
  intro c hc
  rcases mem_join_space hc with h' | ⟨v, hv, hcv⟩
  · omega
  · exact (letter_ne ((h v hv).2 c hcv)).2.2.2

theorem join_ne_nil_of_letter_words {ws : List (List Nat)} (hne : ws ≠ [])
    (h : ∀ w ∈ ws, letterWord w) : stringsJoin ws [32] ≠ [] := by
  obtain ⟨w, ws', rfl⟩ := List.exists_cons_of_ne_nil hne
  obtain ⟨c, t, rfl⟩ := List.exists_cons_of_ne_nil (h w (by simp)).1
  obtain ⟨l, hl⟩ := join_head (c := c) (t := t) ws'
  rw [hl]; simp

theorem join_sameLetters : ∀ {ws vs : List (List Nat)},
    List.Forall₂ (fun w v => sameLetters v w) ws vs →
    sameLetters (stringsJoin vs [32]) (stringsJoin ws [32])
  | [], _, h => by cases h; exact sameLetters_refl _
  | [w], _, h => by
    cases h with
    | cons h1 h2 =>
      cases h2
      simpa only [stringsJoin, intercalate_singleton] using h1
  | w :: w2 :: ws, _, h => by
    cases h with
    | cons h1 h2 =>
      cases h2 with
      | cons h2 h3 =>
        have ih := join_sameLetters (List.Forall₂.cons h2 h3)
        simp only [stringsJoin, intercalate_cons_cons] at ih ⊢
        exact sameLetters_append (sameLetters_append h1 (sameLetters_refl _)) ih

/-- `Convert` with the default options on a line of ordinary words is the body of the
loop over the lines. -/
theorem Convert_letter_words (depth : Nat) {ws : List (List Nat)} (hne : ws ≠ [])
    (h : ∀ w ∈ ws, letterWord w) (hshort : byteLen (stringsJoin ws [32]) < maxScanTokenSize) :
    Convert (depth + 1) none true (stringsJoin ws [32]) =
      convertLine (Convert depth none true) none true (stringsJoin ws [32]) := by
  rw [Convert_line _ _ _ _ (no_newline_of_letter_words h) (join_ne_nil_of_letter_words hne h)
    hshort, convertLine_dropCR]

/-- A line of ordinary words has as many bytes as code points. -/
theorem byteLen_letter_words {ws : List (List Nat)} (h : ∀ w ∈ ws, letterWord w) :
    byteLen (stringsJoin ws [32]) = (stringsJoin ws [32]).length := by
  apply byteLen_ascii
  intro c hc
  rcases mem_join_space hc with h' | ⟨v, hv, hcv⟩
  · omega
  · have := (h v hv).2 c hcv
    rw [isLetterAZ_iff] at this
    omega

theorem byteLen_letterWord {w : List Nat} (h : letterWord w) : byteLen w = w.length := by
  have := @byteLen_letter_words [w] (by simpa using h)
  rwa [stringsJoin, intercalate_singleton] at this

/-- A word of a line of ordinary words is not longer than the line. -/
theorem length_le_of_mem_letter_words {ws : List (List Nat)} {w : List Nat}
    (h : ∀ w ∈ ws, letterWord w) (hw : w ∈ ws) : w.length ≤ (stringsJoin ws [32]).length := by
  have hf : stringsFields (stringsJoin ws [32]) = ws :=
    stringsFields_join ws (fun w hw => letterWord_facts (h w hw))
  exact stringsFields_length_le (by rw [hf]; exact hw)

/-- The words of a line of ordinary words below the limit of the scanner are below the
limit. -/
theorem short_of_mem_letter_words {ws : List (List Nat)} (h : ∀ w ∈ ws, letterWord w)
    (hshort : byteLen (stringsJoin ws [32]) < maxScanTokenSize) :
    ∀ w ∈ ws, w.length < maxScanTokenSize := by
  intro w hw
  have h1 := length_le_of_mem_letter_words h hw
  rw [byteLen_letter_words h] at hshort
  omega

/-- A word that is kept for a capital inside it is the result of its own line. -/
theorem kept_word_result {conv : List Nat → Except Fault (List Nat)}
    (hconv : ∀ x r, letterWord x → x.length < maxScanTokenSize → conv x = .ok r →
      conv r = .ok r ∧ sameLetters r x)
    {x r : List Nat} (hx : letterWord x) (hshort : x.length < maxScanTokenSize)
    (h : convertLine conv none true (stringsJoin [x] [32]) = .ok r)
    (hcaps : (stringsToUpper (stringsJoin [x] [32]) == stringsJoin [x] [32]) = false)
    (hMc : MacMc x = none) (hU : UCElsewhere x = true) : r = x := by
  obtain ⟨ms, hms, -, -, hout⟩ := @line_values conv hconv [x] (by simpa using hx)
    (by simpa using hshort) r h
  rw [hcaps] at hms
  cases hms with
  | cons hm hnil =>
    cases hnil
    rw [convertWord_letters conv false hx, hMc] at hm
    simp only [hU, Bool.not_false, Bool.and_self, if_true, Except.ok.injEq] at hm
    subst hm
    have hns : x ∉ smallWordList := by
      intro hs
      rw [UCElsewhere_smallWord hs] at hU
      exact absurd hU (by decide)
    rw [hout]
    simp [capSmallFirst, capSmallLast, capSmall, hns, NewMutable, Mutagenic.String, stringsJoin,
      intercalate_singleton]

/-- `Convert` with the default options returns its result for an ordinary word when it
is called on that result. -/
theorem Convert_word_stable : ∀ (depth : Nat) (x r : List Nat), letterWord x →
    x.length < maxScanTokenSize →
    Convert depth none true x = .ok r → Convert depth none true r = .ok r ∧ sameLetters r x
  | 0, _, _, _, _, h => by cases h
  | depth + 1, x, r, hx, hshort, h => by
    have hxs : ∀ w ∈ [x], letterWord w := by simpa using hx
    have hj : stringsJoin [x] [32] = x := intercalate_singleton _ _
    have hxshort : byteLen (stringsJoin [x] [32]) < maxScanTokenSize := by
      rw [hj, byteLen_letterWord hx]; exact hshort
    rw [← hj, Convert_letter_words depth (by simp) hxs hxshort] at h
    have hst := line_stable (Convert_word_stable depth) hxs (by simpa using hshort) h (by
      intro w hw hcaps hMc hU
      simp only [List.mem_singleton] at hw
      subst hw
      rw [kept_word_result (Convert_word_stable depth) hx hshort h hcaps hMc hU]
      rwa [hj] at hcaps)
    obtain ⟨hline, os, hos, hsame⟩ := hst
    cases hsame with
    | cons hrx hnil =>
      cases hnil
      rw [stringsJoin, intercalate_singleton] at hos
      subst hos
      refine ⟨?_, hrx⟩
      have hrl : letterWord r := letterWord_of_sameLetters hrx hx
      have hrs : ∀ w ∈ [r], letterWord w := by simpa using hrl
      have hjr : stringsJoin [r] [32] = r := intercalate_singleton _ _
      have hrshort : byteLen (stringsJoin [r] [32]) < maxScanTokenSize := by
        rw [hjr, byteLen_letterWord hrl, sameLetters_length hrx]; exact hshort
      rw [← hjr, Convert_letter_words depth (by simp) hrs hrshort, hjr]
      exact hline

/-- `Convert` with the default options returns on every line of ordinary words, with a
depth of calls that is at least the length of the longest word. -/
theorem Convert_letter_words_returns : ∀ (depth : Nat) (ws : List (List Nat)), ws ≠ [] →
    (∀ w ∈ ws, letterWord w) → (∀ w ∈ ws, w.length ≤ depth) →
    ∃ out, Convert depth none true (stringsJoin ws [32]) = .ok out
  | 0, ws, hne, hws, hd => by
    exfalso
    obtain ⟨w, ws', rfl⟩ := List.exists_cons_of_ne_nil hne
    have h1 := hd w (by simp)
    exact (hws w (by simp)).1 (List.length_eq_zero.1 (by omega))
  | depth + 1, ws, hne, hws, hd => by
    by_cases hshort : byteLen (stringsJoin ws [32]) < maxScanTokenSize
    swap
    · exact ⟨[], Convert_long_line _ _ _ _ (no_newline_of_letter_words hws) (by omega)⟩
    rw [Convert_letter_words depth hne hws hshort]
    have hfields : stringsFields (stringsJoin ws [32]) = ws :=
      stringsFields_join ws (fun w hw => letterWord_facts (hws w hw))
    have hword : ∀ w ∈ ws, ∃ m, convertWord (Convert depth none true) none
        (stringsToUpper (stringsJoin ws [32]) == stringsJoin ws [32]) w = .ok m := by
      intro w hw
      rw [convertWord_letters _ _ (hws w hw)]
      cases hMc : MacMc w with
      | none =>
        simp only
        split
        · exact ⟨_, rfl⟩
        · split <;> exact ⟨_, rfl⟩
      | some p =>
        obtain ⟨m1, m2⟩ := p
        obtain ⟨hw12, hl1, hm2, -, -⟩ := MacMc_some hMc
          (fun c hc => (letter_ne ((hws w hw).2 c hc)).2.2.2)
        have hm2l : letterWord m2 :=
          ⟨hm2, fun c hc => (hws w hw).2 c (by rw [hw12]; simp [hc])⟩
        have hlen : m2.length ≤ depth := by
          have := hd w hw
          rw [hw12, List.length_append, hl1] at this
          omega
        obtain ⟨r, hr⟩ := Convert_letter_words_returns depth [m2] (by simp)
          (by simpa using hm2l) (by simpa using hlen)
        rw [stringsJoin, intercalate_singleton] at hr
        simp only [hr]
        exact ⟨_, rfl⟩
    obtain ⟨ms, hms, hlen⟩ := convertWords_returns ws hword
    have hmsne : ms ≠ [] := by
      intro h
      rw [h] at hlen
      exact hne (List.length_eq_zero.1 hlen.symm)
    exact ⟨_, (convertLine_ok_iff _ _ _ _ _).2 ⟨ms, by rw [hfields]; exact hms, hmsne, rfl⟩⟩

/-- C5, as amended. For every line of ordinary ASCII words (letters only, in any case,
the small words among them) joined by single spaces, `Convert` with the default options
returns a result when its depth of calls is at least the length of the longest word, and
whenever it returns a result it returns the same result when it is called on that result,
unless the line is not an all-caps line, its result is one and the line has a word of
two or more letters. -/
theorem C5_idempotent (depth : Nat) (ws : List (List Nat)) (hne : ws ≠ [])
    (hws : ∀ w ∈ ws, letterWord w) :
    ((∀ w ∈ ws, w.length ≤ depth) →
      ∃ out, Convert depth none true (stringsJoin ws [32]) = .ok out) ∧
    (∀ out, Convert depth none true (stringsJoin ws [32]) = .ok out →
      (stringsToUpper (stringsJoin ws [32]) = stringsJoin ws [32] ∨
        stringsToUpper out ≠ out ∨ ∀ w ∈ ws, w.length = 1) →
      Convert depth none true out = .ok out) := by
  refine ⟨Convert_letter_words_returns depth ws hne hws, ?_⟩
  intro out h hside
  cases depth with
  | zero => cases h
  | succ d =>
    by_cases hshort : byteLen (stringsJoin ws [32]) < maxScanTokenSize
    swap
    · rw [Convert_long_line _ _ _ _ (no_newline_of_letter_words hws) (by omega)] at h
      cases h
      exact Convert_nil d none true
    rw [Convert_letter_words d hne hws hshort] at h
    obtain ⟨hline, os, hos, hsame⟩ := line_stable (Convert_word_stable d) hws
      (short_of_mem_letter_words hws hshort) h (by
      intro w hw hcaps hMc hU
      rcases hside with h1 | h1 | h1
      · rw [h1] at hcaps
        simp at hcaps
      · simpa using h1
      · exfalso
        obtain ⟨c, hc⟩ : ∃ c, w = [c] := List.length_eq_one.1 (h1 w hw)
        subst hc
        rw [UCElsewhere_of_tail c [] (by simp)] at hU
        exact absurd hU (by decide))
    have hosl : ∀ o ∈ os, letterWord o := by
      intro o ho
      obtain ⟨w, hw, hwo⟩ := forall₂_mem_right hsame o ho
      exact letterWord_of_sameLetters hwo (hws w hw)
    have hosne : os ≠ [] := by
      intro h'
      rw [h'] at hsame
      cases hsame
      exact hne rfl
    have hoshort : byteLen (stringsJoin os [32]) < maxScanTokenSize := by
      rw [byteLen_letter_words hosl, sameLetters_length (join_sameLetters hsame),
        ← byteLen_letter_words hws]
      exact hshort
    rw [hos, Convert_letter_words d hosne hosl hoshort, ← hos]
    exact hline

/-- The hypotheses of C5, as amended, hold for the line "a simple TEST of McDonald". -/
theorem C5_idempotent_witness :
    (∃ out, Convert 8 none true
      (stringsJoin [str "a", str "simple", str "TEST", str "of", str "McDonald"] [32]) = .ok out) ∧
    Convert 8 none true (str "A Simple TEST of McDonald") = .ok (str "A Simple TEST of McDonald") :=
  ⟨(C5_idempotent 8 [str "a", str "simple", str "TEST", str "of", str "McDonald"]
      (by decide) (by decide)).1 (by decide),
   (C5_idempotent 8 [str "a", str "simple", str "TEST", str "of", str "McDonald"]
      (by decide) (by decide)).2 (str "A Simple TEST of McDonald") rfl
      (Or.inr (Or.inl (by decide)))⟩

/-- C5 as stated fails: the result of "a AB" is the all-caps line "A AB", and the result
of that line is "A Ab". -/
theorem C5_counterexample :
    Convert 1 none true (str "a AB") = .ok (str "A AB") ∧
    Convert 1 none true (str "A AB") = .ok (str "A Ab") ∧
    str "A Ab" ≠ str "A AB" :=
  ⟨rfl, rfl, by decide⟩

/-! ## The capitalize primitive -/

/-- C20. `capitalize` does not behave like Python's `str.capitalize()`: it maps the first
letter of every word of the lower-cased text to upper case, so `capitalize("a b")` is
"A B" and not "A b"; on a single word such as "THE" the two agree, the result is
"The". -/
theorem C20_capitalize_titles_every_word :
    capitalize (str "a b") = str "A B" ∧ capitalize (str "a b") ≠ str "A b" ∧
    capitalize (str "THE") = str "The" := by
  refine ⟨by decide, by decide, by decide⟩


/-! ## The phrase repair -/

/-- C18. The phrase repair does not capitalize every small word that follows a
sentence-breaking character and a space: in "x. v. a y" the match of "v." takes the
period with it, so the "a" behind it is not found and the result is "X. V. a Y", not
"X. V. A Y".  A single occurrence is repaired, with either boundary setting:
`Convert("x: a y")` is "X: A Y". -/
theorem C18_phrase_repair_skips_after_match :
    (∀ depth : Nat, Convert (depth + 1) none true (str "x. v. a y") = .ok (str "X. V. a Y")) ∧
    str "X. V. a Y" ≠ str "X. V. A Y" ∧
    (∀ depth : Nat, Convert (depth + 1) none true (str "x: a y") = .ok (str "X: A Y")) ∧
    (∀ depth : Nat, Convert (depth + 1) none false (str "x: a y") = .ok (str "X: A Y")) :=
  ⟨fun _ => rfl, by decide, fun _ => rfl, fun _ => rfl⟩


/-! ## The possessive rule -/

/-- C16. The recasing of a possessive is right for the ASCII apostrophe, "o'reilly"
gives "O'Reilly" and "d'artagnan" gives "d'Artagnan", and wrong for the apostrophe ‘
that the pattern also admits: the rule slices bytes, so for "o‘reilly" it keeps the first
byte of ‘, replaces the second by U+FFFD, leaves the third and does not touch the letter
behind the apostrophe.  The result is neither valid UTF-8 nor "O‘Reilly". -/
theorem C16_possessive_recasing_slices_bytes :
    (∀ depth : Nat, Convert (depth + 1) none true (str "o‘reilly") =
      .ok ([79, invalidByte 0xE2, 0xFFFD, invalidByte 0x98] ++ str "reilly")) ∧
    [79, invalidByte 0xE2, 0xFFFD, invalidByte 0x98] ++ str "reilly" ≠ str "O‘Reilly" ∧
    AposSecond (str "o‘reilly") = true ∧
    (∀ depth : Nat, Convert (depth + 1) none true (str "o'reilly") = .ok (str "O'Reilly")) ∧
    (∀ depth : Nat, Convert (depth + 1) none true (str "d'artagnan") = .ok (str "d'Artagnan")) :=
  ⟨fun _ => rfl, by decide, by decide, fun _ => rfl, fun _ => rfl⟩

/-! ## The override and the phrase repair -/

/-- C14. A word replaced by the override is not immune to the phrase repair: with the
override that maps "indesign" to "inDesign", the line "x: indesign" gives "X: InDesign".
The replacement begins with the small word "in" and follows a colon and a space in the
joined line, so the phrase repair capitalizes it, with either boundary setting. -/
theorem C14_override_changed_by_phrase_repair :
    (∀ depth : Nat, Convert (depth + 1) (some overrideInDesign) true (str "x: indesign") =
      .ok (str "X: InDesign")) ∧
    (∀ depth : Nat, Convert (depth + 1) (some overrideInDesign) false (str "x: indesign") =
      .ok (str "X: InDesign")) ∧
    overrideInDesign (str "indesign") false = str "inDesign" ∧
    (stringsFields (str "x: indesign"))[1]? = some (str "indesign") ∧
    (stringsFields (str "X: InDesign"))[1]? ≠ some (str "inDesign") :=
  ⟨fun _ => rfl, fun _ => rfl, by decide, by decide, by decide⟩


theorem byteSlice_ok {s : List Nat} {lo hi : Nat} (h : lo ≤ hi ∧ hi ≤ s.length) :
    byteSlice s lo hi = .ok ((s.take hi).drop lo) := by
  simp [byteSlice, h]

/-- The possessive rule on the bytes of a word with the ASCII apostrophe. -/
theorem aposRecaseBytes_ascii {c0 c2 : Nat} (bs : List Nat)
    (h0 : c0 = 100 ∨ c0 = 111 ∨ c0 = 108) (h2 : isLowerAZ c2 = true) :
    aposRecaseBytes (c0 :: 39 :: c2 :: bs) =
      .ok ((if (!stringsContains (str "aeiouAEIOU") [c0]) = true then toLowerRune c0
        else toUpperRune c0) :: 39 :: toUpperRune c2 :: bs) := by
  have h2' : c2 < 128 := by rw [isLowerAZ_iff] at h2; omega
  simp only [aposRecaseBytes]
  rw [byteSlice_ok (by simp), byteSlice_ok (by simp), byteSlice_ok (by simp),
    byteSlice_ok (by simp)]
  simp only [List.take_succ_cons, List.take_zero, List.drop_zero, List.drop_succ_cons,
    List.length_cons, List.take_length]
  have hd : decide (bs.length + 1 + 1 + 1 > 0) = true := by simp
  rw [hd]
  have hu : bytesToUpper [c2] = [toUpperRune c2] := by simp [bytesToUpper, h2']
  rw [hu]
  rcases h0 with h | h | h <;> subst h <;> rfl

/-- The possessive rule on the bytes of a word with the apostrophe ‘, the three bytes
E2 80 98. -/
theorem aposRecaseBytes_quote {c0 : Nat} (bs : List Nat)
    (h0 : c0 = 100 ∨ c0 = 111 ∨ c0 = 108) :
    aposRecaseBytes (c0 :: 0xE2 :: 0x80 :: 0x98 :: bs) =
      .ok ((if (!stringsContains (str "aeiouAEIOU") [c0]) = true then toLowerRune c0
        else toUpperRune c0) :: 0xE2 :: 0xEF :: 0xBF :: 0xBD :: 0x98 :: bs) := by
  simp only [aposRecaseBytes]
  rw [byteSlice_ok (by simp), byteSlice_ok (by simp), byteSlice_ok (by simp),
    byteSlice_ok (by simp)]
  simp only [List.take_succ_cons, List.take_zero, List.drop_zero, List.drop_succ_cons,
    List.length_cons, List.take_length]
  have hd : decide (bs.length + 1 + 1 + 1 + 1 > 0) = true := by simp
  rw [hd]
  rcases h0 with h | h | h <;> subst h <;> rfl

/-- On the bytes of a word that matches `AposSecond` the four slices of the possessive
rule are in range, and the bytes that the rule builds are the bytes of `aposRecase`. -/
theorem aposRecaseBytes_eq {w : List Nat} (h : AposSecond w = true) :
    3 ≤ (stringBytes w).length ∧
    aposRecaseBytes (stringBytes w) = .ok (stringBytes (aposRecase w)) := by
  match w with
  | [] => simp [AposSecond] at h
  | [_] => simp [AposSecond] at h
  | [_, _] => simp [AposSecond] at h
  | c0 :: c1 :: c2 :: t =>
    simp only [AposSecond, Bool.and_eq_true, Bool.or_eq_true, beq_iff_eq] at h
    obtain ⟨⟨⟨h0, h1⟩, h2⟩, -⟩ := h
    have h0' : c0 < 128 := by omega
    have h0'' : c0 = 100 ∨ c0 = 111 ∨ c0 = 108 := by omega
    have h2' : c2 < 128 := by rw [isLowerAZ_iff] at h2; omega
    have h2u : toUpperRune c2 < 128 := toUpperRune_lt h2'
    have hf : (if (!stringsContains (str "aeiouAEIOU") [c0]) = true then toLowerRune c0
        else toUpperRune c0) < 128 := by
      rcases h0'' with h | h | h <;> subst h <;> decide
    rcases h1 with h1 | h1
    · subst h1
      have hb : stringBytes (c0 :: 39 :: c2 :: t) = c0 :: 39 :: c2 :: stringBytes t := by
        simp [stringBytes_cons, utf8Bytes_ascii h0', utf8Bytes_ascii h2', utf8Bytes_ascii
          (by omega : 39 < 128)]
      rw [hb, aposRecaseBytes_ascii _ h0'' h2]
      refine ⟨by simp, ?_⟩
      simp only [aposRecase]
      rw [if_neg (show ¬ ((39 : Nat) == 0x2018) = true by decide)]
      simp only [stringBytes_cons, utf8Bytes_ascii hf, utf8Bytes_ascii h2u, utf8Bytes_ascii
          (by omega : 39 < 128), List.singleton_append]
    · subst h1
      have hb : stringBytes (c0 :: 0x2018 :: c2 :: t) =
          c0 :: 0xE2 :: 0x80 :: 0x98 :: (c2 :: stringBytes t) := by
        have : utf8Bytes 0x2018 = [0xE2, 0x80, 0x98] := by decide
        simp [stringBytes_cons, utf8Bytes_ascii h0', utf8Bytes_ascii h2', this]
      rw [hb, aposRecaseBytes_quote _ h0'']
      refine ⟨by simp, ?_⟩
      simp only [aposRecase]
      rw [if_pos (show ((0x2018 : Nat) == 0x2018) = true by decide)]
      have h1 : utf8Bytes (invalidByte 0xE2) = [0xE2] := by decide
      have h2 : utf8Bytes 0xFFFD = [0xEF, 0xBF, 0xBD] := by decide
      have h3 : utf8Bytes (invalidByte 0x98) = [0x98] := by decide
      simp only [stringBytes_cons, utf8Bytes_ascii hf, utf8Bytes_ascii h2', h1, h2, h3,
        List.singleton_append, List.cons_append, List.nil_append]

/-- C17. Every word that matches the possessive pattern has at least three bytes, so the
slices `word[0:1]`, `word[1:2]`, `word[2:3]` and `word[3:]` that the rule takes are in
range and the rule returns a string: the bytes of `aposRecase`.  For the word "d'a" of
three bytes `word[3:]` is empty. -/
theorem C17_possessive_slices_in_bounds (w : List Nat) (h : AposSecond w = true) :
    3 ≤ (stringBytes w).length ∧
    (∃ w01 w12 w23 w3, byteSlice (stringBytes w) 0 1 = .ok w01 ∧
      byteSlice (stringBytes w) 1 2 = .ok w12 ∧ byteSlice (stringBytes w) 2 3 = .ok w23 ∧
      byteSlice (stringBytes w) 3 (stringBytes w).length = .ok w3) ∧
    aposRecaseBytes (stringBytes w) = .ok (stringBytes (aposRecase w)) ∧
    byteSlice (stringBytes (str "d'a")) 3 (stringBytes (str "d'a")).length = .ok [] := by
  obtain ⟨hlen, hrec⟩ := aposRecaseBytes_eq h
  refine ⟨hlen, ⟨_, _, _, _, byteSlice_ok ⟨by omega, by omega⟩, byteSlice_ok ⟨by omega, by omega⟩,
    byteSlice_ok ⟨by omega, by omega⟩, byteSlice_ok ⟨hlen, le_refl _⟩⟩, hrec, rfl⟩

/-- The hypothesis of C17 holds for the word "d'a" of three bytes. -/
theorem C17_possessive_slices_in_bounds_witness :
    AposSecond (str "d'a") = true ∧ 3 ≤ (stringBytes (str "d'a")).length ∧
    aposRecaseBytes (stringBytes (str "d'a")) = .ok (stringBytes (aposRecase (str "d'a"))) :=
  ⟨by decide, (C17_possessive_slices_in_bounds (str "d'a") (by decide)).1,
    (C17_possessive_slices_in_bounds (str "d'a") (by decide)).2.2.1⟩


/-! ## Lines of lower-case words -/

/-- The result of `Convert` with the default options on a line of lower-case words below
the limit of the scanner. -/
theorem Convert_lower_words (ws : List (List Nat)) (depth : Nat) (hne : ws ≠ [])
    (hws : ∀ w ∈ ws, lowerWord w)
    (hshort : byteLen (stringsJoin ws [32]) < maxScanTokenSize) :
    Convert (depth + 1) none true (stringsJoin ws [32]) =
      .ok (stringsJoin (expectedWords ws) [32]) := by
  have hletter : ∀ c ∈ stringsJoin ws [32], c = 32 ∨ isLowerAZ c = true := by
    intro c hc
    rcases mem_join_space hc with h | ⟨v, hv, hcv⟩
    · exact Or.inl h
    · exact Or.inr ((hws v hv).2.1 c hcv)
  have hnl : ∀ c ∈ stringsJoin ws [32], c ≠ 10 := by
    intro c hc h
    rcases hletter c hc with h' | h'
    · omega
    · rw [isLowerAZ_iff] at h'; omega
  have hcr : ∀ c ∈ stringsJoin ws [32], c ≠ 13 := by
    intro c hc h
    rcases hletter c hc with h' | h'
    · omega
    · rw [isLowerAZ_iff] at h'; omega
  have hfields : stringsFields (stringsJoin ws [32]) = ws :=
    stringsFields_join ws (fun w hw => ⟨(hws w hw).1, fun c hc =>
      isSpace_of_letter (isLetterAZ_of_lower ((hws w hw).2.1 c hc))⟩)
  have hcaps : (stringsToUpper (stringsJoin ws [32]) == stringsJoin ws [32]) = false := by
    obtain ⟨w, ws', rfl⟩ := List.exists_cons_of_ne_nil hne
    obtain ⟨c, t, rfl⟩ := List.exists_cons_of_ne_nil (hws w (by simp)).1
    obtain ⟨l, hl⟩ := join_head (c := c) (t := t) ws'
    rw [hl]
    exact allCaps_of_lower_head ((hws (c :: t) (by simp)).2.1 c (by simp))
  have hjne : stringsJoin ws [32] ≠ [] := by
    intro h
    rw [h] at hfields
    exact hne hfields.symm
  have hexp : expectedWords ws ≠ [] := expectedFrom_ne_nil ws true hne
  have hbreak : ∀ c ∈ stringsJoin (expectedWords ws) [32], isPhraseBreak c = false := by
    intro c hc
    rcases mem_join_space hc with h | ⟨v, hv, hcv⟩
    · subst h; decide
    · obtain ⟨w, hw, h | h⟩ := mem_expectedFrom ws true v hv
      · subst h
        exact isPhraseBreak_of_letter (isLetterAZ_of_lower ((hws _ hw).2.1 c hcv))
      · subst h
        obtain ⟨x, t, hx, hxu, ht⟩ := firstUpper_shape (hws w hw).1 (hws w hw).2.1
        rw [hx] at hcv
        rcases List.mem_cons.1 hcv with h | h
        · subst h; exact isPhraseBreak_of_letter (isLetterAZ_of_upper hxu)
        · exact isPhraseBreak_of_letter (isLetterAZ_of_lower (ht c h))
  have hline : convertLine (Convert depth none true) none true (stringsJoin ws [32]) =
      .ok (stringsJoin (expectedWords ws) [32]) := by
    simp only [convertLine, hcaps, hfields, convertWords_lower _ ws hws, if_true,
      forceBoth_lower ws hws, joinWords_eq, List.nil_append, List.map_map]
    have : (List.map ((fun m => 32 :: m.String) ∘ NewMutable) (expectedWords ws)) =
        (expectedWords ws).map (fun v => 32 :: v) := rfl
    rw [this, join_space_eq _ hexp]
    simp only [SubPhrase_ReplaceAllStringFunc]
    rw [subPhraseFrom_of_no_break _ _ hbreak]
  rw [Convert, scanLines_of_no_newline _ hnl, if_neg hjne,
    if_neg (Nat.not_le_of_lt hshort), dropCR_of_no_cr hcr]
  simp only [convertLines, hline]
  simp only [stringsJoin, intercalate_singleton]

/-- The result of `Convert` with the default options on one lower-case word below the
limit of the scanner. -/
theorem Convert_lower_word (depth : Nat) {w : List Nat} (hw : lowerWord w)
    (hshort : byteLen w < maxScanTokenSize) :
    Convert (depth + 1) none true w = .ok (firstUpper w) := by
  have h := Convert_lower_words [w] depth (by simp) (by simpa using hw)
    (by rw [stringsJoin, intercalate_singleton]; exact hshort)
  simpa [stringsJoin, intercalate_singleton, expectedWords, expectedFrom, expectedWord_last]
    using h

theorem nil_ne_append_cons (p : List Nat) (c : Nat) (t : List Nat) :
    ([] : List Nat) ≠ p ++ c :: t := by
  intro h
  have := (List.append_eq_nil.1 h.symm).2
  cases this

theorem lowerWord_repeated {n : Nat} (h : 0 < n) : lowerWord (repeated n 97) := by
  refine ⟨repeated_ne_nil h, fun c hc => by rw [mem_repeated hc]; decide, ?_⟩
  obtain ⟨m, rfl⟩ : ∃ m, n = m + 1 := ⟨n - 1, by omega⟩
  rw [repeated_succ]
  intro hpre
  exact absurd hpre.1 (by simp [str, List.isPrefixOf])

/-- C1. A line of lower-case words has no output of capitalized words when it has 64 KiB
or more: for the line of one word of 65536 letters "a" the scan ends at the line, the
error is not looked at and `Convert` returns the empty string, not "A" followed by 65535
letters "a".  An example of the claim holds:
`Convert("the lord of the rings")` is "The Lord of the Rings". -/
theorem C1_long_line_dropped :
    (∀ depth : Nat, Convert (depth + 1) none true (repeated 65536 97) = .ok []) ∧
    lowerWord (repeated 65536 97) ∧
    stringsJoin [repeated 65536 97] [32] = repeated 65536 97 ∧
    stringsJoin (expectedWords [repeated 65536 97]) [32] = 65 :: repeated 65535 97 ∧
    ([] : List Nat) ≠ 65 :: repeated 65535 97 ∧
    Convert 1 none true (str "the lord of the rings") = .ok (str "The Lord of the Rings") := by
  have hnl : ∀ c ∈ repeated 65536 97, c ≠ 10 := by
    intro c hc
    rw [mem_repeated hc]
    decide
  have hlong : maxScanTokenSize ≤ byteLen (repeated 65536 97) := by
    rw [byteLen_repeated (by decide)]
    decide
  refine ⟨fun d => Convert_long_line d none true _ hnl hlong,
    lowerWord_repeated (by decide), intercalate_singleton _ _, ?_,
    nil_ne_append_cons [] _ _, rfl⟩
  rw [expectedWords, expectedFrom, expectedWord_last, stringsJoin, intercalate_singleton,
    show repeated 65536 97 = 97 :: repeated 65535 97 from repeated_succ 65535 97]
  rfl

/-! ## The prefixes Mc and Mac -/

/-- `MacMc` does not match a word that begins with "ma". -/
theorem MacMc_ma (t : List Nat) : MacMc (109 :: 97 :: t) = none := by
  match t with
  | [] => rfl
  | [_] => rfl
  | _ :: _ :: _ => simp [MacMc]

/-- C12, as amended. A word that begins with "mac" is not split into a prefix and a
remainder: the pattern `MacMc` matches the prefixes "Mc", "mc" and "MC" only.  A word of
lower-case letters that begins with "mac" and has less than 65536 bytes is classified as
a whole and gets its first letter in upper case, so `Convert("macintosh")` is "Macintosh"
with the default options. -/
theorem C12_mac_prefix_not_split (depth : Nat) (t : List Nat)
    (ht : ∀ c ∈ t, isLowerAZ c = true)
    (hshort : byteLen (str "mac" ++ t) < maxScanTokenSize) :
    MacMc (str "mac" ++ t) = none ∧
    Convert (depth + 1) none true (str "mac" ++ t) = .ok (str "Mac" ++ t) ∧
    Convert 1 none true (str "macintosh") = .ok (str "Macintosh") := by
  refine ⟨MacMc_ma _, ?_, rfl⟩
  have hw : lowerWord (str "mac" ++ t) := by
    refine ⟨by simp [str], ?_, ?_⟩
    · intro c hc
      rcases List.mem_append.1 hc with h | h
      · have hmac : ∀ x ∈ str "mac", isLowerAZ x = true := by decide
        exact hmac c h
      · exact ht c h
    · intro h
      exact absurd h.1 (by simp [str, List.isPrefixOf])
  exact Convert_lower_word depth hw hshort

/-- The hypotheses of C12, as amended, hold for the word "macintosh". -/
theorem C12_mac_prefix_not_split_witness :
    (∀ c ∈ str "intosh", isLowerAZ c = true) ∧
    byteLen (str "mac" ++ str "intosh") < maxScanTokenSize ∧
    Convert 1 none true (str "mac" ++ str "intosh") = .ok (str "Mac" ++ str "intosh") :=
  ⟨by decide, by decide,
    (C12_mac_prefix_not_split 0 (str "intosh") (by decide) (by decide)).2.1⟩

/-- C12 as stated fails: `Convert("macintosh")` is "Macintosh", not "MacIntosh". -/
theorem C12_counterexample :
    Convert 1 none true (str "macintosh") = .ok (str "Macintosh") ∧
    MacMc (str "macintosh") = none ∧
    Convert 1 none true (str "macintosh") ≠ .ok (str "MacIntosh") := by
  refine ⟨rfl, by decide, ?_⟩
  rw [show Convert 1 none true (str "macintosh") = .ok (str "Macintosh") from rfl]
  intro h
  injection h with h
  revert h
  decide


/-- `MacMc` matches a word of letters that begins with "mc" or "Mc" and has two or more
letters behind it: the groups are the prefix and the rest. -/
theorem MacMc_prefix {p r : List Nat} (hp : p = [109, 99] ∨ p = [77, 99])
    (hr : ∀ c ∈ r, isLetterAZ c = true) (hlen : 2 ≤ r.length) :
    MacMc (p ++ r) = some (p, r) := by
  match r with
  | [] => simp at hlen
  | [_] => simp at hlen
  | c :: d :: t =>
    have hc := isWordChar_of_letter (hr c (by simp))
    have hd : d ≠ 10 := (letter_ne (hr d (by simp))).2.2.2
    have ht : t.takeWhile (fun x => x != 10) = t := by
      rw [List.takeWhile_eq_self_iff]
      intro x hx
      simpa using (letter_ne (hr x (by simp [hx]))).2.2.2
    rcases hp with h | h <;> subst h <;> simp [MacMc, hc, hd, ht]

/-- The result of `Convert` with the default options on a word of letters with the
prefix "mc" or "Mc": the prefix "Mc" and the result for the rest of the word. -/
theorem Convert_mc_word (depth : Nat) {p r : List Nat} (hp : p = [109, 99] ∨ p = [77, 99])
    (hr : ∀ c ∈ r, isLetterAZ c = true) (hlen : 2 ≤ r.length)
    (hshort : byteLen (p ++ r) < maxScanTokenSize) :
    Convert (depth + 1) none true (p ++ r) =
      match Convert depth none true r with
      | .ok out => .ok ([77, 99] ++ out)
      | .error e => .error e := by
  have hrne : r ≠ [] := by intro h; subst h; simp at hlen
  have hplet : ∀ c ∈ p, isLetterAZ c = true := by
    rcases hp with h | h <;> subst h <;> decide
  have hlw : letterWord (p ++ r) := by
    refine ⟨by simp [hrne], ?_⟩
    intro c hc
    rcases List.mem_append.1 hc with h | h
    · exact hplet c h
    · exact hr c h
  have hline := @Convert_letter_words depth [p ++ r] (by simp) (by simpa using hlw)
    (by rw [stringsJoin, intercalate_singleton]; exact hshort)
  simp only [stringsJoin, intercalate_singleton] at hline
  have hrshort : r.length < maxScanTokenSize := by
    rw [byteLen_letterWord hlw, List.length_append] at hshort
    omega
  rw [hline]
  have hfields : stringsFields (p ++ r) = [p ++ r] :=
    fieldsFrom_word _ hlw.1 (letterWord_facts hlw).2
  have hcap : capitalize p = [77, 99] := capitalize_mc (by tauto)
  cases hconv : Convert depth none true r with
  | error e =>
    simp only [convertLine, hfields, convertWords, convertWord_letters _ _ hlw,
      MacMc_prefix hp hr hlen, hconv]
  | ok out =>
    have hout : ∀ c ∈ out, isLetterAZ c = true :=
      letters_of_sameLetters (Convert_word_stable depth r out ⟨hrne, hr⟩ hrshort hconv).2 hr
    have hv : ∀ c ∈ 77 :: 99 :: out, isLetterAZ c = true := by
      intro c hc
      rcases List.mem_cons.1 hc with h | h
      · subst h; decide
      rcases List.mem_cons.1 h with h | h
      · subst h; decide
      · exact hout c h
    have hcs : capSmall (77 :: 99 :: out) = 77 :: 99 :: out := capSmall_of_head (by decide)
    have hbreak : ∀ c ∈ 77 :: 99 :: out, isPhraseBreak c = false :=
      fun c hc => isPhraseBreak_of_letter (hv c hc)
    simp only [convertLine, hfields, convertWords, convertWord_letters _ _ hlw,
      MacMc_prefix hp hr hlen, hconv, hcap, if_true, forceFirst, forceLast, NewMutable,
      List.cons_append, List.nil_append, SmallFirst_letters hv, hcs, SmallLast_letters hv,
      joinWords, Mutagenic.String, SubPhrase_ReplaceAllStringFunc,
      subPhraseFrom_of_no_break _ _ hbreak]

/-- For every string r of two or more lower-case ASCII letters and each of the prefixes
"mc" and "Mc" such that the word p + r is below the limit of the scanner, `Convert(p + r)`
with the default options is "Mc" followed by `Convert(r)`: it returns when the call on r
has the depth of the length of r, and with the result of the call on r it is "Mc" and
that result. -/
theorem Convert_mc_lower_word (depth : Nat) (p r : List Nat)
    (hp : p = str "mc" ∨ p = str "Mc") (hr : ∀ c ∈ r, isLowerAZ c = true)
    (hlen : 2 ≤ r.length) (hshort : byteLen (p ++ r) < maxScanTokenSize) :
    (r.length ≤ depth → ∃ out, Convert depth none true r = .ok out ∧
      Convert (depth + 1) none true (p ++ r) = .ok (str "Mc" ++ out)) ∧
    (∀ out, Convert depth none true r = .ok out →
      Convert (depth + 1) none true (p ++ r) = .ok (str "Mc" ++ out)) := by
  have hp' : p = [109, 99] ∨ p = [77, 99] := hp
  have hr' : ∀ c ∈ r, isLetterAZ c = true := fun c hc => isLetterAZ_of_lower (hr c hc)
  have hrne : r ≠ [] := by intro h; subst h; simp at hlen
  have hstep : ∀ out, Convert depth none true r = .ok out →
      Convert (depth + 1) none true (p ++ r) = .ok (str "Mc" ++ out) := by
    intro out hout
    rw [Convert_mc_word depth hp' hr' hlen hshort, hout]
    rfl
  refine ⟨?_, hstep⟩
  intro hd
  obtain ⟨out, hout⟩ := Convert_letter_words_returns depth [r] (by simp)
    (by simpa using (⟨hrne, hr'⟩ : letterWord r)) (by simpa using hd)
  simp only [stringsJoin, intercalate_singleton] at hout
  exact ⟨out, hout, hstep out hout⟩

/-- C11. `Convert(p + r)` is not "Mc" followed by `Convert(r)` when the word p + r has
64 KiB or more and r has less.  For r of 65534 letters "a" the call on r returns "A" and
65533 letters "a"; the line "mc" + r has 65536 bytes, the scan ends at it, the error is
not looked at and `Convert` returns the empty string.  The example of the claim holds:
`Convert("mcdonald")` is "McDonald". -/
theorem C11_mc_word_lost_at_limit :
    (∀ depth : Nat, Convert (depth + 1) none true (str "mc" ++ repeated 65534 97) = .ok []) ∧
    (∀ depth : Nat,
      Convert (depth + 1) none true (repeated 65534 97) = .ok (65 :: repeated 65533 97)) ∧
    (∀ c ∈ repeated 65534 97, isLowerAZ c = true) ∧ 2 ≤ (repeated 65534 97).length ∧
    ([] : List Nat) ≠ str "Mc" ++ 65 :: repeated 65533 97 ∧
    Convert 2 none true (str "mcdonald") = .ok (str "McDonald") := by
  have hl : ∀ c ∈ repeated 65534 97, isLowerAZ c = true := by
    intro c hc
    rw [mem_repeated hc]
    decide
  have hlen : 2 ≤ (repeated 65534 97).length := by
    rw [repeated, List.length_replicate]
    decide
  refine ⟨?_, ?_, hl, hlen, nil_ne_append_cons _ _ _, rfl⟩
  · intro d
    apply Convert_long_line
    · intro c hc
      rcases List.mem_append.1 hc with h | h
      · have hmc : ∀ x ∈ str "mc", x ≠ 10 := by decide
        exact hmc c h
      · rw [mem_repeated h]; decide
    · rw [byteLen_append, byteLen_repeated (by decide),
        show byteLen (str "mc") = 2 from by decide]
      decide
  · intro d
    have h := Convert_lower_word d (lowerWord_repeated (n := 65534) (by decide))
      (by rw [byteLen_repeated (by decide)]; decide)
    rw [h, show repeated 65534 97 = 97 :: repeated 65533 97 from repeated_succ 65533 97]
    rfl

/-! ## The override -/

/-- The boundary pass keeps a first value that comes from the override. -/
theorem forced_head_immutable (sfl : Bool) (r : List Nat) (ms : List Mutagenic) :
    ∃ ms', (if sfl then forceLast (forceFirst (Mutagenic.Immutable r :: ms))
      else Mutagenic.Immutable r :: ms) = Mutagenic.Immutable r :: ms' := by
  cases sfl with
  | false => exact ⟨ms, rfl⟩
  | true =>
    cases ms with
    | nil => exact ⟨[], rfl⟩
    | cons m2 l => exact ⟨forceLast (m2 :: l), rfl⟩

/-- The value of a word for which the override has a replacement. -/
theorem convertWord_override (conv : List Nat → Except Fault (List Nat)) (f : tcCallback)
    (b : Bool) {w : List Nat} (h : f w b ≠ []) :
    convertWord conv (some f) b w = .ok (Mutagenic.Immutable (f w b)) := by
  unfold convertWord
  simp [h, NewImmutable]

theorem no_space_of_noSpace {r : List Nat} (h : noSpace r) : ∀ c ∈ r, c ≠ 32 := by
  intro c hc h32
  subst h32
  exact absurd (h 32 hc) (by decide)

/-- For every line below the limit of the scanner, every override f and either boundary
setting: when f has a replacement r for the first word of the line that is not empty and
has no white space, a result of `Convert` is r or begins with r and a space, and r is its
first word, whatever the rules and the boundary pass would make of the word. -/
theorem Convert_override_first_word (depth : Nat) (f : tcCallback) (sfl : Bool)
    (line out w : List Nat) (rest : List (List Nat)) (hnl : ∀ c ∈ line, c ≠ 10)
    (hshort : byteLen line < maxScanTokenSize)
    (hw : stringsFields line = w :: rest)
    (hne : f w (stringsToUpper line == line) ≠ [])
    (hns : noSpace (f w (stringsToUpper line == line)))
    (h : Convert depth (some f) sfl line = .ok out) :
    (out = f w (stringsToUpper line == line) ∨
      ∃ t, out = f w (stringsToUpper line == line) ++ 32 :: t) ∧
    (stringsFields out).head? = some (f w (stringsToUpper line == line)) := by
  refine ⟨?_, ?_⟩
  all_goals
    have hline : line ≠ [] := stringsFields_ne_nil_ne_nil (by rw [hw]; simp)
    obtain ⟨d, ms, -, hms, -, hout⟩ := Convert_line_ok hnl hline hshort h
    rw [hw] at hms
    cases hms with
    | @cons _ m _ ms' hm hrest =>
      rw [convertWord_override _ f _ hne] at hm
      cases hm
      obtain ⟨ms'', hforced⟩ := forced_head_immutable sfl
        (f w (stringsToUpper line == line)) ms'
      rw [hforced] at hout
      have h32 := no_space_of_noSpace hns
      have hstr : (Mutagenic.Immutable (f w (stringsToUpper line == line))).String =
          f w (stringsToUpper line == line) := rfl
      cases ms'' with
      | nil =>
        simp only [List.map_cons, List.map_nil, hstr, stringsJoin,
          intercalate_singleton] at hout
        rw [subPhrase_word _ h32] at hout
        first
          | exact Or.inl hout
          | (rw [hout, stringsFields_word hne hns]; rfl)
      | cons m2 l =>
        simp only [List.map_cons, hstr, stringsJoin, intercalate_cons_cons,
          List.append_assoc, List.singleton_append] at hout
        obtain ⟨t', ht'⟩ := subPhrase_head (f w (stringsToUpper line == line))
          ([32].intercalate (m2.String :: l.map Mutagenic.String)) h32
        rw [ht'] at hout
        first
          | exact Or.inr ⟨t', hout⟩
          | (rw [hout]; exact stringsFields_head hne hns t')

/-- C13. A line whose first word has a replacement by the override has no output that
begins with the replacement when the line has 64 KiB or more, or a word with a "/".  With
the override that maps "nasa" to "NASA": for the line of "nasa" and a word of 65536
letters "b" the scan ends at the line, the error is not looked at and `Convert` returns
the empty string; for the line "nasa a/b" the call on "a/b" calls itself without end.
The example of the claim holds: `Convert("nasa launch", f)` is "NASA Launch". -/
theorem C13_override_line_without_output :
    (∀ depth : Nat, Convert (depth + 1) (some overrideNasa) true
      (str "nasa" ++ 32 :: repeated 65536 98) = .ok []) ∧
    (∀ depth : Nat,
      Convert depth (some overrideNasa) true (str "nasa a/b") = .error .stackExhausted) ∧
    (stringsFields (str "nasa" ++ 32 :: repeated 65536 98)).head? = some (str "nasa") ∧
    (stringsFields (str "nasa a/b")).head? = some (str "nasa") ∧
    (∀ b : Bool, overrideNasa (str "nasa") b = str "NASA") ∧
    (stringsFields []).head? = none ∧
    Convert 1 (some overrideNasa) true (str "nasa launch") = .ok (str "NASA Launch") := by
  refine ⟨fun d => Convert_long_second_word d _ true _ (by decide) (by decide) (by decide),
    ?_, stringsFields_head (by decide) (by unfold noSpace; decide) _, by decide,
    fun _ => rfl, rfl, rfl⟩
  exact slash_line_never_returns _ true _ (str "nasa") (str "a/b") (Or.inl rfl)
    (fun f b h => by cases h; rfl) (by decide) (by decide) (fun _ => ⟨_, rfl⟩)

/-! ## Words kept as they are written -/

theorem aposSecondRest_chars : ∀ (t : List Nat), aposSecondRest t = true →
    ∀ c ∈ t, c ≠ 46 ∧ isUpperAZ c = false
  | [], _ => by simp
  | c :: t, h => by
    unfold aposSecondRest at h
    simp only [Bool.or_eq_true, Bool.and_eq_true, beq_iff_eq] at h
    rcases h with ⟨hc, ht⟩ | ⟨hc, ht⟩
    · intro x hx
      rcases List.mem_cons.1 hx with hx | hx
      · subst hx
        rw [isLowerAZ_iff] at hc
        exact ⟨by omega, by
          rw [Bool.eq_false_iff, Ne, isUpperAZ_iff]; omega⟩
      · exact aposSecondRest_chars t ht x hx
    · have hfin : ∀ x ∈ c :: t, x = 39 ∨ x = 115 := by
        cases t with
        | nil => simp at ht
        | cons d t' =>
          cases t' with
          | cons _ _ => simp at ht
          | nil =>
            simp only [Bool.or_eq_true, beq_iff_eq] at ht
            intro x hx
            simp only [List.mem_cons, List.mem_singleton, List.not_mem_nil, or_false] at hx
            rcases hx with hx | hx <;> subst hx <;> assumption
      intro x hx
      have := hfin x hx
      refine ⟨by omega, ?_⟩
      rw [Bool.eq_false_iff, Ne, isUpperAZ_iff]
      omega

/-- A word that matches `AposSecond` has neither a period nor an upper-case letter. -/
theorem AposSecond_chars {w : List Nat} (h : AposSecond w = true) :
    ∀ c ∈ w, c ≠ 46 ∧ isUpperAZ c = false := by
  match w with
  | [] => simp [AposSecond] at h
  | [_] => simp [AposSecond] at h
  | [_, _] => simp [AposSecond] at h
  | c0 :: c1 :: c2 :: t =>
    simp only [AposSecond, Bool.and_eq_true, Bool.or_eq_true, beq_iff_eq] at h
    obtain ⟨⟨⟨h0, h1⟩, h2⟩, ht⟩ := h
    rw [isLowerAZ_iff] at h2
    intro x hx
    simp only [List.mem_cons] at hx
    rcases hx with hx | hx | hx | hx
    · subst hx
      exact ⟨by omega, by rw [Bool.eq_false_iff, Ne, isUpperAZ_iff]; omega⟩
    · subst hx
      exact ⟨by omega, by rw [Bool.eq_false_iff, Ne, isUpperAZ_iff]; omega⟩
    · subst hx
      exact ⟨by omega, by rw [Bool.eq_false_iff, Ne, isUpperAZ_iff]; omega⟩
    · exact aposSecondRest_chars t ht x hx

/-- A word with a period between two lower-case letters, or with an upper-case letter
behind a letter, does not match `AposSecond`. -/
theorem AposSecond_of_kept {w : List Nat} (h : InlinePeriod w = true ∨ UCElsewhere w = true) :
    AposSecond w = false := by
  rw [Bool.eq_false_iff]
  intro ha
  have hc := AposSecond_chars ha
  rcases h with h | h
  · rw [InlinePeriod_of_no_period (fun c hc' => (hc c hc').1)] at h
    cases h
  · rw [UCElsewhere_of_no_upper (fun c hc' => (hc c hc').2)] at h
    cases h

/-- The value of a word that the rule of the words kept as written takes: the word. -/
theorem convertWord_kept (conv : List Nat → Except Fault (List Nat)) {w : List Nat}
    (h : InlinePeriod w = true ∨ UCElsewhere w = true) (hMc : MacMc w = none) :
    convertWord conv none false w = .ok (NewMutable w) := by
  have ha := AposSecond_of_kept h
  unfold convertWord
  simp only [Bool.false_eq_true, if_false, Bool.false_and, ha, hMc, Bool.not_false,
    Bool.true_and]
  rcases h with h | h <;> simp [h]

/-- A word with a period between two lower-case letters has a lower-case letter. -/
theorem InlinePeriod_lower : ∀ {w : List Nat}, InlinePeriod w = true →
    ∃ c ∈ w, isLowerAZ c = true
  | [], h => by simp [InlinePeriod] at h
  | [_], h => by simp [InlinePeriod] at h
  | [_, _], h => by simp [InlinePeriod] at h
  | a :: b :: c :: t, h => by
    rw [InlinePeriod] at h
    simp only [Bool.or_eq_true, Bool.and_eq_true] at h
    rcases h with ⟨⟨ha, -⟩, -⟩ | h
    · exact ⟨a, by simp, ha⟩
    · obtain ⟨x, hx, hl⟩ := InlinePeriod_lower h
      exact ⟨x, List.mem_cons_of_mem _ hx, hl⟩


theorem forceFirst_length (ms : List Mutagenic) : (forceFirst ms).length = ms.length := by
  match ms with
  | [] => rfl
  | .Immutable _ :: _ => rfl
  | .Mutable _ :: _ => rfl

theorem forceLast_length : ∀ (ms : List Mutagenic), (forceLast ms).length = ms.length
  | [] => rfl
  | [.Immutable _] => rfl
  | [.Mutable _] => rfl
  | m :: m2 :: ms => by
    have ih := forceLast_length (m2 :: ms)
    cases m <;> simp only [forceLast, List.length_cons] at ih ⊢ <;> omega

/-- The first `switch` of the boundary pass at a position of `tcLine`. -/
theorem forceFirst_getElem? (ms : List Mutagenic) (i : Nat) (v : List Nat)
    (h : ms[i]? = some (Mutagenic.Mutable v))
    (hfirst : i = 0 → SmallFirst_ReplaceAllStringFunc v capitalize = v) :
    (forceFirst ms)[i]? = some (Mutagenic.Mutable v) := by
  match ms, i with
  | [], _ => simp at h
  | m :: ms', 0 =>
    simp only [List.getElem?_cons_zero, Option.some.injEq] at h
    subst h
    simp only [forceFirst, NewMutable, hfirst rfl, List.getElem?_cons_zero]
  | m :: ms', j + 1 =>
    cases m <;> simpa [forceFirst, NewMutable] using h

/-- The second `switch` of the boundary pass at a position of `tcLine`. -/
theorem forceLast_getElem? : ∀ (ms : List Mutagenic) (i : Nat) (v : List Nat),
    ms[i]? = some (Mutagenic.Mutable v) →
    (i + 1 = ms.length → SmallLast_ReplaceAllStringFunc v capitalize = v) →
    (forceLast ms)[i]? = some (Mutagenic.Mutable v)
  | [], _, _, h, _ => by simp at h
  | [m], 0, v, h, hlast => by
    simp only [List.getElem?_cons_zero, Option.some.injEq] at h
    subst h
    simp only [forceLast, NewMutable, hlast rfl, List.getElem?_cons_zero]
  | [m], j + 1, v, h, _ => by simp at h
  | m :: m2 :: ms, 0, v, h, _ => by
    simp only [List.getElem?_cons_zero, Option.some.injEq] at h
    subst h
    simp [forceLast]
  | m :: m2 :: ms, j + 1, v, h, hlast => by
    have ih := forceLast_getElem? (m2 :: ms) j v (by simpa using h)
      (fun hj => hlast (by simp only [List.length_cons] at hj ⊢; omega))
    cases m <;> simpa [forceLast] using ih

/-- The boundary pass at a position of `tcLine` whose value it does not change. -/
theorem forced_getElem? (sfl : Bool) (ms : List Mutagenic) (i : Nat) (v : List Nat)
    (h : ms[i]? = some (Mutagenic.Mutable v))
    (hfirst : sfl = true → i = 0 → SmallFirst_ReplaceAllStringFunc v capitalize = v)
    (hlast : sfl = true → i + 1 = ms.length → SmallLast_ReplaceAllStringFunc v capitalize = v) :
    ((if sfl then forceLast (forceFirst ms) else ms).map Mutagenic.String)[i]? = some v := by
  cases sfl with
  | false => simp [h, Mutagenic.String]
  | true =>
    have h1 := forceFirst_getElem? ms i v h (hfirst rfl)
    have h2 := forceLast_getElem? (forceFirst ms) i v h1
      (fun hi => hlast rfl (by rw [forceFirst_length] at hi; exact hi))
    simp [h2, Mutagenic.String]

theorem fieldsFrom_append_space : ∀ (p cur q : List Nat),
    fieldsFrom cur (p ++ 32 :: q) = fieldsFrom cur p ++ fieldsFrom [] q
  | [], cur, q => by
    by_cases h : cur = [] <;> simp [fieldsFrom, h, show isSpace 32 = true from rfl]
  | c :: p, cur, q => by
    have h1 := fieldsFrom_append_space p [] q
    have h2 := fieldsFrom_append_space p (cur ++ [c]) q
    rw [List.cons_append]
    simp only [fieldsFrom, h1, h2]
    split
    · split <;> simp
    · rfl

/-- The fields of two texts with a space between them. -/
theorem stringsFields_append_space (p q : List Nat) :
    stringsFields (p ++ 32 :: q) = stringsFields p ++ stringsFields q :=
  fieldsFrom_append_space p [] q

theorem stringsJoin_append : ∀ (pre post : List (List Nat)), pre ≠ [] → post ≠ [] →
    stringsJoin (pre ++ post) [32] = stringsJoin pre [32] ++ 32 :: stringsJoin post [32]
  | [], _, h, _ => absurd rfl h
  | [v], post, _, hpost => by
    obtain ⟨x, l, rfl⟩ := List.exists_cons_of_ne_nil hpost
    simp only [stringsJoin, List.singleton_append, intercalate_cons_cons, intercalate_singleton,
      List.append_assoc]
  | v :: v2 :: vs, post, _, hpost => by
    have ih := stringsJoin_append (v2 :: vs) post (by simp) hpost
    simp only [stringsJoin, List.cons_append] at ih ⊢
    rw [intercalate_cons_cons, ih, intercalate_cons_cons]
    simp

theorem forall₂_append_left {α β : Type} {R : α → β → Prop} :
    ∀ {a : List α} {a' : List β} {b : List α} {b' : List β},
      List.Forall₂ R (a ++ b) (a' ++ b') → a.length = a'.length → List.Forall₂ R a a'
  | [], [], _, _, _, _ => List.Forall₂.nil
  | [], _ :: _, _, _, _, hl => by simp at hl
  | _ :: _, [], _, _, _, hl => by simp at hl
  | x :: a, y :: a', b, b', h, hl => by
    rw [List.cons_append, List.cons_append] at h
    cases h with
    | cons h1 h2 =>
      exact List.Forall₂.cons h1 (forall₂_append_left h2 (by simpa using hl))

/-- A small word at the head of a word and more text is at the head of the word. -/
theorem prefix_of_prefix_word {a w t : List Nat} (ha : ∀ c ∈ a, c ≠ 32)
    (h : a <+: w ++ 32 :: t) : a <+: w := by
  rcases List.prefix_or_prefix_of_prefix h (List.prefix_append w (32 :: t)) with h1 | h1
  · exact h1
  · obtain ⟨k, rfl⟩ := h1
    rw [List.prefix_append_right_inj] at h
    cases k with
    | nil => simp
    | cons x k =>
      have := List.cons_prefix_cons.1 h
      exact absurd this.1 (ha x (by simp))


theorem getElem?_split {α : Type} : ∀ {l : List α} {i : Nat} {x : α}, l[i]? = some x →
    ∃ pre post, l = pre ++ x :: post ∧ pre.length = i
  | [], _, _, h => by simp at h
  | y :: l, 0, x, h => by
    simp only [List.getElem?_cons_zero, Option.some.injEq] at h
    exact ⟨[], l, by simp [h], rfl⟩
  | y :: l, i + 1, x, h => by
    obtain ⟨pre, post, hl, hlen⟩ := getElem?_split (l := l) (i := i) (x := x) (by simpa using h)
    exact ⟨y :: pre, post, by simp [hl], by simp [hlen]⟩

/-- The result of a line at the position of a value that the phrase repair cannot
reach. -/
theorem result_getElem? (vs : List (List Nat)) (hvs : ∀ v ∈ vs, v ≠ [] ∧ noSpace v) (i : Nat)
    (w : List Nat) (hi : vs[i]? = some w)
    (hp : ∀ (p : List Nat) (b : Nat), 0 < i → vs[i - 1]? = some p → p.getLast? = some b →
      isPhraseBreak b = true → ∀ a ∈ smallWords, ¬ a <+: w) :
    (stringsFields (SubPhrase_ReplaceAllStringFunc (stringsJoin vs [32]) repairPhrase))[i]?
      = some w := by
  obtain ⟨pre, post, rfl, hlen⟩ := getElem?_split hi
  have hw := hvs w (by simp)
  have h32 := no_space_of_noSpace hw.2
  by_cases hpre : pre = []
  · subst hpre
    simp only [List.length_nil] at hlen
    subst hlen
    rw [← List.head?_eq_getElem?]
    exact result_head hw.1 hw.2 h32 post
  · rw [stringsJoin_append pre (w :: post) hpre (by simp)]
    have hX : ∀ a ∈ smallWords, a <+: stringsJoin (w :: post) [32] → a <+: w := by
      intro a ha hpa
      rcases stringsJoin_cons w post with h | ⟨t, h⟩
      · rwa [h] at hpa
      · rw [h] at hpa
        exact prefix_of_prefix_word (smallWords_no_space ha) hpa
    obtain ⟨p, hplast⟩ : ∃ p, pre.getLast? = some p := by
      cases hl : pre.getLast? with
      | none => exact absurd (List.getLast?_eq_none_iff.1 hl) hpre
      | some p => exact ⟨p, rfl⟩
    have hpmem : p ∈ pre := List.mem_of_getLast?_eq_some hplast
    have hpne := (hvs p (by simp [hpmem])).1
    have hidx : (pre ++ w :: post)[i - 1]? = some p := by
      have h0 : 0 < pre.length := List.length_pos.2 hpre
      rw [List.getElem?_append_left (by omega), ← hlen, ← List.getLast?_eq_getElem?]
      exact hplast
    have hpos : 0 < i := by
      rw [← hlen]; exact List.length_pos.2 hpre
    obtain ⟨p', hp'⟩ := subPhrase_split (stringsJoin (w :: post) [32]) (stringsJoin pre [32])
      (by
        intro b hb hbreak a ha hpa
        rw [stringsJoin_getLast? pre p hplast hpne] at hb
        exact hp p b hpos hidx hb hbreak a ha (hX a ha hpa))
    have hraised := subPhrase_raised (stringsJoin pre [32] ++ 32 :: stringsJoin (w :: post) [32])
    rw [hp'] at hraised ⊢
    have hrX := subPhrase_raised (stringsJoin (w :: post) [32])
    have hlenp : (stringsJoin pre [32]).length = p'.length := by
      have h1 := List.Forall₂.length_eq hraised
      have h2 := List.Forall₂.length_eq hrX
      simp only [List.length_append, List.length_cons] at h1
      omega
    have hrp : raised (stringsJoin pre [32]) p' := forall₂_append_left hraised hlenp
    have hfp := List.Forall₂.length_eq (stringsFields_raised hrp)
    rw [stringsFields_join pre (fun v hv => hvs v (by simp [hv]))] at hfp
    rw [stringsFields_append_space]
    have hY : ∃ l, stringsFields (SubPhrase_ReplaceAllStringFunc (stringsJoin (w :: post) [32])
        repairPhrase) = w :: l := by
      rcases stringsJoin_cons w post with h | ⟨t, h⟩
      · rw [h, subPhrase_word w h32, stringsFields_word hw.1 hw.2]
        exact ⟨[], rfl⟩
      · rw [h]
        obtain ⟨t', ht'⟩ := subPhrase_head w t h32
        rw [ht', stringsFields_append_space, stringsFields_word hw.1 hw.2]
        exact ⟨stringsFields t', rfl⟩
    obtain ⟨l, hl⟩ := hY
    rw [hl, List.getElem?_append_right (by omega)]
    have : i - (stringsFields p').length = 0 := by omega
    rw [this, List.getElem?_cons_zero]


/-- C15, as amended. The words kept as written are not locked.  For every line of less
than 65536 bytes, without override and with either boundary setting: `Convert` returns
when the line has a word and no "/" and the depth of calls is above the length of the
line; and in every result a word with a period between two lower-case letters, or (on a
line that is not all caps) with an upper-case letter behind a letter, that does not match
the pattern of the prefix Mc, is the word at the same position of the result when the
later passes do not reach it: when it is not the first word or `SmallFirst` with
`capitalize` leaves it as it is, when it is not the last word or `SmallLast` with
`capitalize` leaves it as it is, and when the word before it does not end in a phrase
break or no small word is at its head.  For instance "eBay" stays "eBay". -/
theorem C15_kept_word_not_locked (depth : Nat) (sfl : Bool) (line : List Nat)
    (hnl : ∀ c ∈ line, c ≠ 10) (hshort : byteLen line < maxScanTokenSize) :
    ((∀ c ∈ line, c ≠ 47) → stringsFields line ≠ [] → line.length + 1 ≤ depth →
      ∃ out, Convert depth none sfl line = .ok out) ∧
    (∀ out, Convert depth none sfl line = .ok out →
      ∀ (i : Nat) (w : List Nat), (stringsFields line)[i]? = some w →
      (InlinePeriod w = true ∨
        ((stringsToUpper line == line) = false ∧ UCElsewhere w = true)) →
      MacMc w = none →
      (sfl = true → i = 0 → SmallFirst_ReplaceAllStringFunc w capitalize = w) →
      (sfl = true → i + 1 = (stringsFields line).length →
        SmallLast_ReplaceAllStringFunc w capitalize = w) →
      (∀ (p : List Nat) (c : Nat), 0 < i → (stringsFields line)[i - 1]? = some p →
        p.getLast? = some c → isPhraseBreak c = true → ∀ a ∈ smallWords, ¬ a <+: w) →
      (stringsFields out)[i]? = some w) ∧
    Convert 1 none true (str "eBay") = .ok (str "eBay") := by
  refine ⟨fun hslash hwords hd => Convert_line_returns depth hnl hslash hwords hd, ?_, rfl⟩
  intro out h i w hw hkept hMc hfirst hlast hphrase
  have hwmem : w ∈ stringsFields line := List.getElem?_mem hw
  have hne : line ≠ [] := stringsFields_ne_nil_ne_nil (List.ne_nil_of_mem hwmem)
  obtain ⟨d, ms, -, hms, -, rfl⟩ := Convert_line_ok hnl hne hshort h
  have hb : (stringsToUpper line == line) = false := by
    rcases hkept with hk | hk
    · obtain ⟨c, hc, hl⟩ := InlinePeriod_lower hk
      exact stringsToUpper_ne_of_lower ((mem_stringsFields hwmem).2.2 c hc) hl
    · exact hk.1
  have hk : InlinePeriod w = true ∨ UCElsewhere w = true := by
    rcases hkept with hk | hk
    · exact Or.inl hk
    · exact Or.inr hk.2
  rw [hb] at hms
  obtain ⟨m, hm, hwm⟩ := forall₂_getElem? hms i w hw
  rw [convertWord_kept _ hk hMc] at hwm
  cases hwm
  have hlen := List.Forall₂.length_eq hms
  have hv := forced_getElem? sfl ms i w hm hfirst (fun hs hi => hlast hs (by omega))
  have hkept' := forall₂_map_right_string
    (values_wordKept (fun x hx => ⟨(mem_stringsFields hx).2.1,
      Nat.lt_of_le_of_lt (mem_stringsFields_byteLen hx) hshort⟩) hms)
  apply result_getElem? _ _ i w hv
  · intro p b hpos hp hb' hbreak
    cases hx : (stringsFields line)[i - 1]? with
    | none =>
      rw [List.getElem?_eq_none_iff] at hx
      have h1 := List.Forall₂.length_eq hkept'
      have h2 : i - 1 < ((if sfl = true then forceLast (forceFirst ms) else ms).map
          Mutagenic.String).length := by
        by_contra hcon
        rw [List.getElem?_eq_none (by omega)] at hp
        cases hp
      omega
    | some x =>
      obtain ⟨p2, hp2, hxp⟩ := forall₂_getElem? hkept' (i - 1) x hx
      rw [hp] at hp2
      cases hp2
      have hxne : x ≠ [] := (mem_stringsFields (List.getElem?_mem hx)).1
      obtain ⟨c, hc⟩ : ∃ c, x.getLast? = some c := by
        cases hl : x.getLast? with
        | none => exact absurd (List.getLast?_eq_none_iff.1 hl) hxne
        | some c => exact ⟨c, rfl⟩
      have := wordKept_phraseBreak hxp hb' hc
      exact hphrase x c hpos hx hc (by rw [← this]; exact hbreak)
  · intro v hv'
    obtain ⟨x, hx, hxv⟩ := forall₂_mem_right hkept' v hv'
    exact ⟨fun h' => (mem_stringsFields hx).1 ((wordKept_nil_iff hxv).1 h'), hxv.1⟩

/-- The hypotheses of C15, as amended, hold for the word "a.m." at the end of the line
"eBay a.m.". -/
theorem C15_kept_word_not_locked_witness :
    (∃ out, Convert 10 none true (str "eBay a.m.") = .ok out) ∧
    (stringsFields (str "eBay a.m."))[1]? = some (str "a.m.") :=
  ⟨(C15_kept_word_not_locked 10 true (str "eBay a.m.") (by decide) (by decide)).1
      (by decide) (by decide) (by decide),
   (C15_kept_word_not_locked 1 true (str "eBay a.m.") (by decide) (by decide)).2.1
    (str "eBay a.m.") rfl
    1 (str "a.m.") (by decide) (Or.inl (by decide)) (by decide)
    (fun _ hi => absurd hi (by decide)) (fun _ _ => by decide)
    (by
      intro p c _ hp hc hb
      have h1 : (stringsFields (str "eBay a.m."))[1 - 1]? = some (str "eBay") := by decide
      rw [h1] at hp
      cases hp
      have h2 : (str "eBay").getLast? = some 121 := rfl
      rw [h2] at hc
      cases hc
      exact absurd hb (by decide))⟩

/-- C15 as stated fails: the first word of "a.m. news" has a period between two
lower-case letters and does not stay as it is written, the boundary pass makes "A.m."
of it. -/
theorem C15_counterexample :
    Convert 1 none true (str "a.m. news") = .ok (str "A.m. News") ∧
    (stringsFields (str "a.m. news"))[0]? = some (str "a.m.") ∧
    InlinePeriod (str "a.m.") = true ∧
    (stringsFields (str "A.m. News"))[0]? ≠ some (str "a.m.") := by
  refine ⟨rfl, by decide, by decide, by decide⟩


/-! ## Case and white space -/

theorem plainWord_nil : plainWord [] :=
  ⟨fun _ h => by simp at h, fun _ h => by simp at h, fun _ h => by simp at h⟩

theorem plainWord_of_append_right {s t : List Nat} (h : plainWord (s ++ t)) : plainWord t :=
  ⟨fun c hc => h.1 c (by simp [hc]), fun c hc => h.2.1 c (by simp [hc]),
    fun c hc => h.2.2 c (by simp [hc])⟩

/-- The recasing of a possessive with the ASCII apostrophe changes the case of letters
only. -/
theorem aposRecase_sameLetters {w : List Nat} (hw : ∀ c ∈ w, c < 128) :
    sameLetters (aposRecase w) w := by
  match w with
  | [] => exact sameLetters_refl _
  | [_] => exact sameLetters_refl _
  | [_, _] => exact sameLetters_refl _
  | c0 :: c1 :: c2 :: t =>
    have h1 : (c1 == 0x2018) = false := by
      have := hw c1 (by simp)
      rw [beq_eq_false_iff_ne]
      omega
    simp only [aposRecase, h1]
    refine sameLetters_cons ?_ (sameLetters_cons rfl (sameLetters_cons
      (toLowerAZ_toUpperRune (Or.inl (hw c2 (by simp)))) (sameLetters_refl t)))
    split
    · exact toLowerAZ_toLowerRune (Or.inl (hw c0 (by simp)))
    · exact toLowerAZ_toUpperRune (Or.inl (hw c0 (by simp)))

/-- The value of a word of an ASCII line without a slash, without override, is the word
up to the case of its letters. -/
theorem convertWord_sameLetters {conv : List Nat → Except Fault (List Nat)}
    (hconv : ∀ x r, plainWord x → x.length < maxScanTokenSize → conv x = .ok r →
      sameLetters r x) {b : Bool}
    {w : List Nat} {m : Mutagenic} (hw : plainWord w) (hne : w ≠ [])
    (hshort : w.length < maxScanTokenSize)
    (h : convertWord conv none b w = .ok m) : sameLetters m.String w := by
  unfold convertWord at h
  simp only [Bool.false_eq_true, if_false] at h
  split at h
  · cases h; exact sameLetters_refl w
  split at h
  · cases h; exact aposRecase_sameLetters hw.2.1
  split at h
  · next m1 m2 hm =>
    obtain ⟨hw12, -, -, -, -⟩ := MacMc_some hm (noSpace_no_newline hw.1)
    split at h
    · cases h
    · next r hr =>
      cases h
      subst hw12
      exact sameLetters_append (capitalize_sameLetters m1
          (fun c hc => Or.inl (hw.2.1 c (by simp [hc]))))
        (hconv m2 r (plainWord_of_append_right hw) (by
          rw [List.length_append] at hshort; omega) hr)
  · split at h
    · cases h; exact sameLetters_refl w
    split at h
    · cases h; exact sameLetters_toLower w (fun c hc => Or.inl (hw.2.1 c hc))
    split at h
    · next hs =>
      have : stringsContains w [47] = false := by
        rw [stringsContains_singleton]
        simp only [List.contains_eq_any_beq, List.any_eq_false, beq_iff_eq]
        exact fun c hc => Ne.symm (hw.2.2 c hc)
      rw [this] at hs
      simp at hs
    split at h
    · next hh =>
      rw [stringsContains_hyphen] at hh
      have hw45 : w = [45] := by simpa [hne] using hh
      subst hw45
      split at h
      · cases h
      · next v hv =>
        cases h
        obtain ⟨rs, hrs, rfl⟩ := titleDelimited_ok hv
        rw [show stringsSplit [45] 45 = [[], []] from rfl] at hrs
        cases hrs with
        | cons h1 hrs =>
          cases hrs with
          | cons h2 hrs =>
            cases hrs
            have e1 := (sameLetters_nil_iff (hconv _ _ plainWord_nil (by decide) h1)).2 rfl
            have e2 := (sameLetters_nil_iff (hconv _ _ plainWord_nil (by decide) h2)).2 rfl
            subst e1 e2
            exact sameLetters_refl _
    · cases h
      refine sameLetters_trans (CapFirst_sameLetters _) ?_
      split
      · exact sameLetters_toLower w (fun c hc => Or.inl (hw.2.1 c hc))
      · exact sameLetters_refl w


/-- `Convert` without override on a word of an ASCII line without a slash changes the
case of letters only. -/
theorem Convert_plain_word (sfl : Bool) : ∀ (depth : Nat) (x r : List Nat), plainWord x →
    x.length < maxScanTokenSize → Convert depth none sfl x = .ok r → sameLetters r x
  | 0, _, _, _, _, h => by cases h
  | depth + 1, x, r, hx, hshort, h => by
    by_cases hne : x = []
    · subst hne
      rw [Convert_nil] at h
      cases h
      exact sameLetters_refl _
    · rw [Convert_line _ _ _ _ (noSpace_no_newline hx.1) hne
          (by rw [byteLen_ascii hx.2.1]; exact hshort), convertLine_dropCR,
        convertLine_ok_iff] at h
      obtain ⟨ms, hms, -, hr⟩ := h
      rw [show stringsFields x = [x] from fieldsFrom_word x hne hx.1, convertWords_ok_iff] at hms
      cases hms with
      | @cons _ m _ _ hm hnil =>
        cases hnil
        have hk := convertWord_sameLetters (Convert_plain_word sfl depth) hx hne hshort hm
        have hf := forced_sameLetters sfl [m]
        generalize (if sfl = true then forceLast (forceFirst [m]) else [m]) = ms' at hf hr
        cases hf with
        | cons hv hnil' =>
          cases hnil'
          simp only [List.map_cons, List.map_nil, stringsJoin, intercalate_singleton] at hr
          rw [hr]
          exact sameLetters_trans
            (sameLetters_trans (sameLetters_symm (raised_sameLetters (subPhrase_raised _))) hv) hk

theorem plainWord_of_mem_fields {line w : List Nat} (hascii : ∀ c ∈ line, c < 128)
    (hslash : ∀ c ∈ line, c ≠ 47) (hw : w ∈ stringsFields line) : plainWord w :=
  ⟨(mem_stringsFields hw).2.1, fun c hc => hascii c ((mem_stringsFields hw).2.2 c hc),
    fun c hc => hslash c ((mem_stringsFields hw).2.2 c hc)⟩

/-- The values of the words of an ASCII line without a slash, behind the boundary pass:
the words up to the case of their letters. -/
theorem values_sameLetters {d : Nat} {sfl b : Bool} {ws : List (List Nat)}
    {ms : List Mutagenic}
    (hws : ∀ w ∈ ws, plainWord w ∧ w ≠ [] ∧ w.length < maxScanTokenSize)
    (h : List.Forall₂ (fun w m => convertWord (Convert d none sfl) none b w = .ok m) ws ms) :
    List.Forall₂ (fun w v => sameLetters v w) ws
      ((if sfl then forceLast (forceFirst ms) else ms).map Mutagenic.String) := by
  have h1 : List.Forall₂ (fun w m => sameLetters m.String w) ws ms := by
    revert hws
    induction h with
    | nil => intro _; exact List.Forall₂.nil
    | cons hab _ ih =>
      intro hws
      exact List.Forall₂.cons
        (convertWord_sameLetters (Convert_plain_word sfl d) (hws _ (by simp)).1
          (hws _ (by simp)).2.1 (hws _ (by simp)).2.2 hab)
        (ih (fun w hw => hws w (by simp [hw])))
  exact forall₂_map_right_string (forall₂_comp
    (R := fun (w : List Nat) (m : Mutagenic) => sameLetters m.String w)
    (S := fun (m m' : Mutagenic) => sameLetters m'.String m.String)
    (T := fun (w : List Nat) (m : Mutagenic) => sameLetters m.String w)
    (fun a b c hab hbc => sameLetters_trans hbc hab) h1 (forced_sameLetters sfl ms))

/-- The result of `Convert` without override on an ASCII line without a slash, below the
limit of the scanner, is the words of the line joined by single spaces, up to the case of
the letters. -/
theorem Convert_line_sameLetters {depth : Nat} {sfl : Bool} {line out : List Nat}
    (hnl : ∀ c ∈ line, c ≠ 10) (hascii : ∀ c ∈ line, c < 128) (hslash : ∀ c ∈ line, c ≠ 47)
    (hshort : byteLen line < maxScanTokenSize)
    (hwords : stringsFields line ≠ []) (h : Convert depth none sfl line = .ok out) :
    sameLetters out (stringsJoin (stringsFields line) [32]) := by
  obtain ⟨d, ms, -, hms, -, rfl⟩ :=
    Convert_line_ok hnl (stringsFields_ne_nil_ne_nil hwords) hshort h
  have hv := values_sameLetters (fun w hw =>
    ⟨plainWord_of_mem_fields hascii hslash hw, (mem_stringsFields hw).1, by
      have h1 := stringsFields_length_le hw
      rw [byteLen_ascii hascii] at hshort
      omega⟩) hms
  exact sameLetters_trans (sameLetters_symm (raised_sameLetters (subPhrase_raised _)))
    (join_sameLetters hv)


theorem toLowerAZ_eq_space {c : Nat} (h : toLowerAZ c = 32) : c = 32 := by
  unfold toLowerAZ at h
  split at h
  · next hu => rw [isUpperAZ_iff] at hu; omega
  · exact h

/-- A text that is, up to the case of the letters, words joined by single spaces is
words joined by single spaces. -/
theorem sameLetters_join_split : ∀ (ws : List (List Nat)) (t : List Nat),
    sameLetters t (stringsJoin ws [32]) →
    ∃ vs, List.Forall₂ (fun w v => sameLetters v w) ws vs ∧ t = stringsJoin vs [32]
  | [], t, h => by
    have : t = [] := (sameLetters_nil_iff h).2 rfl
    exact ⟨[], List.Forall₂.nil, this⟩
  | [w], t, h => by
    simp only [stringsJoin, intercalate_singleton] at h
    exact ⟨[t], List.Forall₂.cons h List.Forall₂.nil, by
      simp only [stringsJoin, intercalate_singleton]⟩
  | w :: w2 :: ws, t, h => by
    simp only [stringsJoin, intercalate_cons_cons, sameLetters, stringsToLower,
      List.map_append] at h
    obtain ⟨t1, t2, rfl, h1, h2⟩ := List.map_eq_append_iff.1 h
    obtain ⟨t3, t4, rfl, h3, h4⟩ := List.map_eq_append_iff.1 h1
    simp only [List.map_cons, List.map_nil] at h4
    obtain ⟨c, l, rfl, hc, hl⟩ := List.map_eq_cons_iff.1 h4
    have hl' : l = [] := List.map_eq_nil_iff.1 hl
    subst hl'
    have hc' : c = 32 := toLowerAZ_eq_space (by simpa [show toLowerAZ 32 = 32 from rfl] using hc)
    subst hc'
    obtain ⟨vs, hvs, rfl⟩ := sameLetters_join_split (w2 :: ws) t2 h2
    cases hvs with
    | cons hv hvs =>
      refine ⟨t3 :: _, List.Forall₂.cons h3 (List.Forall₂.cons hv hvs), ?_⟩
      simp only [stringsJoin, intercalate_cons_cons]

/-- The words of a text that is, up to the case of the letters, words joined by single
spaces. -/
theorem fields_of_sameLetters_join {ws : List (List Nat)} {t : List Nat}
    (hws : ∀ w ∈ ws, w ≠ [] ∧ noSpace w) (h : sameLetters t (stringsJoin ws [32])) :
    List.Forall₂ (fun w v => sameLetters v w) ws (stringsFields t) ∧
      t = stringsJoin (stringsFields t) [32] := by
  obtain ⟨vs, hvs, rfl⟩ := sameLetters_join_split ws t h
  have hf : stringsFields (stringsJoin vs [32]) = vs := by
    apply stringsFields_join
    intro v hv
    obtain ⟨w, hw, hwv⟩ := forall₂_mem_right hvs v hv
    exact ⟨fun h' => (hws w hw).1 ((sameLetters_nil_iff hwv).1 h'),
      (sameLetters_noSpace hwv).2 (hws w hw).2⟩
  rw [hf]
  exact ⟨hvs, rfl⟩


/-- For every ASCII line without a line break, below the limit of the scanner, that has
a word and no "/", without override and with either boundary setting, `Convert` returns
when its depth of calls is above the length of the line, and every result, in lower case,
is the words of the line joined by single spaces, in lower case; so the result has as many
words as the line, each as long as the word of the line, and is its own words joined by
single spaces. -/
theorem Convert_only_case_and_whitespace (depth : Nat) (sfl : Bool) (line : List Nat)
    (hascii : ∀ c ∈ line, c < 128) (hnl : ∀ c ∈ line, c ≠ 10) (hslash : ∀ c ∈ line, c ≠ 47)
    (hshort : byteLen line < maxScanTokenSize) (hwords : stringsFields line ≠ []) :
    (line.length + 1 ≤ depth → ∃ out, Convert depth none sfl line = .ok out) ∧
    (∀ out, Convert depth none sfl line = .ok out →
      stringsToLower out = stringsToLower (stringsJoin (stringsFields line) [32]) ∧
      (stringsFields out).length = (stringsFields line).length ∧
      List.Forall₂ (fun w o => o.length = w.length) (stringsFields line) (stringsFields out) ∧
      out = stringsJoin (stringsFields out) [32]) := by
  refine ⟨Convert_line_returns depth hnl hslash hwords, ?_⟩
  intro out h
  have hs := Convert_line_sameLetters hnl hascii hslash hshort hwords h
  obtain ⟨hf, hj⟩ := fields_of_sameLetters_join
    (fun w hw => ⟨(mem_stringsFields hw).1, (mem_stringsFields hw).2.1⟩) hs
  refine ⟨stringsToLower_of_sameLetters hs, (List.Forall₂.length_eq hf).symm, ?_, hj⟩
  exact forall₂_imp_mem hf (fun _ _ _ _ hab => sameLetters_length hab)

theorem stringsToLower_repeated (n : Nat) :
    stringsToLower (repeated n 97) = repeated n 97 := by
  unfold stringsToLower repeated
  rw [List.map_replicate]
  rfl

/-- C19. `Convert` changes more than letter case and white space on a line of 64 KiB or
more: for the ASCII line of 65536 letters "a", which is one word and has no "/", the scan
ends at the line, the error is not looked at and `Convert` returns the empty string, which
has no word, while the words of the line joined by single spaces are the line itself. -/
theorem C19_long_line_dropped :
    (∀ depth : Nat, Convert (depth + 1) none true (repeated 65536 97) = .ok []) ∧
    (∀ depth : Nat, Convert (depth + 1) none false (repeated 65536 97) = .ok []) ∧
    (∀ c ∈ repeated 65536 97, c < 128 ∧ c ≠ 10 ∧ c ≠ 47) ∧
    stringsFields (repeated 65536 97) = [repeated 65536 97] ∧
    stringsToLower (stringsJoin (stringsFields (repeated 65536 97)) [32]) =
      repeated 65536 97 ∧
    stringsToLower [] ≠ repeated 65536 97 ∧
    (stringsFields []).length = 0 := by
  have hc : ∀ c ∈ repeated 65536 97, c < 128 ∧ c ≠ 10 ∧ c ≠ 47 := by
    intro c hc
    rw [mem_repeated hc]
    decide
  have hlong : maxScanTokenSize ≤ byteLen (repeated 65536 97) := by
    rw [byteLen_repeated (by decide)]
    decide
  have hf : stringsFields (repeated 65536 97) = [repeated 65536 97] :=
    fieldsFrom_word _ (repeated_ne_nil (by decide)) (fun c hc => by
      rw [mem_repeated hc]; decide)
  refine ⟨fun d => Convert_long_line d none true _ (fun c h => (hc c h).2.1) hlong,
    fun d => Convert_long_line d none false _ (fun c h => (hc c h).2.1) hlong, hc, hf, ?_,
    fun h => repeated_ne_nil (n := 65536) (c := 97) (by decide) h.symm, rfl⟩
  rw [hf, stringsJoin, intercalate_singleton, stringsToLower_repeated]

/-! ## The possessive rule with the ASCII apostrophe -/

theorem aposSecondRest_mem : ∀ (t : List Nat), aposSecondRest t = true →
    ∀ c ∈ t, isLowerAZ c = true ∨ c = 39
  | [], _ => by simp
  | c :: t, h => by
    unfold aposSecondRest at h
    simp only [Bool.or_eq_true, Bool.and_eq_true, beq_iff_eq] at h
    rcases h with ⟨hc, ht⟩ | ⟨hc, ht⟩
    · intro x hx
      rcases List.mem_cons.1 hx with hx | hx
      · subst hx; exact Or.inl hc
      · exact aposSecondRest_mem t ht x hx
    · have hfin : ∀ x ∈ c :: t, x = 39 ∨ x = 115 := by
        cases t with
        | nil => simp at ht
        | cons d t' =>
          cases t' with
          | cons _ _ => simp at ht
          | nil =>
            simp only [Bool.or_eq_true, beq_iff_eq] at ht
            intro x hx
            simp only [List.mem_cons, List.mem_singleton, List.not_mem_nil, or_false] at hx
            rcases hx with hx | hx <;> subst hx <;> assumption
      intro x hx
      rcases hfin x hx with h' | h'
      · exact Or.inr h'
      · subst h'; exact Or.inl (by decide)

/-- No alternative of `smallWords` begins with the code point: the group does not match
at a text that begins with it. -/
theorem matchSmall_none_of_not_head {k : Option Nat → List Nat → Bool} {c : Nat} {t : List Nat}
    (h : ∀ a ∈ smallWords, a.head? ≠ some c) : matchSmall k (c :: t) = none := by
  unfold matchSmall
  rw [List.find?_eq_none]
  intro a ha
  have hh := h a ha
  cases a with
  | nil => exact absurd ha (by decide)
  | cons x a' =>
    have hx : x ≠ c := by simpa using hh
    simp [List.isPrefixOf, hx]

/-- The end of a possessive behind a letter holds no small word at a word boundary. -/
theorem smallLastFrom_aposSecondRest (f : List Nat → List Nat) : ∀ (t : List Nat) (p : Nat),
    isWordChar p = true → aposSecondRest t = true → smallLastFrom f (some p) t = t
  | [], _, _, _ => rfl
  | c :: t, p, hp, h => by
    unfold aposSecondRest at h
    simp only [Bool.or_eq_true, Bool.and_eq_true, beq_iff_eq] at h
    rcases h with ⟨hc, ht⟩ | ⟨hc, ht⟩
    · have hcw := isWordChar_of_letter (isLetterAZ_of_lower hc)
      rw [smallLastFrom, wordBoundary_of_word hp hcw, Bool.false_and]
      simp only [Bool.false_eq_true, if_false]
      rw [smallLastFrom_aposSecondRest f t c hcw ht]
    · cases t with
      | nil => simp at ht
      | cons d t' =>
        cases t' with
        | cons _ _ => simp at ht
        | nil =>
          simp only [Bool.or_eq_true, beq_iff_eq] at ht
          have h1 : ∀ (x : Nat) (l : List Nat), x = 39 ∨ x = 115 →
              matchSmall punctThenEnd (x :: l) = none := by
            intro x l hx
            rcases hx with hx | hx <;> subst hx <;>
              exact matchSmall_none_of_not_head (by decide)
          simp only [smallLastFrom, h1 c [d] hc, h1 d [] ht, Option.isSome_none,
            Bool.and_false, Bool.false_eq_true, if_false]


/-- `SmallFirst` does not match a text that begins with a code point that is neither
punctuation nor the beginning of a small word. -/
theorem SmallFirst_of_not_head {c : Nat} {t : List Nat} (f : List Nat → List Nat)
    (hh : ∀ a ∈ smallWords, a.head? ≠ some c) (hp : isPunct c = false) :
    SmallFirst_ReplaceAllStringFunc (c :: t) f = c :: t := by
  simp only [SmallFirst_ReplaceAllStringFunc, smallFirstMatch, hp, Bool.false_eq_true, if_false,
    matchSmall_none_of_not_head hh]

/-- The boundary pass and the phrase repair leave a recased possessive as it is. -/
theorem possessive_value_kept {first c2 : Nat} {t : List Nat}
    (hf : first = 100 ∨ first = 108 ∨ first = 79) (h2 : isLowerAZ c2 = true)
    (ht : aposSecondRest t = true) :
    SmallFirst_ReplaceAllStringFunc (first :: 39 :: toUpperRune c2 :: t) capitalize =
      first :: 39 :: toUpperRune c2 :: t ∧
    SmallLast_ReplaceAllStringFunc (first :: 39 :: toUpperRune c2 :: t) capitalize =
      first :: 39 :: toUpperRune c2 :: t ∧
    SubPhrase_ReplaceAllStringFunc (first :: 39 :: toUpperRune c2 :: t) repairPhrase =
      first :: 39 :: toUpperRune c2 :: t := by
  have hhead : ∀ a ∈ smallWords, a.head? ≠ some first := by
    rcases hf with h | h | h <;> subst h <;> decide
  have hpunct : isPunct first = false := by
    rcases hf with h | h | h <;> subst h <;> decide
  have hup := isUpperAZ_toUpperRune h2
  have hupw := isWordChar_of_letter (isLetterAZ_of_upper hup)
  refine ⟨SmallFirst_of_not_head _ hhead hpunct, ?_, ?_⟩
  · simp only [SmallLast_ReplaceAllStringFunc, smallLastFrom,
      matchSmall_none_of_not_head (k := punctThenEnd) hhead,
      matchSmall_none_of_not_head (k := punctThenEnd) (c := 39) (by decide),
      matchSmall_none_of_head (k := punctThenEnd) (isLowerAZ_of_upper hup),
      Option.isSome_none, Bool.and_false, Bool.false_eq_true, if_false,
      smallLastFrom_aposSecondRest capitalize t _ hupw ht]
  · apply subPhrase_word
    intro c hc
    simp only [List.mem_cons] at hc
    rcases hc with hc | hc | hc | hc
    · omega
    · omega
    · subst hc
      rw [isUpperAZ_iff] at hup
      omega
    · rcases aposSecondRest_mem t ht c hc with h | h
      · rw [isLowerAZ_iff] at h; omega
      · omega

/-- For every word of less than 65536 bytes that matches the possessive pattern with the
ASCII apostrophe, `Convert` with the default options on the line of that word returns the
recased word:
the first letter in upper case when it is a vowel and in lower case otherwise, the
apostrophe, the letter behind it in upper case and the rest as it is. -/
theorem Convert_possessive_ascii (depth : Nat) (c0 c2 : Nat) (t : List Nat)
    (h : AposSecond (c0 :: 39 :: c2 :: t) = true)
    (hshort : byteLen (c0 :: 39 :: c2 :: t) < maxScanTokenSize) :
    Convert (depth + 1) none true (c0 :: 39 :: c2 :: t) =
      .ok ((if c0 = 111 then toUpperRune c0 else toLowerRune c0) :: 39 :: toUpperRune c2 :: t)
    := by
  have h' := h
  simp only [AposSecond, Bool.and_eq_true, Bool.or_eq_true, beq_iff_eq] at h'
  obtain ⟨⟨⟨h0, -⟩, h2⟩, ht⟩ := h'
  have hmem : ∀ c ∈ c0 :: 39 :: c2 :: t, isLowerAZ c = true ∨ c = 39 := by
    intro c hc
    simp only [List.mem_cons] at hc
    rcases hc with hc | hc | hc | hc
    · subst hc
      left
      rw [isLowerAZ_iff]
      omega
    · exact Or.inr hc
    · subst hc; exact Or.inl h2
    · exact aposSecondRest_mem t ht c hc
  have hns : noSpace (c0 :: 39 :: c2 :: t) := by
    intro c hc
    rcases hmem c hc with h1 | h1
    · exact isSpace_of_letter (isLetterAZ_of_lower h1)
    · subst h1; decide
  have hcaps : (stringsToUpper (c0 :: 39 :: c2 :: t) == c0 :: 39 :: c2 :: t) = false :=
    stringsToUpper_ne_of_lower (c := c2) (by simp) h2
  have hrec : aposRecase (c0 :: 39 :: c2 :: t) =
      (if c0 = 111 then toUpperRune c0 else toLowerRune c0) :: 39 :: toUpperRune c2 :: t := by
    have : ((39 : Nat) == 0x2018) = false := by decide
    simp only [aposRecase, this, Bool.false_eq_true, if_false]
    rcases h0 with (h0 | h0) | h0 <;> subst h0 <;> rfl
  have hfirst : (if c0 = 111 then toUpperRune c0 else toLowerRune c0) = 100 ∨
      (if c0 = 111 then toUpperRune c0 else toLowerRune c0) = 108 ∨
      (if c0 = 111 then toUpperRune c0 else toLowerRune c0) = 79 := by
    rcases h0 with (h0 | h0) | h0 <;> subst h0 <;> decide
  obtain ⟨k1, k2, k3⟩ := possessive_value_kept hfirst h2 ht
  rw [Convert_line _ _ _ _ (noSpace_no_newline hns) (by simp) hshort, convertLine_dropCR]
  refine (convertLine_ok_iff _ _ _ _ _).2 ⟨[NewMutable (aposRecase (c0 :: 39 :: c2 :: t))],
    ?_, by simp, ?_⟩
  · rw [show stringsFields (c0 :: 39 :: c2 :: t) = [c0 :: 39 :: c2 :: t] from
      fieldsFrom_word _ (by simp) hns, convertWords_ok_iff]
    refine List.Forall₂.cons ?_ List.Forall₂.nil
    unfold convertWord
    simp [hcaps, h]
  · rw [hrec]
    simp only [if_true, forceFirst, forceLast, NewMutable, k1, k2, List.map_cons, List.map_nil,
      Mutagenic.String, stringsJoin, intercalate_singleton, k3]

end Titlecase
